import Mathlib

/-!
# cargs: a table-driven command-line argument parser

A shallow embedding of `cargs.c` / `cargs.h` and a verification of its scanning
behaviour.

Representation choices.

* A C string (`const char*`, NUL-terminated) is the Lean `String` of its characters
  before the terminator; a nullable `const char*` is an `Option String`.  Reading
  `arg[i]` for `i` equal to the length yields the terminator, so the source test
  `arg[0] == '-' && arg[1] != 0` holds exactly when the string has at least two
  characters, the first being a dash.
* `const char** value` (a nullable pointer to a caller-owned slot) is an `Option Nat`:
  the address of the slot.  The slot memory is a function from addresses to slot
  contents.  Two descriptors may hold the same address, as in C.
* Function pointers (`handler`, `neg_handler`, `error_handler`) are `Option Nat`: an
  identifier of the callee, `none` for `NULL`.  Calls are recorded in an event trace;
  callees are taken to leave the table, the parser object and the slots untouched.
* `carg*` pointers into the table (`last_pos`, `key`, the loop variable `ca`) are
  indices into the list of descriptors.  The list is the array handed to the parser.
  The array must end with a `CARG_END` entry; running off the end of the list is
  treated as reaching that entry.
* `argc`/`argv` is a `List String`, `argc` being its length.
* `nerrors` is a C `int`; it starts at zero and grows by at most one per token, so it
  stays below `argc` and never wraps.  It is a `Nat` here.
-/

namespace Cargs

/-- Command-line argument types (`carg_type`). -/
inductive carg_type
  | CARG_END
  | CARG_UNARY
  | CARG_KEYWORD
  | CARG_POS
  deriving DecidableEq, Repr

open carg_type

/-- Structure that defines an argument accepted by the program (`struct carg`). -/
structure carg where
  type : carg_type
  value : Option Nat
  desc : Option String
  name : Option String
  flag : Char
  neg_name : Option String
  handler : Option Nat
  neg_handler : Option Nat
  deriving DecidableEq, Repr

/-- Errors that can occur during parsing (`carg_error`). -/
inductive carg_error
  | CARG_ERROR_INVALID_ARGUMENT
  | CARG_ERROR_INVALID_FLAG
  | CARG_ERROR_EXPECTED_ARGUMENT_AFTER
  | CARG_ERROR_UNEXPECTED_ARGUMENT
  deriving DecidableEq, Repr

open carg_error

/-- Observable effects of a scan, in program order.
* `write a v`: the store `*(ca->value) = v` through the slot address `a`;
* `call fn ca`: the call `fn(ca)` of a `handler` or `neg_handler`, `ca` being the index
  of the descriptor passed;
* `error fn e p1 p2`: an error site was reached (`nerrors++`) with kind `e` and payloads
  `p1`, `p2`; `fn` is `parser->error_handler`, invoked with `(e, p1, p2)` when it is
  not `NULL`.  `p2` is an offset into `p1` (the source passes a pointer into `arg`). -/
inductive Event
  | write (slot : Nat) (v : Option String)
  | call (fn : Nat) (ca : Nat)
  | error (fn : Option Nat) (e : carg_error) (p1 : Option String) (p2 : Option Nat)
  deriving DecidableEq, Repr

/-- Structure that represents a command-line argument parser (`carg_parser` in the source). -/
structure carg_parser_t where
  cargs : List carg
  error_handler : Option Nat
  nerrors : Nat
  last_pos : Option Nat
  deriving DecidableEq, Repr

/-- Slot memory: the content of the caller-owned `const char*` at each address. -/
abbrev Slots := Nat → Option String

/-- The state a scan acts upon: the parser object, the slot memory and the trace. -/
structure Machine where
  parser : carg_parser_t
  slots : Slots
  trace : List Event

/-- Effect of `if (p) *p = v;` for a slot pointer `p`. -/
def Machine.write (m : Machine) (p : Option Nat) (v : Option String) : Machine :=
  match p with
  | none => m
  | some a =>
    { m with slots := fun b => if b = a then v else m.slots b,
             trace := m.trace ++ [Event.write a v] }

/-- Effect of `if (h) h(ca);` for a handler pointer `h` and the descriptor index `ca`. -/
def Machine.invoke (m : Machine) (h : Option Nat) (ca : Nat) : Machine :=
  match h with
  | none => m
  | some fn => { m with trace := m.trace ++ [Event.call fn ca] }

/-- Effect of `parser->nerrors++; if (parser->error_handler) parser->error_handler(e, p1, p2);`. -/
def Machine.report (m : Machine) (e : carg_error) (p1 : Option String) (p2 : Option Nat) :
    Machine :=
  { m with parser := { m.parser with nerrors := m.parser.nerrors + 1 },
           trace := m.trace ++ [Event.error m.parser.error_handler e p1 p2] }

/-- Effect of `parser->last_pos = ca;`. -/
def Machine.set_last_pos (m : Machine) (ca : Nat) : Machine :=
  { m with parser := { m.parser with last_pos := some ca } }

/-- Outcome of a table loop `for (...; ca->type != CARG_END; ca++)`: it either left
through `break` at entry `i` (whose content is `ca`), or stopped on the sentinel at
index `i`. -/
inductive Scan
  | found (i : Nat) (ca : carg)
  | sentinel (i : Nat)
  deriving DecidableEq, Repr

/-- The `for` loop of `carg_parse_pos`, started on the entries `rest` whose first one has
index `i`: looks for a positional entry that is not the already used `last_pos`. -/
def carg_parse_pos_loop (last_pos : Option Nat) : List carg → Nat → Scan
  | [], i => Scan.sentinel i
  | ca :: rest, i =>
    if ca.type = CARG_END then Scan.sentinel i
    else if ca.type ≠ CARG_POS then carg_parse_pos_loop last_pos rest (i + 1)
    else if last_pos = some i ∧ ca.value ≠ none then carg_parse_pos_loop last_pos rest (i + 1)
    else Scan.found i ca

/-- Where the loop of `carg_parse_pos` starts: at `last_pos` when there is one ("pick up
where we left off"), else at the beginning of the table. -/
def carg_parse_pos_start : Option Nat → Nat
  | some p => p
  | none => 0

/-- Helper function to parse a positional command-line argument (`carg_parse_pos`). -/
def carg_parse_pos (m : Machine) (arg : String) : Machine :=
  match carg_parse_pos_loop m.parser.last_pos
      (m.parser.cargs.drop (carg_parse_pos_start m.parser.last_pos))
      (carg_parse_pos_start m.parser.last_pos) with
  | Scan.found i ca => ((m.set_last_pos i).write ca.value (some arg)).invoke ca.handler i
  | Scan.sentinel i =>
    (m.report CARG_ERROR_UNEXPECTED_ARGUMENT (some arg) none).set_last_pos i

/-- The inner `for` loop of `carg_parse_flags`: first unary entry whose flag is `flag`. -/
def carg_parse_flags_find (flag : Char) : List carg → Nat → Scan
  | [], i => Scan.sentinel i
  | ca :: rest, i =>
    if ca.type = CARG_END then Scan.sentinel i
    else if ca.type ≠ CARG_UNARY then carg_parse_flags_find flag rest (i + 1)
    else if ca.flag = flag then Scan.found i ca
    else carg_parse_flags_find flag rest (i + 1)

/-- The outer `for` loop of `carg_parse_flags` over the characters from `flag_ptr` on;
`off` is the offset of `flag_ptr` in `arg`. -/
def carg_parse_flags_loop (arg : String) : List Char → Nat → Machine → Machine
  | [], _, m => m
  | flag :: rest, off, m =>
    match carg_parse_flags_find flag m.parser.cargs 0 with
    | Scan.found i ca =>
      carg_parse_flags_loop arg rest (off + 1) ((m.write ca.value (some arg)).invoke ca.handler i)
    | Scan.sentinel _ => m.report CARG_ERROR_INVALID_FLAG (some arg) (some off)

/-- Helper function to parse a collection of flags (`carg_parse_flags`). -/
def carg_parse_flags (m : Machine) (arg : String) : Machine :=
  carg_parse_flags_loop arg (arg.toList.drop 1) 1 m

/-- Outcome of the matching loop of the default state. -/
inductive Match
  | name (i : Nat) (ca : carg)
  | neg (i : Nat) (ca : carg)
  | nothing
  deriving DecidableEq, Repr

/-- The matching `for` loop of the default state of `carg_parse`: first entry, in table
order, whose name or (for a unary entry) negation is `arg`.  `strcmp` against a `NULL`
name is undefined in C and never matches here. -/
def carg_parse_match (arg : String) : List carg → Nat → Match
  | [], _ => Match.nothing
  | ca :: rest, i =>
    if ca.type = CARG_END then Match.nothing
    else if ca.type = CARG_POS then carg_parse_match arg rest (i + 1)
    else if ca.name = some arg then Match.name i ca
    else if ca.type ≠ CARG_UNARY then carg_parse_match arg rest (i + 1)
    else if ca.neg_name = some arg then Match.neg i ca
    else carg_parse_match arg rest (i + 1)

/-- The locals of `carg_parse` together with the machine. `arg` is `none` until the
first assignment `arg = argv[i]`; `key` holds the awaited keyword entry and its index. -/
structure Loop where
  state : Nat
  key : Option (Nat × carg)
  arg : Option String
  m : Machine

/-- What one iteration of the `for` loop of `carg_parse` does with its token: the branch
of the `switch` that is taken.
* `set i ca`: the name of the unary entry `ca` (index `i`) matched;
* `await i ca`: the name of the keyword entry `ca` matched, its value is expected next;
* `clear i ca`: the negation of the unary entry `ca` matched;
* `positional_only`: the token is `--`;
* `invalid_argument`: an unmatched token that starts with `--`;
* `flags`: the token goes to `carg_parse_flags`;
* `pos`: the token goes to `carg_parse_pos`;
* `value k key`: the token is the value of the awaited keyword entry;
* `skip`: no branch (a `state` outside 0..2, or `state` 1 without a `key`; neither
  arises in a scan). -/
inductive Action
  | set (i : Nat) (ca : carg)
  | await (i : Nat) (ca : carg)
  | clear (i : Nat) (ca : carg)
  | positional_only
  | invalid_argument
  | flags
  | pos
  | value (k : Nat) (key : carg)
  | skip
  deriving DecidableEq, Repr

/-- The tests made on a token for which the matching loop found nothing. -/
def carg_parse_unmatched (arg : String) : Action :=
  match arg.toList with
  | c0 :: c1 :: rest =>
    if c0 = '-' then
      if c1 = '-' then
        if rest = [] then Action.positional_only
        else Action.invalid_argument
      else Action.flags
    else Action.pos
  | _ => Action.pos

/-- The branch taken by one iteration of the `for` loop of `carg_parse`, from the locals
`state` and `key`, the table and the token. -/
def carg_parse_dispatch (state : Nat) (key : Option (Nat × carg)) (cargs : List carg)
    (tok : String) : Action :=
  match state with
  | 0 =>
    match carg_parse_match tok cargs 0 with
    | Match.name i ca => if ca.type = CARG_UNARY then Action.set i ca else Action.await i ca
    | Match.neg i ca => Action.clear i ca
    | Match.nothing => carg_parse_unmatched tok
  | 1 =>
    match key with
    | some (k, ca) => Action.value k ca
    | none => Action.skip
  | 2 => Action.pos
  | _ => Action.skip

/-- The statements of each branch. -/
def carg_parse_perform (L : Loop) (tok : String) : Action → Loop
  | Action.set i ca => { L with m := (L.m.write ca.value (some tok)).invoke ca.handler i }
  | Action.await i ca => { L with key := some (i, ca), state := 1 }
  | Action.clear i ca => { L with m := (L.m.write ca.value none).invoke ca.neg_handler i }
  | Action.positional_only => { L with state := 2 }
  | Action.invalid_argument =>
    { L with m := L.m.report CARG_ERROR_INVALID_ARGUMENT (some tok) none }
  | Action.flags => { L with m := carg_parse_flags L.m tok }
  | Action.pos => { L with m := carg_parse_pos L.m tok }
  | Action.value k key =>
    { L with m := (L.m.write key.value (some tok)).invoke key.handler k, state := 0 }
  | Action.skip => L

/-- One iteration of the `for` loop of `carg_parse` with `argv[i] = tok`. -/
def carg_parse_step (L : Loop) (tok : String) : Loop :=
  carg_parse_perform { L with arg := some tok } tok
    (carg_parse_dispatch L.state L.key L.m.parser.cargs tok)

/-- The locals of `carg_parse` at loop entry, after the two resetting stores. -/
def carg_parse_init (parser : carg_parser_t) (slots : Slots) : Loop :=
  { state := 0, key := none, arg := none,
    m := { parser := { parser with nerrors := 0, last_pos := none },
           slots := slots, trace := [] } }

/-- The `for (int i = 1; i < argc; i++)` loop of `carg_parse`. -/
def carg_parse_loop (parser : carg_parser_t) (slots : Slots) (argv : List String) : Loop :=
  (argv.drop 1).foldl carg_parse_step (carg_parse_init parser slots)

/-- The check after the loop: a keyword is still waiting for its value. -/
def carg_parse_finish (L : Loop) : Machine :=
  if L.state = 1 then L.m.report CARG_ERROR_EXPECTED_ARGUMENT_AFTER L.arg none
  else L.m

/-- Parses the given command-line arguments using the given parser (`carg_parse`). -/
def carg_parse (parser : carg_parser_t) (slots : Slots) (argv : List String) : Machine :=
  carg_parse_finish (carg_parse_loop parser slots argv)

/-! ## Vocabulary of the specification -/

/-- The declared descriptors of a table: the entries before the first `CARG_END`. -/
def entries (cargs : List carg) : List carg :=
  cargs.takeWhile (fun ca => decide (ca.type ≠ CARG_END))

/-- The token is the name of the unary or keyword descriptor. -/
def NameMatch (ca : carg) (t : String) : Prop :=
  (ca.type = CARG_UNARY ∨ ca.type = CARG_KEYWORD) ∧ ca.name = some t

/-- The token is the negation of the unary descriptor. -/
def NegMatch (ca : carg) (t : String) : Prop :=
  ca.type = CARG_UNARY ∧ ca.neg_name = some t

/-- The token matches the descriptor, by name or by negation. -/
def Matches (ca : carg) (t : String) : Prop :=
  NameMatch ca t ∨ NegMatch ca t

instance (ca : carg) (t : String) : Decidable (NameMatch ca t) := by
  unfold NameMatch; infer_instance

instance (ca : carg) (t : String) : Decidable (NegMatch ca t) := by
  unfold NegMatch; infer_instance

instance (ca : carg) (t : String) : Decidable (Matches ca t) := by
  unfold Matches; infer_instance

/-- The descriptor `D`, declared at index `i`, is the first one in declared order that the
token `t` matches. -/
def FirstMatch (cargs : List carg) (t : String) (i : Nat) (D : carg) : Prop :=
  (entries cargs)[i]? = some D ∧ Matches D t ∧ ∀ E ∈ (entries cargs).take i, ¬ Matches E t

instance (cargs : List carg) (t : String) (i : Nat) (D : carg) :
    Decidable (FirstMatch cargs t i D) := by
  unfold FirstMatch; infer_instance

/-- The token matches no declared descriptor, neither by name nor by negation. -/
def NoMatch (cargs : List carg) (t : String) : Prop :=
  ∀ E ∈ entries cargs, ¬ Matches E t

instance (cargs : List carg) (t : String) : Decidable (NoMatch cargs t) := by
  unfold NoMatch; infer_instance

/-- Events of `if (p) *p = v;`. -/
def writeEvents (p : Option Nat) (v : Option String) : List Event :=
  match p with
  | none => []
  | some a => [Event.write a v]

/-- Events of `if (h) h(ca);`. -/
def callEvents (h : Option Nat) (ca : Nat) : List Event :=
  match h with
  | none => []
  | some fn => [Event.call fn ca]

/-- Builds a descriptor without description (`desc` plays no part in a scan). -/
def carg.mk0 (type : carg_type) (value : Option Nat) (name : Option String) (flag : Char)
    (neg_name : Option String) (handler neg_handler : Option Nat) : carg :=
  { type := type, value := value, desc := none, name := name, flag := flag,
    neg_name := neg_name, handler := handler, neg_handler := neg_handler }

/-- The table of the scenario: unary `--foo` (flag `f`, negation `--no-foo`, slot 0),
keyword `--key` (slot 1), two positional descriptors (slots 2 and 3), the sentinel.
The handlers are left open. -/
def scenario_cargs (hfoo nfoo hkey hp1 hp2 : Option Nat) : List carg :=
  [ carg.mk0 CARG_UNARY (some 0) (some "--foo") 'f' (some "--no-foo") hfoo nfoo,
    carg.mk0 CARG_KEYWORD (some 1) (some "--key") (Char.ofNat 0) none hkey none,
    carg.mk0 CARG_POS (some 2) none (Char.ofNat 0) none hp1 none,
    carg.mk0 CARG_POS (some 3) none (Char.ofNat 0) none hp2 none,
    carg.mk0 CARG_END none none (Char.ofNat 0) none none none ]

/-- The scenario table without handlers, in a parser with an error handler. -/
def scenario_setup : carg_parser_t :=
  { cargs := scenario_cargs none none none none none, error_handler := some 9,
    nerrors := 0, last_pos := none }

/-- Slot memory in which every slot is `NULL`. -/
def null_slots : Slots := fun _ => none

/-- The descriptor is unary and its flag is `c`. -/
def HasFlag (ca : carg) (c : Char) : Prop :=
  ca.type = CARG_UNARY ∧ ca.flag = c

instance (ca : carg) (c : Char) : Decidable (HasFlag ca c) := by
  unfold HasFlag; infer_instance

/-- Some declared unary descriptor has the flag `c`. -/
def Declared (cargs : List carg) (c : Char) : Prop :=
  ∃ E ∈ entries cargs, HasFlag E c

instance (cargs : List carg) (c : Char) : Decidable (Declared cargs c) := by
  unfold Declared; infer_instance

/-- Index of the first declared unary descriptor with flag `c` (the number of declared
descriptors when there is none). -/
def flagIndex (cargs : List carg) (c : Char) : Nat :=
  (entries cargs).findIdx (fun ca => decide (HasFlag ca c))

/-- The first declared unary descriptor with flag `c`, if any. -/
def flagEntry (cargs : List carg) (c : Char) : Option carg :=
  (entries cargs)[flagIndex cargs c]?

/-- The characters of a cluster that come before the first one that no declared unary
descriptor has as flag (all of them when every character is a declared flag). -/
def declaredPrefix (cargs : List carg) (cs : List Char) : List Char :=
  cs.takeWhile (fun c => decide (Declared cargs c))

/-- The events of setting, from the token `t`, the first unary descriptor with flag `c`:
the store of `t` in its slot, then the call of its handler. -/
def flagEvents (cargs : List carg) (t : String) (c : Char) : List Event :=
  match flagEntry cargs c with
  | some D => writeEvents D.value (some t) ++ callEvents D.handler (flagIndex cargs c)
  | none => []

/-- A table with the unary flags `a` (slot 0), `b` (slot 1) and `d` (slot 2); `c` is not
declared. -/
def abd_cargs : List carg :=
  [ carg.mk0 CARG_UNARY (some 0) (some "--aa") 'a' none (some 10) none,
    carg.mk0 CARG_UNARY (some 1) (some "--bb") 'b' none none none,
    carg.mk0 CARG_UNARY (some 2) (some "--dd") 'd' none (some 12) none,
    carg.mk0 CARG_END none none (Char.ofNat 0) none none none ]

/-- A parser on `abd_cargs` with an error handler. -/
def abd_setup : carg_parser_t :=
  { cargs := abd_cargs, error_handler := some 9, nerrors := 0, last_pos := none }

/-- The event is an error site. -/
def Event.isError : Event → Bool
  | Event.error _ _ _ _ => true
  | _ => false

/-- The event is an error site of kind `k`. -/
def Event.isErrorOf (k : carg_error) : Event → Bool
  | Event.error _ e _ _ => decide (e = k)
  | _ => false

/-- The machine `m2` is reached from `m1` by statements of the token loop: the table and the
error handler are the same, the trace of `m2` extends that of `m1` by events none of which is
an `ExpectedArgumentAfter` error, whose error sites all carry the error handler of the parser,
and the error count has grown by the number of these error sites. -/
def Extends (m1 m2 : Machine) : Prop :=
  m2.parser.cargs = m1.parser.cargs ∧
  m2.parser.error_handler = m1.parser.error_handler ∧
  ∃ evs : List Event,
    m2.trace = m1.trace ++ evs ∧
    m2.parser.nerrors = m1.parser.nerrors + (evs.filter Event.isError).length ∧
    (∀ ev ∈ evs, Event.isErrorOf CARG_ERROR_EXPECTED_ARGUMENT_AFTER ev = false) ∧
    (∀ ev ∈ evs, ∀ fn e p1 p2, ev = Event.error fn e p1 p2 → fn = m1.parser.error_handler)

/-- The declared positional descriptors of the entries `cargs`, in declared order, each with
its index in the table, the first entry of `cargs` having index `i`. -/
def positionalsFrom (i : Nat) (cargs : List carg) : List (Nat × carg) :=
  ((entries cargs).enumFrom i).filter (fun p => decide (p.2.type = CARG_POS))

/-- The declared positional descriptors P1..Pk of a table, each with its index. -/
def positionals (cargs : List carg) : List (Nat × carg) :=
  positionalsFrom 0 cargs

/-- The positional cursor `last_pos` once `j` tokens have gone to the positional scanner, in
a table whose positional descriptors all have slots: `NULL` at first, then the `j`-th
positional descriptor, then the sentinel once the descriptors are used up. -/
def cursor (cargs : List carg) : Nat → Option Nat
  | 0 => none
  | j + 1 =>
    match (positionals cargs)[j]? with
    | some p => some p.1
    | none => some (entries cargs).length

/-- One iteration of the token loop, together with the list of the tokens that went to the
positional scanner so far. -/
def routed_step (acc : Loop × List String) (t : String) : Loop × List String :=
  (carg_parse_step acc.1 t,
    if carg_parse_dispatch acc.1.state acc.1.key acc.1.m.parser.cargs t = Action.pos
    then acc.2 ++ [t] else acc.2)

/-- The tokens of `argv` that the scan routes to the positional scanner, in order. -/
def routed (parser : carg_parser_t) (slots : Slots) (argv : List String) : List String :=
  ((argv.drop 1).foldl routed_step (carg_parse_init parser slots, [])).2

/-- No positional descriptor shares its slot with another declared descriptor. -/
def PositionalSlotsUnshared (cargs : List carg) : Prop :=
  ((positionals cargs).map (fun p => p.2.value)).Nodup ∧
  ∀ p ∈ positionals cargs, ∀ E ∈ entries cargs, E.type ≠ CARG_POS → E.value ≠ p.2.value

instance (cargs : List carg) : Decidable (PositionalSlotsUnshared cargs) := by
  unfold PositionalSlotsUnshared; infer_instance

/-- The descriptor carried by a branch is the declared descriptor at the index carried, and
has the type that the branch is for. -/
def ActionOK (cargs : List carg) : Action → Prop
  | Action.set i ca => (entries cargs)[i]? = some ca ∧ ca.type = CARG_UNARY
  | Action.await i ca => (entries cargs)[i]? = some ca ∧ ca.type = CARG_KEYWORD
  | Action.clear i ca => (entries cargs)[i]? = some ca ∧ ca.type = CARG_UNARY
  | Action.value k key => (entries cargs)[k]? = some key ∧ key.type = CARG_KEYWORD
  | _ => True

/-- The awaited keyword, if any, is a declared keyword descriptor. -/
def KeyOK (cargs : List carg) (key : Option (Nat × carg)) : Prop :=
  ∀ k K, key = some (k, K) → (entries cargs)[k]? = some K ∧ K.type = CARG_KEYWORD

/-- The address `b` is not the slot of any declared descriptor other than positional ones. -/
def Untouched (cargs : List carg) (b : Nat) : Prop :=
  ∀ E ∈ entries cargs, E.type ≠ CARG_POS → E.value ≠ some b

/-- The `UnexpectedArgument` error site of the token `t`. -/
def unexpectedEvent (parser : carg_parser_t) (t : String) : Event :=
  Event.error parser.error_handler CARG_ERROR_UNEXPECTED_ARGUMENT (some t) none

/-- Invariant of the token loop in a table whose positional descriptors all have slots,
`acc.2` being the tokens routed to the positional scanner so far: the cursor is determined
by their number, and the `UnexpectedArgument` errors are those of the routed tokens beyond
the number of positional descriptors. -/
def PosInv (parser : carg_parser_t) (acc : Loop × List String) : Prop :=
  acc.1.m.parser.cargs = parser.cargs ∧
  acc.1.m.parser.error_handler = parser.error_handler ∧
  KeyOK parser.cargs acc.1.key ∧
  acc.1.m.parser.last_pos = cursor parser.cargs acc.2.length ∧
  acc.1.m.trace.filter (Event.isErrorOf CARG_ERROR_UNEXPECTED_ARGUMENT) =
    (acc.2.drop (positionals parser.cargs).length).map (unexpectedEvent parser)

/-- Invariant on the slots of the positional descriptors: the `i`-th one holds the `i`-th
routed token if there is one, else its content `slots0` from before the scan. -/
def SlotInv (parser : carg_parser_t) (slots0 : Slots) (acc : Loop × List String) : Prop :=
  ∀ (i : Nat) (p : Nat × carg) (a : Nat),
    (positionals parser.cargs)[i]? = some p → p.2.value = some a →
    acc.1.m.slots a = match acc.2[i]? with
      | some t => some t
      | none => slots0 a

/-- A table whose two positional descriptors have the same slot (address 0). -/
def shared_cargs : List carg :=
  [ carg.mk0 CARG_POS (some 0) none (Char.ofNat 0) none none none,
    carg.mk0 CARG_POS (some 0) none (Char.ofNat 0) none none none,
    carg.mk0 CARG_END none none (Char.ofNat 0) none none none ]

/-- A parser on `shared_cargs`. -/
def shared_setup : carg_parser_t :=
  { cargs := shared_cargs, error_handler := none, nerrors := 0, last_pos := none }

/-- The address `b` is the slot of some declared positional descriptor. -/
def PosSlot (cargs : List carg) (b : Nat) : Prop :=
  ∃ P ∈ entries cargs, P.type = CARG_POS ∧ P.value = some b

instance (cargs : List carg) (b : Nat) : Decidable (PosSlot cargs b) := by
  unfold PosSlot; infer_instance

/-- The positional cursor, when set, points to a declared descriptor or to the sentinel. -/
def CursorOK (m : Machine) : Prop :=
  ∀ q, m.parser.last_pos = some q → q ≤ (entries m.parser.cargs).length

/-- A table in which the unary `--foo` and a positional descriptor have the same slot
(address 0). -/
def aliased_cargs : List carg :=
  [ carg.mk0 CARG_UNARY (some 0) (some "--foo") 'f' none none none,
    carg.mk0 CARG_POS (some 0) none (Char.ofNat 0) none none none,
    carg.mk0 CARG_END none none (Char.ofNat 0) none none none ]

/-- A parser on `aliased_cargs`. -/
def aliased_setup : carg_parser_t :=
  { cargs := aliased_cargs, error_handler := none, nerrors := 0, last_pos := none }

/-- The event is an invocation of the error handler of the parser. -/
def Event.isInvocation : Event → Bool
  | Event.error (some _) _ _ _ => true
  | _ => false

/-- Two machines agree on everything but the error handler and the trace. -/
def Sim (m1 m2 : Machine) : Prop :=
  m1.parser.cargs = m2.parser.cargs ∧ m1.parser.nerrors = m2.parser.nerrors ∧
  m1.parser.last_pos = m2.parser.last_pos ∧ m1.slots = m2.slots

/-- Two loop states agree on the locals and, up to `Sim`, on the machine. -/
def LoopSim (L1 L2 : Loop) : Prop :=
  L1.state = L2.state ∧ L1.key = L2.key ∧ L1.arg = L2.arg ∧ Sim L1.m L2.m

/-- Position, in the list `ps` of the positional descriptors, of the one that the search of
the positional scanner reaches for the `n + 1`-th positional token: the first one at first;
then the same again when it has no slot, the next one when it has a slot; it stays beyond
the list once the list is used up. -/
def consumer (ps : List (Nat × carg)) : Nat → Nat
  | 0 => 0
  | n + 1 =>
    match ps[consumer ps n]? with
    | some p => if p.2.value = none then consumer ps n else consumer ps n + 1
    | none => consumer ps n

/-- The positional cursor `last_pos` once `n` tokens have gone to the positional scanner, in
any table: `NULL` at first, then the descriptor that took the last token, or the sentinel
when none did. -/
def cursorG (cargs : List carg) : Nat → Option Nat
  | 0 => none
  | n + 1 =>
    match (positionals cargs)[consumer (positionals cargs) n]? with
    | some p => some p.1
    | none => some (entries cargs).length

/-- Invariant of the token loop in any table, `acc.2` being the tokens routed to the
positional scanner so far: the cursor is determined by their number. -/
def PosInvG (parser : carg_parser_t) (acc : Loop × List String) : Prop :=
  acc.1.m.parser.cargs = parser.cargs ∧
  acc.1.m.parser.error_handler = parser.error_handler ∧
  KeyOK parser.cargs acc.1.key ∧
  acc.1.m.parser.last_pos = cursorG parser.cargs acc.2.length

/-- A table whose only positional descriptor has no slot (and the handler 7), after a unary
descriptor. -/
def catchall_cargs : List carg :=
  [ carg.mk0 CARG_UNARY (some 0) (some "--foo") 'f' none none none,
    carg.mk0 CARG_POS none none (Char.ofNat 0) none (some 7) none,
    carg.mk0 CARG_END none none (Char.ofNat 0) none none none ]

/-- A parser on `catchall_cargs`. -/
def catchall_setup : carg_parser_t :=
  { cargs := catchall_cargs, error_handler := some 9, nerrors := 0, last_pos := none }

/-- A table in which the negation of the first unary descriptor is the name of the second:
unary `--a` with negation `--b` (slot 0), unary `--b` (slot 1). -/
def negfirst_cargs : List carg :=
  [ carg.mk0 CARG_UNARY (some 0) (some "--a") 'a' (some "--b") none none,
    carg.mk0 CARG_UNARY (some 1) (some "--b") 'b' none none none,
    carg.mk0 CARG_END none none (Char.ofNat 0) none none none ]

/-- A parser on `negfirst_cargs`. -/
def negfirst_setup : carg_parser_t :=
  { cargs := negfirst_cargs, error_handler := none, nerrors := 0, last_pos := none }

/-- The search made by `carg_parse_pos` in the machine `m`: the `for` loop started at the
cursor, or at the beginning of the table when the cursor is `NULL`. -/
def carg_parse_pos_search (m : Machine) : Scan :=
  carg_parse_pos_loop m.parser.last_pos
    (m.parser.cargs.drop (carg_parse_pos_start m.parser.last_pos))
    (carg_parse_pos_start m.parser.last_pos)

/-- A search from the start of the table for the first positional descriptor whose index is
not in the list `consumed`. -/
def fresh_search (cargs : List carg) (consumed : List Nat) : Scan :=
  match (positionals cargs).find? (fun p => decide (p.1 ∉ consumed)) with
  | some p => Scan.found p.1 p.2
  | none => Scan.sentinel (entries cargs).length

/-- The index of the descriptor at which a table loop left through `break`, if it did. -/
def Scan.index? : Scan → Option Nat
  | Scan.found i _ => some i
  | Scan.sentinel _ => none

/-- One iteration of the token loop, together with the results of the searches made by the
positional scanner so far, one for each token routed to it. -/
def search_step (acc : Loop × List Scan) (t : String) : Loop × List Scan :=
  (carg_parse_step acc.1 t,
    if carg_parse_dispatch acc.1.state acc.1.key acc.1.m.parser.cargs t = Action.pos
    then acc.2 ++ [carg_parse_pos_search acc.1.m] else acc.2)

/-- The results of the searches of the positional scanner during the scan of `argv`, in
order: which positional descriptor each routed token was matched to, if any. -/
def searches (parser : carg_parser_t) (slots : Slots) (argv : List String) : List Scan :=
  ((argv.drop 1).foldl search_step (carg_parse_init parser slots, [])).2

/-- What the search for the `i + 1`-th positional token finds, from the list of the
positional descriptors. -/
def scanAt (cargs : List carg) (i : Nat) : Scan :=
  match (positionals cargs)[consumer (positionals cargs) i]? with
  | some p => Scan.found p.1 p.2
  | none => Scan.sentinel (entries cargs).length

/-- Invariant of the token loop, `acc.2` being the search results so far. -/
def SearchInv (parser : carg_parser_t) (acc : Loop × List Scan) : Prop :=
  acc.1.m.parser.cargs = parser.cargs ∧
  KeyOK parser.cargs acc.1.key ∧
  acc.1.m.parser.last_pos = cursorG parser.cargs acc.2.length ∧
  ∀ i s, acc.2[i]? = some s → s = scanAt parser.cargs i

/-- The events of one match on a declared descriptor `D` of index `i`: the store in its slot
(if it has one) followed by the call of the handler concerned (if there is one); the value
stored is a token and the handler is `handler`, or, for a negation, the value is absent and
the handler is `neg_handler`. -/
def IsMatchBlock (cargs : List carg) (evs : List Event) : Prop :=
  ∃ i D, (entries cargs)[i]? = some D ∧
    ((∃ t : String, evs = writeEvents D.value (some t) ++ callEvents D.handler i) ∨
      (D.type = CARG_UNARY ∧ evs = writeEvents D.value none ++ callEvents D.neg_handler i))

/-- A single error site. -/
def IsErrorBlock (evs : List Event) : Prop :=
  ∃ fn e p1 p2, evs = [Event.error fn e p1 p2]

/-- The events are a succession of match blocks and error sites. -/
def Blocks (cargs : List carg) (evs : List Event) : Prop :=
  ∃ bs : List (List Event), evs = bs.flatten ∧
    ∀ b ∈ bs, IsMatchBlock cargs b ∨ IsErrorBlock b

/-- Invariant of the token loop for the block structure of the trace. -/
def BlockInv (parser : carg_parser_t) (L : Loop) : Prop :=
  L.m.parser.cargs = parser.cargs ∧ KeyOK parser.cargs L.key ∧ CursorOK L.m ∧
  Blocks parser.cargs L.m.trace

/-- A table in which two unary descriptors have the flag `c`: `--a` (slot 0) declared first,
`--b` (slot 1) after it. -/
def dupflag_cargs : List carg :=
  [ carg.mk0 CARG_UNARY (some 0) (some "--a") 'c' none none none,
    carg.mk0 CARG_UNARY (some 1) (some "--b") 'c' none none none,
    carg.mk0 CARG_END none none (Char.ofNat 0) none none none ]

/-- A parser on `dupflag_cargs`. -/
def dupflag_setup : carg_parser_t :=
  { cargs := dupflag_cargs, error_handler := none, nerrors := 0, last_pos := none }

/-- The awaited keyword, if any, is not the descriptor of index `iB`. -/
def KeyNot (iB : Nat) (key : Option (Nat × carg)) : Prop :=
  ∀ k K, key = some (k, K) → k ≠ iB

/-- Invariant of the token loop for the error count, `n` being the number of tokens read:
the count, plus one when a keyword value is awaited, is at most `n`. -/
def ErrInv (L : Loop) (n : Nat) : Prop :=
  L.m.parser.nerrors + (if L.state = 1 then 1 else 0) ≤ n

/-- The effect of one event on the slot memory: a store changes the slot written. -/
def applyEvent (s : Slots) : Event → Slots
  | Event.write a v => fun b => if b = a then v else s b
  | _ => s

/-- The slot memory obtained from `s0` by the stores of the trace `tr`, in order. -/
def applyWrites (tr : List Event) (s0 : Slots) : Slots :=
  tr.foldl applyEvent s0

/-- The value of the last store of the trace into the slot `b`, if there is one. -/
def lastWrite (b : Nat) : List Event → Option (Option String)
  | [] => none
  | Event.write a v :: rest =>
    match lastWrite b rest with
    | some w => some w
    | none => if b = a then some v else none
  | _ :: rest => lastWrite b rest

/-- The slots of the machine are those obtained from `s0` by the stores of its trace. -/
def Tracks (s0 : Slots) (m : Machine) : Prop :=
  m.slots = applyWrites m.trace s0

/-- Two machines have the same parser object and the same trace. -/
def SimT (m1 m2 : Machine) : Prop :=
  m1.parser = m2.parser ∧ m1.trace = m2.trace

/-- Two loop states agree on the locals, the parser object and the trace. -/
def LoopSimT (L1 L2 : Loop) : Prop :=
  L1.state = L2.state ∧ L1.key = L2.key ∧ L1.arg = L2.arg ∧ SimT L1.m L2.m

/-- A table in which a keyword descriptor and a positional descriptor have the same slot
(address 0). -/
def keyshare_cargs : List carg :=
  [ carg.mk0 CARG_KEYWORD (some 0) (some "--key") (Char.ofNat 0) none none none,
    carg.mk0 CARG_POS (some 0) none (Char.ofNat 0) none none none,
    carg.mk0 CARG_END none none (Char.ofNat 0) none none none ]

/-- A parser on `keyshare_cargs`. -/
def keyshare_setup : carg_parser_t :=
  { cargs := keyshare_cargs, error_handler := none, nerrors := 0, last_pos := none }

/-- The locals `state` and `key` are those of a running scan: `state` is 0 (default),
2 (positional only) or 1 (keyword value awaited) with a keyword held in `key`. -/
def StateOK (L : Loop) : Prop :=
  L.state = 0 ∨ L.state = 2 ∨ (L.state = 1 ∧ ∃ k K, L.key = some (k, K))

/-- The keyword descriptor `E` is awaited after the tokens `pre`: the last token `k` of
`pre` is not token zero, was read in the default state, and is the name of `E`, its first
match in the table. -/
def KeyFrom (parser : carg_parser_t) (slots : Slots) (pre : List String) (E : carg) : Prop :=
  ∃ init k j, pre = init ++ [k] ∧ init ≠ [] ∧ E.type = CARG_KEYWORD ∧ E.name = some k ∧
    (carg_parse_loop parser slots init).state = 0 ∧ FirstMatch parser.cargs k j E

/-- The token `t`, read after the tokens `pre`, matches the descriptor `E`, and `v` is the
value this match stores in the slot of `E`:
* read in the default state, `t` is the name of the unary descriptor `E`, its first match
  in the table (`v` is `t`);
* read in the default state, `t` is the negation and not the name of the unary descriptor
  `E`, its first match (`v` is absent);
* `t` is read right after the name of the keyword descriptor `E` (`v` is `t`);
* read in the default state and matching no name or negation, `t` is a flag cluster and
  `E` is the first unary descriptor with one of its flags that come before the first
  undeclared one (`v` is `t`);
* `t` goes to the positional scanner (it is read in the positional-only state, or in the
  default state when it matches nothing and is neither `--`, a long option or a flag
  cluster) and the scanner selects the positional descriptor `E` (`v` is `t`). -/
def MatchedNow (parser : carg_parser_t) (slots : Slots) (pre : List String) (t : String)
    (E : carg) (v : Option String) : Prop :=
  ((carg_parse_loop parser slots pre).state = 0 ∧ (∃ j, FirstMatch parser.cargs t j E) ∧
    NameMatch E t ∧ E.type = CARG_UNARY ∧ v = some t) ∨
  ((carg_parse_loop parser slots pre).state = 0 ∧ (∃ j, FirstMatch parser.cargs t j E) ∧
    ¬ NameMatch E t ∧ NegMatch E t ∧ v = none) ∨
  ((carg_parse_loop parser slots pre).state = 1 ∧ KeyFrom parser slots pre E ∧ v = some t) ∨
  ((carg_parse_loop parser slots pre).state = 0 ∧ NoMatch parser.cargs t ∧
    E.type = CARG_UNARY ∧
    (∃ c1 rest, t.toList = '-' :: c1 :: rest ∧ c1 ≠ '-' ∧
      ∃ c ∈ declaredPrefix parser.cargs (c1 :: rest), flagEntry parser.cargs c = some E) ∧
    v = some t) ∨
  (((carg_parse_loop parser slots pre).state = 2 ∨
      ((carg_parse_loop parser slots pre).state = 0 ∧ NoMatch parser.cargs t ∧
        carg_parse_unmatched t = Action.pos)) ∧
    E.type = CARG_POS ∧
    (∃ j, carg_parse_pos_search (carg_parse_loop parser slots pre).m = Scan.found j E) ∧
    v = some t)

/-- The token `argv[i]`, `i ≥ 1`, is `t` and matches the declared descriptor `E`, storing
`v` in its slot (see `MatchedNow`, with the tokens before `argv[i]` as `pre`). -/
def MatchedAt (parser : carg_parser_t) (slots : Slots) (argv : List String) (i : Nat)
    (t : String) (E : carg) (v : Option String) : Prop :=
  1 ≤ i ∧ argv[i]? = some t ∧ E ∈ entries parser.cargs ∧
    MatchedNow parser slots (argv.take i) t E v

/-- Invariant of the token loop for the provenance of the stores, `pre` being the tokens
read so far (token zero included): every store of the trace is the store of a match of
some token, and an awaited keyword comes from the last token. -/
def MatchInv (parser : carg_parser_t) (slots : Slots) (pre : List String) : Prop :=
  (∀ a v, Event.write a v ∈ (carg_parse_loop parser slots pre).m.trace →
    ∃ i t E, MatchedAt parser slots pre i t E v ∧ E.value = some a) ∧
  ((carg_parse_loop parser slots pre).state = 1 →
    ∃ j K, (carg_parse_loop parser slots pre).key = some (j, K) ∧ KeyFrom parser slots pre K)

/-- A table in which three unary descriptors have the flag `c`: `--z` (slot 0) declared
first, then `--a` (slot 1, handler 11), then `--b` (slot 2). -/
def tripleflag_cargs : List carg :=
  [ carg.mk0 CARG_UNARY (some 0) (some "--z") 'c' none none none,
    carg.mk0 CARG_UNARY (some 1) (some "--a") 'c' none (some 11) none,
    carg.mk0 CARG_UNARY (some 2) (some "--b") 'c' none none none,
    carg.mk0 CARG_END none none (Char.ofNat 0) none none none ]

/-- A parser on `tripleflag_cargs`. -/
def tripleflag_setup : carg_parser_t :=
  { cargs := tripleflag_cargs, error_handler := none, nerrors := 0, last_pos := none }

/-! ## Basic facts on the machine operations -/

section Basic

variable (m : Machine) (p : Option Nat) (v : Option String) (h : Option Nat) (i : Nat)
  (e : carg_error) (p1 : Option String) (p2 : Option Nat)

@[simp] theorem write_parser_eq : (m.write p v).parser = m.parser := by
  cases p <;> rfl

@[simp] theorem write_trace : (m.write p v).trace = m.trace ++ writeEvents p v := by
  cases p <;> simp [Machine.write, writeEvents]

theorem write_slots (b : Nat) :
    (m.write p v).slots b = if p = some b then v else m.slots b := by
  cases p with
  | none => simp [Machine.write]
  | some a =>
    simp only [Machine.write, Option.some.injEq]
    by_cases hb : b = a
    · simp [hb]
    · have : ¬ a = b := fun hab => hb hab.symm
      simp [hb, this]

@[simp] theorem write_slots_self (a : Nat) : (m.write (some a) v).slots a = v := by
  simp [write_slots]

@[simp] theorem write_none : m.write none v = m := rfl

@[simp] theorem invoke_parser_eq : (m.invoke h i).parser = m.parser := by
  cases h <;> rfl

@[simp] theorem invoke_slots : (m.invoke h i).slots = m.slots := by
  cases h <;> rfl

@[simp] theorem invoke_trace : (m.invoke h i).trace = m.trace ++ callEvents h i := by
  cases h <;> simp [Machine.invoke, callEvents]

@[simp] theorem report_slots : (m.report e p1 p2).slots = m.slots := rfl

@[simp] theorem report_trace :
    (m.report e p1 p2).trace = m.trace ++ [Event.error m.parser.error_handler e p1 p2] := rfl

@[simp] theorem report_nerrors : (m.report e p1 p2).parser.nerrors = m.parser.nerrors + 1 := rfl

@[simp] theorem report_cargs : (m.report e p1 p2).parser.cargs = m.parser.cargs := rfl

@[simp] theorem report_error_handler :
    (m.report e p1 p2).parser.error_handler = m.parser.error_handler := rfl

@[simp] theorem report_last_pos : (m.report e p1 p2).parser.last_pos = m.parser.last_pos := rfl

@[simp] theorem set_last_pos_slots : (m.set_last_pos i).slots = m.slots := rfl

@[simp] theorem set_last_pos_trace : (m.set_last_pos i).trace = m.trace := rfl

@[simp] theorem set_last_pos_nerrors : (m.set_last_pos i).parser.nerrors = m.parser.nerrors := rfl

@[simp] theorem set_last_pos_cargs : (m.set_last_pos i).parser.cargs = m.parser.cargs := rfl

@[simp] theorem set_last_pos_error_handler :
    (m.set_last_pos i).parser.error_handler = m.parser.error_handler := rfl

@[simp] theorem set_last_pos_last_pos : (m.set_last_pos i).parser.last_pos = some i := rfl

end Basic

/-! ## The matching loop of the default state -/

theorem mem_entries_type {cargs : List carg} {E : carg} (hE : E ∈ entries cargs) :
    E.type ≠ CARG_END := by
  have := List.mem_takeWhile_imp hE
  simpa using this

theorem entries_cons_end (ca : carg) (rest : List carg) (h : ca.type = CARG_END) :
    entries (ca :: rest) = [] := by
  simp [entries, List.takeWhile_cons, h]

theorem entries_cons (ca : carg) (rest : List carg) (h : ca.type ≠ CARG_END) :
    entries (ca :: rest) = ca :: entries rest := by
  simp [entries, List.takeWhile_cons, h]

theorem carg_parse_match_nothing (t : String) (cargs : List carg) (i0 : Nat)
    (h : NoMatch cargs t) : carg_parse_match t cargs i0 = Match.nothing := by
  induction cargs generalizing i0 with
  | nil => rfl
  | cons ca rest ih =>
    unfold carg_parse_match
    by_cases hend : ca.type = CARG_END
    · simp [hend]
    · have hrest : NoMatch rest t := by
        intro E hE
        exact h E (by rw [entries_cons ca rest hend]; exact List.mem_cons_of_mem _ hE)
      have hca : ¬ Matches ca t := h ca (by rw [entries_cons ca rest hend]; exact List.mem_cons_self _ _)
      simp only [Matches, NameMatch, NegMatch, not_or, not_and] at hca
      rw [if_neg hend]
      by_cases hpos : ca.type = CARG_POS
      · rw [if_pos hpos]; exact ih _ hrest
      · rw [if_neg hpos]
        have hty : ca.type = CARG_UNARY ∨ ca.type = CARG_KEYWORD := by
          cases hc : ca.type <;> simp_all
        rw [if_neg (hca.1 hty)]
        by_cases hun : ca.type = CARG_UNARY
        · rw [if_neg (not_not.mpr hun), if_neg (hca.2 hun)]; exact ih _ hrest
        · rw [if_pos hun]; exact ih _ hrest

theorem carg_parse_match_first (t : String) (cargs : List carg) (i0 i : Nat) (D : carg)
    (h : FirstMatch cargs t i D) :
    carg_parse_match t cargs i0 =
      if D.name = some t then Match.name (i0 + i) D else Match.neg (i0 + i) D := by
  induction cargs generalizing i0 i with
  | nil => simp [FirstMatch, entries] at h
  | cons ca rest ih =>
    obtain ⟨hget, hD, hbefore⟩ := h
    by_cases hend : ca.type = CARG_END
    · simp [entries_cons_end ca rest hend] at hget
    · rw [entries_cons ca rest hend] at hget hbefore
      unfold carg_parse_match
      rw [if_neg hend]
      cases i with
      | zero =>
        simp only [List.getElem?_cons_zero, Option.some.injEq] at hget
        subst hget
        simp only [Matches, NameMatch, NegMatch] at hD
        by_cases hname : ca.name = some t
        · have hpos : ca.type ≠ CARG_POS := by
            rcases hD with hD | hD
            · rcases hD.1 with h1 | h1 <;> simp [h1]
            · simp [hD.1]
          simp [hpos, hname]
        · have hun : ca.type = CARG_UNARY := by
            rcases hD with hD | hD
            · exact absurd hD.2 hname
            · exact hD.1
          have hneg : ca.neg_name = some t := by
            rcases hD with hD | hD
            · exact absurd hD.2 hname
            · exact hD.2
          simp [hun, hname, hneg]
      | succ j =>
        simp only [List.getElem?_cons_succ] at hget
        have hca : ¬ Matches ca t := hbefore ca (by simp)
        have hrest : FirstMatch rest t j D := by
          refine ⟨hget, hD, ?_⟩
          intro E hE
          exact hbefore E (by simp [List.take_succ_cons, hE])
        have key := ih (i0 + 1) j hrest
        have hidx : i0 + 1 + j = i0 + (j + 1) := by omega
        rw [hidx] at key
        simp only [Matches, NameMatch, NegMatch, not_or, not_and] at hca
        by_cases hpos : ca.type = CARG_POS
        · rw [if_pos hpos]; exact key
        · rw [if_neg hpos]
          have hty : ca.type = CARG_UNARY ∨ ca.type = CARG_KEYWORD := by
            cases hc : ca.type <;> simp_all
          rw [if_neg (hca.1 hty)]
          by_cases hun : ca.type = CARG_UNARY
          · rw [if_neg (not_not.mpr hun), if_neg (hca.2 hun)]; exact key
          · rw [if_pos hun]; exact key

/-! ## The token loop -/

theorem carg_parse_loop_append (parser : carg_parser_t) (slots : Slots) (pre post : List String)
    (hpre : pre ≠ []) :
    carg_parse_loop parser slots (pre ++ post) =
      post.foldl carg_parse_step (carg_parse_loop parser slots pre) := by
  cases pre with
  | nil => exact absurd rfl hpre
  | cons a rest => simp [carg_parse_loop, List.foldl_append]

theorem carg_parse_loop_snoc (parser : carg_parser_t) (slots : Slots) (pre : List String)
    (t : String) (hpre : pre ≠ []) :
    carg_parse_loop parser slots (pre ++ [t]) =
      carg_parse_step (carg_parse_loop parser slots pre) t := by
  rw [carg_parse_loop_append parser slots pre [t] hpre]; rfl

theorem carg_parse_step_first (L : Loop) (t : String) (i : Nat) (D : carg)
    (hstate : L.state = 0) (hfirst : FirstMatch L.m.parser.cargs t i D) :
    carg_parse_step L t =
      carg_parse_perform { L with arg := some t } t
        (if D.name = some t then
          (if D.type = CARG_UNARY then Action.set i D else Action.await i D)
         else Action.clear i D) := by
  unfold carg_parse_step carg_parse_dispatch
  rw [hstate]
  simp only []
  rw [carg_parse_match_first t _ 0 i D hfirst]
  by_cases hname : D.name = some t
  · simp [hname]
  · simp [hname]

theorem carg_parse_step_nomatch (L : Loop) (t : String)
    (hstate : L.state = 0) (hno : NoMatch L.m.parser.cargs t) :
    carg_parse_step L t =
      carg_parse_perform { L with arg := some t } t (carg_parse_unmatched t) := by
  unfold carg_parse_step carg_parse_dispatch
  rw [hstate]
  simp only []
  rw [carg_parse_match_nothing t _ 0 hno]

/-! ## The table and the error handler are never modified -/

theorem carg_parse_pos_cargs (m : Machine) (arg : String) :
    (carg_parse_pos m arg).parser.cargs = m.parser.cargs := by
  unfold carg_parse_pos
  split <;> simp

theorem carg_parse_pos_error_handler (m : Machine) (arg : String) :
    (carg_parse_pos m arg).parser.error_handler = m.parser.error_handler := by
  unfold carg_parse_pos
  split <;> simp

theorem carg_parse_flags_loop_cargs (arg : String) (cs : List Char) (off : Nat) (m : Machine) :
    (carg_parse_flags_loop arg cs off m).parser.cargs = m.parser.cargs := by
  induction cs generalizing off m with
  | nil => rfl
  | cons c rest ih =>
    unfold carg_parse_flags_loop
    split
    · rw [ih]; simp
    · simp

theorem carg_parse_flags_loop_error_handler (arg : String) (cs : List Char) (off : Nat)
    (m : Machine) :
    (carg_parse_flags_loop arg cs off m).parser.error_handler = m.parser.error_handler := by
  induction cs generalizing off m with
  | nil => rfl
  | cons c rest ih =>
    unfold carg_parse_flags_loop
    split
    · rw [ih]; simp
    · simp

theorem carg_parse_perform_cargs (L : Loop) (t : String) (a : Action) :
    (carg_parse_perform L t a).m.parser.cargs = L.m.parser.cargs := by
  cases a <;>
    simp [carg_parse_perform, carg_parse_pos_cargs, carg_parse_flags,
      carg_parse_flags_loop_cargs]

theorem carg_parse_perform_error_handler (L : Loop) (t : String) (a : Action) :
    (carg_parse_perform L t a).m.parser.error_handler = L.m.parser.error_handler := by
  cases a <;>
    simp [carg_parse_perform, carg_parse_pos_error_handler, carg_parse_flags,
      carg_parse_flags_loop_error_handler]

theorem carg_parse_step_cargs (L : Loop) (t : String) :
    (carg_parse_step L t).m.parser.cargs = L.m.parser.cargs := by
  unfold carg_parse_step
  rw [carg_parse_perform_cargs]

theorem carg_parse_step_error_handler (L : Loop) (t : String) :
    (carg_parse_step L t).m.parser.error_handler = L.m.parser.error_handler := by
  unfold carg_parse_step
  rw [carg_parse_perform_error_handler]

theorem foldl_step_cargs (ts : List String) (L : Loop) :
    (ts.foldl carg_parse_step L).m.parser.cargs = L.m.parser.cargs := by
  induction ts generalizing L with
  | nil => rfl
  | cons t rest ih => rw [List.foldl_cons, ih, carg_parse_step_cargs]

theorem foldl_step_error_handler (ts : List String) (L : Loop) :
    (ts.foldl carg_parse_step L).m.parser.error_handler = L.m.parser.error_handler := by
  induction ts generalizing L with
  | nil => rfl
  | cons t rest ih => rw [List.foldl_cons, ih, carg_parse_step_error_handler]

theorem carg_parse_loop_cargs (parser : carg_parser_t) (slots : Slots) (argv : List String) :
    (carg_parse_loop parser slots argv).m.parser.cargs = parser.cargs := by
  unfold carg_parse_loop
  rw [foldl_step_cargs]; rfl

theorem carg_parse_loop_error_handler (parser : carg_parser_t) (slots : Slots)
    (argv : List String) :
    (carg_parse_loop parser slots argv).m.parser.error_handler = parser.error_handler := by
  unfold carg_parse_loop
  rw [foldl_step_error_handler]; rfl

/-! ## The scenario of the specification -/

/-- C1. With the table [unary `--foo`/`f`/`--no-foo`, keyword `--key`, positional P1,
positional P2, end], every descriptor having a slot, and the arguments
`prog -f --key v a b`, the scan leaves `-f` in the slot of foo, `v` in the slot of key,
`a` in the slot of P1, `b` in the slot of P2, and counts no error; whatever the handlers,
the former slot contents and the former fields of the parser object. -/
theorem scenario_parse (hfoo nfoo hkey hp1 hp2 eh : Option Nat) (n0 : Nat) (lp0 : Option Nat)
    (s : Slots) :
    (carg_parse ⟨scenario_cargs hfoo nfoo hkey hp1 hp2, eh, n0, lp0⟩ s
        ["prog", "-f", "--key", "v", "a", "b"]).slots 0 = some "-f" ∧
    (carg_parse ⟨scenario_cargs hfoo nfoo hkey hp1 hp2, eh, n0, lp0⟩ s
        ["prog", "-f", "--key", "v", "a", "b"]).slots 1 = some "v" ∧
    (carg_parse ⟨scenario_cargs hfoo nfoo hkey hp1 hp2, eh, n0, lp0⟩ s
        ["prog", "-f", "--key", "v", "a", "b"]).slots 2 = some "a" ∧
    (carg_parse ⟨scenario_cargs hfoo nfoo hkey hp1 hp2, eh, n0, lp0⟩ s
        ["prog", "-f", "--key", "v", "a", "b"]).slots 3 = some "b" ∧
    (carg_parse ⟨scenario_cargs hfoo nfoo hkey hp1 hp2, eh, n0, lp0⟩ s
        ["prog", "-f", "--key", "v", "a", "b"]).parser.nerrors = 0 := by
  simp [carg_parse, carg_parse_loop, carg_parse_init, carg_parse_step, carg_parse_dispatch,
    carg_parse_match, scenario_cargs, carg.mk0, carg_parse_perform, carg_parse_unmatched,
    carg_parse_flags, carg_parse_flags_loop, carg_parse_flags_find, carg_parse_pos,
    carg_parse_pos_loop, carg_parse_pos_start, carg_parse_finish, write_slots]

/-! ## Unary descriptors: name and negation -/

/-- C2. After an argument prefix that leaves the dispatcher in the default state, let the
first declared descriptor that the next token `t` matches be a unary descriptor `D`.
Processing `t` keeps the default state and the error count, and changes no slot other than
that of `D`; the slot of `D` holds `t` when `D` is matched by its name, and is absent when
`D` is matched by its negation (its name being different from `t`). -/
theorem unary_name_and_negation (parser : carg_parser_t) (slots : Slots) (pre : List String)
    (t : String) (i : Nat) (D : carg)
    (hpre : pre ≠ [])
    (hstate : (carg_parse_loop parser slots pre).state = 0)
    (hfirst : FirstMatch parser.cargs t i D)
    (hun : D.type = CARG_UNARY) :
    (carg_parse_loop parser slots (pre ++ [t])).state = 0 ∧
    (carg_parse_loop parser slots (pre ++ [t])).m.parser.nerrors =
      (carg_parse_loop parser slots pre).m.parser.nerrors ∧
    (∀ b, D.value ≠ some b →
      (carg_parse_loop parser slots (pre ++ [t])).m.slots b =
        (carg_parse_loop parser slots pre).m.slots b) ∧
    (NameMatch D t → ∀ a, D.value = some a →
      (carg_parse_loop parser slots (pre ++ [t])).m.slots a = some t) ∧
    (¬ NameMatch D t → NegMatch D t → ∀ a, D.value = some a →
      (carg_parse_loop parser slots (pre ++ [t])).m.slots a = none) := by
  have hfirst2 : FirstMatch (carg_parse_loop parser slots pre).m.parser.cargs t i D := by
    rw [carg_parse_loop_cargs]; exact hfirst
  rw [carg_parse_loop_snoc parser slots pre t hpre,
    carg_parse_step_first _ t i D hstate hfirst2]
  by_cases hname : D.name = some t
  · have hnm : NameMatch D t := ⟨Or.inl hun, hname⟩
    simp only [hname, hun, if_true, carg_parse_perform, invoke_parser_eq, write_parser_eq,
      invoke_slots]
    refine ⟨hstate, trivial, ?_, ?_, ?_⟩
    · intro b hb; simp [write_slots, hb, ← hname]
    · intro _ a ha; simp [write_slots, ha]
    · intro h; exact absurd hnm h
  · have hnm : ¬ NameMatch D t := fun h => hname h.2
    simp only [hname, if_false, carg_parse_perform, invoke_parser_eq, write_parser_eq,
      invoke_slots]
    refine ⟨hstate, trivial, ?_, ?_, ?_⟩
    · intro b hb; simp [write_slots, hb]
    · intro h; exact absurd h hnm
    · intro _ _ a ha; simp [write_slots, ha]

theorem unary_name_and_negation_witness :
    (carg_parse_loop scenario_setup null_slots (["prog", "-f"] ++ ["--no-foo"])).state = 0 ∧
    (carg_parse_loop scenario_setup null_slots (["prog", "-f"] ++ ["--no-foo"])).m.parser.nerrors =
      (carg_parse_loop scenario_setup null_slots ["prog", "-f"]).m.parser.nerrors ∧
    (∀ b, (carg.mk0 CARG_UNARY (some 0) (some "--foo") 'f' (some "--no-foo") none none).value
        ≠ some b →
      (carg_parse_loop scenario_setup null_slots (["prog", "-f"] ++ ["--no-foo"])).m.slots b =
        (carg_parse_loop scenario_setup null_slots ["prog", "-f"]).m.slots b) ∧
    (NameMatch (carg.mk0 CARG_UNARY (some 0) (some "--foo") 'f' (some "--no-foo") none none)
        "--no-foo" → ∀ a,
      (carg.mk0 CARG_UNARY (some 0) (some "--foo") 'f' (some "--no-foo") none none).value
        = some a →
      (carg_parse_loop scenario_setup null_slots (["prog", "-f"] ++ ["--no-foo"])).m.slots a =
        some "--no-foo") ∧
    (¬ NameMatch (carg.mk0 CARG_UNARY (some 0) (some "--foo") 'f' (some "--no-foo") none none)
        "--no-foo" →
      NegMatch (carg.mk0 CARG_UNARY (some 0) (some "--foo") 'f' (some "--no-foo") none none)
        "--no-foo" → ∀ a,
      (carg.mk0 CARG_UNARY (some 0) (some "--foo") 'f' (some "--no-foo") none none).value
        = some a →
      (carg_parse_loop scenario_setup null_slots (["prog", "-f"] ++ ["--no-foo"])).m.slots a =
        none) :=
  unary_name_and_negation scenario_setup null_slots ["prog", "-f"] "--no-foo" 0
    (carg.mk0 CARG_UNARY (some 0) (some "--foo") 'f' (some "--no-foo") none none)
    (by decide)
    (by simp [carg_parse_loop, carg_parse_init, carg_parse_step, carg_parse_dispatch,
      carg_parse_match, scenario_setup, scenario_cargs, carg.mk0, carg_parse_perform,
      carg_parse_unmatched, carg_parse_flags, carg_parse_flags_loop, carg_parse_flags_find])
    (by decide) (by decide)

/-! ## Flag clusters -/

theorem carg_parse_flags_find_eq (c : Char) (cargs : List carg) (i0 : Nat) :
    carg_parse_flags_find c cargs i0 =
      match flagEntry cargs c with
      | some D => Scan.found (i0 + flagIndex cargs c) D
      | none => Scan.sentinel (i0 + (entries cargs).length) := by
  induction cargs generalizing i0 with
  | nil => simp [carg_parse_flags_find, flagEntry, flagIndex, entries]
  | cons ca rest ih =>
    unfold carg_parse_flags_find
    by_cases hend : ca.type = CARG_END
    · simp [hend, flagEntry, flagIndex, entries_cons_end ca rest hend]
    · rw [if_neg hend]
      have hrec := ih (i0 + 1)
      simp only [flagEntry, flagIndex] at hrec ⊢
      rw [entries_cons ca rest hend, List.findIdx_cons]
      by_cases hun : ca.type = CARG_UNARY
      · by_cases hfl : ca.flag = c
        · have hp : decide (HasFlag ca c) = true := by simp [HasFlag, hun, hfl]
          simp [hun, hfl, hp]
        · have hp : decide (HasFlag ca c) = false := by simp [HasFlag, hfl]
          simp only [hun, hfl, hp, ne_eq, not_true_eq_false, if_false,
            cond_false, List.getElem?_cons_succ, List.length_cons]
          rw [hrec]
          split <;> simp <;> omega
      · have hp : decide (HasFlag ca c) = false := by simp [HasFlag, hun]
        simp only [hun, hp, ne_eq, not_false_eq_true, if_true,
          cond_false, List.getElem?_cons_succ, List.length_cons]
        rw [hrec]
        split <;> simp <;> omega

theorem declared_iff_flagEntry (cargs : List carg) (c : Char) :
    Declared cargs c ↔ (flagEntry cargs c).isSome = true := by
  unfold Declared flagEntry flagIndex
  rw [Option.isSome_iff_exists]
  constructor
  · rintro ⟨E, hE, hf⟩
    have hlt : (entries cargs).findIdx (fun ca => decide (HasFlag ca c)) <
        (entries cargs).length :=
      List.findIdx_lt_length_of_exists ⟨E, hE, by simpa using hf⟩
    exact ⟨_, List.getElem?_eq_getElem hlt⟩
  · rintro ⟨D, hD⟩
    have hlt : (entries cargs).findIdx (fun ca => decide (HasFlag ca c)) <
        (entries cargs).length := by
      by_contra hge
      rw [List.getElem?_eq_none (by omega)] at hD
      cases hD
    have hget := List.findIdx_getElem (w := hlt)
    refine ⟨_, List.getElem_mem hlt, ?_⟩
    simpa using hget

theorem flagEntry_none_of_not_declared {cargs : List carg} {c : Char}
    (h : ¬ Declared cargs c) : flagEntry cargs c = none := by
  rw [declared_iff_flagEntry] at h
  cases hfe : flagEntry cargs c with
  | none => rfl
  | some D => simp [hfe] at h

theorem declaredPrefix_cons_declared {cargs : List carg} {c : Char} (rest : List Char)
    (h : Declared cargs c) :
    declaredPrefix cargs (c :: rest) = c :: declaredPrefix cargs rest := by
  simp [declaredPrefix, List.takeWhile_cons, h]

theorem declaredPrefix_cons_undeclared {cargs : List carg} {c : Char} (rest : List Char)
    (h : ¬ Declared cargs c) : declaredPrefix cargs (c :: rest) = [] := by
  simp [declaredPrefix, List.takeWhile_cons, h]

theorem declaredPrefix_length_le (cargs : List carg) (cs : List Char) :
    (declaredPrefix cargs cs).length ≤ cs.length := by
  unfold declaredPrefix
  exact (List.takeWhile_sublist _).length_le

/-- Full description of the outer loop of `carg_parse_flags` on the characters `cs`. -/
theorem carg_parse_flags_loop_spec (arg : String) (cs : List Char) (off : Nat) (m : Machine) :
    (carg_parse_flags_loop arg cs off m).parser.nerrors =
      m.parser.nerrors +
        (if (declaredPrefix m.parser.cargs cs).length < cs.length then 1 else 0) ∧
    (carg_parse_flags_loop arg cs off m).parser.last_pos = m.parser.last_pos ∧
    (carg_parse_flags_loop arg cs off m).trace =
      m.trace ++ (declaredPrefix m.parser.cargs cs).flatMap (flagEvents m.parser.cargs arg) ++
        (if (declaredPrefix m.parser.cargs cs).length < cs.length then
          [Event.error m.parser.error_handler CARG_ERROR_INVALID_FLAG (some arg)
            (some (off + (declaredPrefix m.parser.cargs cs).length))]
         else []) ∧
    (∀ b, (carg_parse_flags_loop arg cs off m).slots b =
      if ∃ c ∈ declaredPrefix m.parser.cargs cs, ∃ D,
          flagEntry m.parser.cargs c = some D ∧ D.value = some b
      then some arg else m.slots b) := by
  induction cs generalizing off m with
  | nil => simp [carg_parse_flags_loop, declaredPrefix]
  | cons c rest ih =>
    unfold carg_parse_flags_loop
    rw [carg_parse_flags_find_eq]
    cases hfe : flagEntry m.parser.cargs c with
    | none =>
      have hnd : ¬ Declared m.parser.cargs c := by
        rw [declared_iff_flagEntry, hfe]; simp
      simp [declaredPrefix_cons_undeclared rest hnd]
    | some D =>
      have hd : Declared m.parser.cargs c := by
        rw [declared_iff_flagEntry, hfe]; rfl
      simp only [declaredPrefix_cons_declared rest hd, List.length_cons, Nat.add_lt_add_iff_right]
      have hih := ih (off + 1)
        ((m.write D.value (some arg)).invoke D.handler (0 + flagIndex m.parser.cargs c))
      simp only [invoke_parser_eq, write_parser_eq, invoke_trace, write_trace, invoke_slots] at hih
      obtain ⟨h1, h2, h3, h4⟩ := hih
      refine ⟨h1, h2, ?_, ?_⟩
      · rw [h3]
        have hoff : off + 1 + (declaredPrefix m.parser.cargs rest).length =
            off + ((declaredPrefix m.parser.cargs rest).length + 1) := by omega
        simp [flagEvents, hfe, hoff, List.append_assoc]
      · intro b
        rw [h4 b, write_slots]
        by_cases hex : ∃ c' ∈ declaredPrefix m.parser.cargs rest, ∃ D',
            flagEntry m.parser.cargs c' = some D' ∧ D'.value = some b
        · have hex2 : ∃ c' ∈ c :: declaredPrefix m.parser.cargs rest, ∃ D',
              flagEntry m.parser.cargs c' = some D' ∧ D'.value = some b := by
            obtain ⟨c', hc', hD'⟩ := hex
            exact ⟨c', List.mem_cons_of_mem _ hc', hD'⟩
          rw [if_pos hex, if_pos hex2]
        · rw [if_neg hex]
          by_cases hv : D.value = some b
          · have hex2 : ∃ c' ∈ c :: declaredPrefix m.parser.cargs rest, ∃ D',
                flagEntry m.parser.cargs c' = some D' ∧ D'.value = some b :=
              ⟨c, List.mem_cons_self _ _, D, hfe, hv⟩
            rw [if_pos hv, if_pos hex2]
          · have hex2 : ¬ ∃ c' ∈ c :: declaredPrefix m.parser.cargs rest, ∃ D',
                flagEntry m.parser.cargs c' = some D' ∧ D'.value = some b := by
              rintro ⟨c', hc', D', hD', hv'⟩
              rcases List.mem_cons.mp hc' with heq | hmem
              · subst heq
                rw [hfe] at hD'
                cases hD'
                exact hv hv'
              · exact hex ⟨c', hmem, D', hD', hv'⟩
            rw [if_neg hv, if_neg hex2]

theorem declaredPrefix_declared {cargs : List carg} {cs : List Char} {c : Char}
    (h : c ∈ declaredPrefix cargs cs) : Declared cargs c := by
  have := List.mem_takeWhile_imp h
  simpa using this

theorem declaredPrefix_next (cargs : List carg) (cs : List Char) (bad : Char)
    (h : cs[(declaredPrefix cargs cs).length]? = some bad) : ¬ Declared cargs bad := by
  induction cs with
  | nil => simp at h
  | cons c rest ih =>
    by_cases hd : Declared cargs c
    · rw [declaredPrefix_cons_declared rest hd] at h
      simp only [List.length_cons, List.getElem?_cons_succ] at h
      exact ih h
    · rw [declaredPrefix_cons_undeclared rest hd] at h
      simp only [List.length_nil, List.getElem?_cons_zero, Option.some.injEq] at h
      rw [← h]; exact hd

theorem carg_parse_unmatched_flags (t : String) (c1 : Char) (rest : List Char)
    (htok : t.toList = '-' :: c1 :: rest) (hc1 : c1 ≠ '-') :
    carg_parse_unmatched t = Action.flags := by
  unfold carg_parse_unmatched
  rw [htok]
  simp [hc1]

/-- C3. Flag-cluster partial failure. Let the token `t` be a dash followed by the characters
`c1 :: rest` with `c1` not a dash, read in the default state and matching no name or
negation, and let `g` be the characters that come before the first one that no declared
unary descriptor has as flag (so the offending character `cj`, if any, is at index
`g.length` of the characters and at offset `g.length + 1` of the token). Then: every
character of `g` is a declared flag and the next one is not; for every character of `g` the
first unary descriptor with that flag has the whole token `t` in its slot; no other slot
changes; if there is an offending character, the error count grows by exactly one and the
events of the token are those of the characters of `g` followed by one `InvalidFlag` error
carrying `t` and the offset of the offending character, nothing being done for the
characters after it; if there is none, the error count is unchanged. The default state and
the positional cursor are kept. -/
theorem flag_cluster_partial_failure (parser : carg_parser_t) (slots : Slots)
    (pre : List String) (t : String) (c1 : Char) (rest : List Char)
    (hpre : pre ≠ [])
    (hstate : (carg_parse_loop parser slots pre).state = 0)
    (hno : NoMatch parser.cargs t)
    (htok : t.toList = '-' :: c1 :: rest)
    (hc1 : c1 ≠ '-') :
    (∀ c ∈ declaredPrefix parser.cargs (c1 :: rest), Declared parser.cargs c) ∧
    (∀ bad, (c1 :: rest)[(declaredPrefix parser.cargs (c1 :: rest)).length]? = some bad →
      ¬ Declared parser.cargs bad) ∧
    (∀ c ∈ declaredPrefix parser.cargs (c1 :: rest), ∀ D a,
      flagEntry parser.cargs c = some D → D.value = some a →
      (carg_parse_loop parser slots (pre ++ [t])).m.slots a = some t) ∧
    (∀ b, (∀ c ∈ declaredPrefix parser.cargs (c1 :: rest), ∀ D,
        flagEntry parser.cargs c = some D → D.value ≠ some b) →
      (carg_parse_loop parser slots (pre ++ [t])).m.slots b =
        (carg_parse_loop parser slots pre).m.slots b) ∧
    ((declaredPrefix parser.cargs (c1 :: rest)).length < (c1 :: rest).length →
      (carg_parse_loop parser slots (pre ++ [t])).m.parser.nerrors =
        (carg_parse_loop parser slots pre).m.parser.nerrors + 1 ∧
      (carg_parse_loop parser slots (pre ++ [t])).m.trace =
        (carg_parse_loop parser slots pre).m.trace ++
          (declaredPrefix parser.cargs (c1 :: rest)).flatMap (flagEvents parser.cargs t) ++
          [Event.error parser.error_handler CARG_ERROR_INVALID_FLAG (some t)
            (some ((declaredPrefix parser.cargs (c1 :: rest)).length + 1))]) ∧
    ((declaredPrefix parser.cargs (c1 :: rest)).length = (c1 :: rest).length →
      (carg_parse_loop parser slots (pre ++ [t])).m.parser.nerrors =
        (carg_parse_loop parser slots pre).m.parser.nerrors ∧
      (carg_parse_loop parser slots (pre ++ [t])).m.trace =
        (carg_parse_loop parser slots pre).m.trace ++
          (declaredPrefix parser.cargs (c1 :: rest)).flatMap (flagEvents parser.cargs t)) ∧
    (carg_parse_loop parser slots (pre ++ [t])).state = 0 ∧
    (carg_parse_loop parser slots (pre ++ [t])).m.parser.last_pos =
      (carg_parse_loop parser slots pre).m.parser.last_pos := by
  have hcargs := carg_parse_loop_cargs parser slots pre
  have heh := carg_parse_loop_error_handler parser slots pre
  have hno2 : NoMatch (carg_parse_loop parser slots pre).m.parser.cargs t := by
    rw [hcargs]; exact hno
  rw [carg_parse_loop_snoc parser slots pre t hpre,
    carg_parse_step_nomatch _ t hstate hno2, carg_parse_unmatched_flags t c1 rest htok hc1]
  simp only [carg_parse_perform, carg_parse_flags, htok, List.drop_succ_cons, List.drop_zero]
  obtain ⟨h1, h2, h3, h4⟩ :=
    carg_parse_flags_loop_spec t (c1 :: rest) 1 (carg_parse_loop parser slots pre).m
  rw [hcargs] at h1 h3 h4
  rw [heh] at h3
  refine ⟨fun c hc => declaredPrefix_declared hc, declaredPrefix_next _ _, ?_, ?_, ?_, ?_,
    hstate, h2⟩
  · intro c hc D a hD ha
    rw [h4 a, if_pos ⟨c, hc, D, hD, ha⟩]
  · intro b hb
    rw [h4 b, if_neg]
    rintro ⟨c, hc, D, hD, hv⟩
    exact hb c hc D hD hv
  · intro hlt
    rw [h1, h3, if_pos hlt, if_pos hlt, Nat.add_comm 1]
    exact ⟨rfl, rfl⟩
  · intro heq
    have hnlt : ¬ (declaredPrefix parser.cargs (c1 :: rest)).length < (c1 :: rest).length := by
      omega
    rw [h1, h3, if_neg hnlt, if_neg hnlt]
    simp

theorem flag_cluster_partial_failure_witness :
    (carg_parse_loop abd_setup null_slots (["prog"] ++ ["-abcd"])).m.slots 0 = some "-abcd" ∧
    (carg_parse_loop abd_setup null_slots (["prog"] ++ ["-abcd"])).m.slots 1 = some "-abcd" ∧
    (carg_parse_loop abd_setup null_slots (["prog"] ++ ["-abcd"])).m.slots 2 = none ∧
    (carg_parse_loop abd_setup null_slots (["prog"] ++ ["-abcd"])).m.parser.nerrors = 1 ∧
    (carg_parse_loop abd_setup null_slots (["prog"] ++ ["-abcd"])).m.trace =
      [Event.write 0 (some "-abcd"), Event.call 10 0, Event.write 1 (some "-abcd"),
        Event.error (some 9) CARG_ERROR_INVALID_FLAG (some "-abcd") (some 3)] := by
  have hg : declaredPrefix abd_setup.cargs ['a', 'b', 'c', 'd'] = ['a', 'b'] := by decide
  have ha : flagEntry abd_setup.cargs 'a' =
      some (carg.mk0 CARG_UNARY (some 0) (some "--aa") 'a' none (some 10) none) := by decide
  have hb : flagEntry abd_setup.cargs 'b' =
      some (carg.mk0 CARG_UNARY (some 1) (some "--bb") 'b' none none none) := by decide
  have hl : (carg_parse_loop abd_setup null_slots ["prog"]).m.trace = [] := rfl
  have hn : (carg_parse_loop abd_setup null_slots ["prog"]).m.parser.nerrors = 0 := rfl
  obtain ⟨_, _, h3, h4, h5, _, _, _⟩ :=
    flag_cluster_partial_failure abd_setup null_slots ["prog"] "-abcd" 'a' ['b', 'c', 'd']
      (by decide) rfl (by decide) rfl (by decide)
  rw [hg] at h3 h4 h5
  refine ⟨h3 'a' (by simp) _ 0 ha rfl, h3 'b' (by simp) _ 1 hb rfl, ?_, ?_, ?_⟩
  · rw [h4 2]
    · rfl
    · intro c hc D hD
      simp only [List.mem_cons, List.mem_singleton, List.not_mem_nil, or_false] at hc
      rcases hc with rfl | rfl
      · rw [ha] at hD; cases hD; decide
      · rw [hb] at hD; cases hD; decide
  · rw [(h5 (by decide)).1, hn]
  · rw [(h5 (by decide)).2, hl]
    decide

/-! ## Growth of the trace and of the error count -/

theorem Extends.refl (m : Machine) : Extends m m :=
  ⟨rfl, rfl, [], by simp, by simp, by simp, by simp⟩

theorem Extends.trans {m1 m2 m3 : Machine} (h12 : Extends m1 m2) (h23 : Extends m2 m3) :
    Extends m1 m3 := by
  obtain ⟨hc1, he1, evs1, ht1, hn1, hx1, hf1⟩ := h12
  obtain ⟨hc2, he2, evs2, ht2, hn2, hx2, hf2⟩ := h23
  refine ⟨hc2.trans hc1, he2.trans he1, evs1 ++ evs2, ?_, ?_, ?_, ?_⟩
  · rw [ht2, ht1, List.append_assoc]
  · rw [hn2, hn1, List.filter_append, List.length_append, Nat.add_assoc]
  · intro ev hev
    rcases List.mem_append.mp hev with h | h
    · exact hx1 ev h
    · exact hx2 ev h
  · intro ev hev fn e p1 p2 heq
    rcases List.mem_append.mp hev with h | h
    · exact hf1 ev h fn e p1 p2 heq
    · rw [← he1]; exact hf2 ev h fn e p1 p2 heq

theorem extends_write (m : Machine) (p : Option Nat) (v : Option String) :
    Extends m (m.write p v) := by
  refine ⟨by simp, by simp, writeEvents p v, by simp, ?_, ?_, ?_⟩ <;>
    cases p <;> simp [writeEvents, Event.isError, Event.isErrorOf]

theorem extends_invoke (m : Machine) (h : Option Nat) (i : Nat) :
    Extends m (m.invoke h i) := by
  refine ⟨by simp, by simp, callEvents h i, by simp, ?_, ?_, ?_⟩ <;>
    cases h <;> simp [callEvents, Event.isError, Event.isErrorOf]

theorem extends_set_last_pos (m : Machine) (i : Nat) : Extends m (m.set_last_pos i) :=
  ⟨rfl, rfl, [], by simp, by simp, by simp, by simp⟩

theorem extends_report (m : Machine) (e : carg_error) (p1 : Option String) (p2 : Option Nat)
    (he : e ≠ CARG_ERROR_EXPECTED_ARGUMENT_AFTER) : Extends m (m.report e p1 p2) := by
  refine ⟨rfl, rfl, [Event.error m.parser.error_handler e p1 p2], rfl, ?_, ?_, ?_⟩
  · simp [Event.isError]
  · simp [Event.isErrorOf, he]
  · intro ev hev fn e2 q1 q2 heq
    simp only [List.mem_singleton] at hev
    rw [hev] at heq
    cases heq
    rfl

theorem extends_carg_parse_pos (m : Machine) (arg : String) :
    Extends m (carg_parse_pos m arg) := by
  unfold carg_parse_pos
  split
  · exact ((extends_set_last_pos m _).trans (extends_write _ _ _)).trans (extends_invoke _ _ _)
  · exact (extends_report m _ _ _ (by decide)).trans (extends_set_last_pos _ _)

theorem extends_carg_parse_flags_loop (arg : String) (cs : List Char) (off : Nat)
    (m : Machine) : Extends m (carg_parse_flags_loop arg cs off m) := by
  induction cs generalizing off m with
  | nil => exact Extends.refl m
  | cons c rest ih =>
    unfold carg_parse_flags_loop
    split
    · exact ((extends_write m _ _).trans (extends_invoke _ _ _)).trans (ih _ _)
    · exact extends_report m _ _ _ (by decide)

theorem extends_carg_parse_perform (L : Loop) (t : String) (a : Action) :
    Extends L.m (carg_parse_perform L t a).m := by
  cases a with
  | set i ca => exact (extends_write _ _ _).trans (extends_invoke _ _ _)
  | await i ca => exact Extends.refl _
  | clear i ca => exact (extends_write _ _ _).trans (extends_invoke _ _ _)
  | positional_only => exact Extends.refl _
  | invalid_argument => exact extends_report _ _ _ _ (by decide)
  | flags => exact extends_carg_parse_flags_loop _ _ _ _
  | pos => exact extends_carg_parse_pos _ _
  | value k key => exact (extends_write _ _ _).trans (extends_invoke _ _ _)
  | skip => exact Extends.refl _

theorem extends_carg_parse_step (L : Loop) (t : String) :
    Extends L.m (carg_parse_step L t).m :=
  extends_carg_parse_perform { L with arg := some t } t _

theorem extends_foldl_step (ts : List String) (L : Loop) :
    Extends L.m (ts.foldl carg_parse_step L).m := by
  induction ts generalizing L with
  | nil => exact Extends.refl _
  | cons t rest ih => exact (extends_carg_parse_step L t).trans (ih _)

theorem extends_carg_parse_loop (parser : carg_parser_t) (slots : Slots) (argv : List String) :
    Extends (carg_parse_init parser slots).m (carg_parse_loop parser slots argv).m :=
  extends_foldl_step _ _

/-! ## Keywords -/

theorem keyword_first_match_name {cargs : List carg} {k : String} {i : Nat} {K : carg}
    (hfirst : FirstMatch cargs k i K) (hkw : K.type = CARG_KEYWORD) : K.name = some k := by
  rcases hfirst.2.1 with h | h
  · exact h.2
  · have := h.1
    rw [hkw] at this
    cases this

theorem carg_parse_step_keyword (L : Loop) (k : String) (i : Nat) (K : carg)
    (hstate : L.state = 0) (hfirst : FirstMatch L.m.parser.cargs k i K)
    (hkw : K.type = CARG_KEYWORD) :
    carg_parse_step L k = { L with arg := some k, key := some (i, K), state := 1 } := by
  rw [carg_parse_step_first L k i K hstate hfirst]
  simp [keyword_first_match_name hfirst hkw, hkw, carg_parse_perform]

theorem loop_trace_no_expected (parser : carg_parser_t) (slots : Slots) (argv : List String) :
    ∀ ev ∈ (carg_parse_loop parser slots argv).m.trace,
      Event.isErrorOf CARG_ERROR_EXPECTED_ARGUMENT_AFTER ev = false := by
  obtain ⟨_, _, evs, ht, _, hx, _⟩ := extends_carg_parse_loop parser slots argv
  intro ev hev
  rw [ht] at hev
  simp only [carg_parse_init, List.nil_append] at hev
  exact hx ev hev

/-- C4. Missing keyword value. If the last token `k` of the arguments is read in the default
state and first-matches a keyword descriptor `K`, then the scan ends with one error more than
the scan of the arguments without `k`, its events are those of that scan followed by one
`ExpectedArgumentAfter` error with payload `k`, and every slot (that of `K` included) is as
after that scan. Conversely, in every scan an `ExpectedArgumentAfter` error occurs only when
the token loop ends awaiting a keyword value; it occurs at most once and is then the last
event of the scan. -/
theorem missing_keyword_value :
    (∀ (parser : carg_parser_t) (slots : Slots) (pre : List String) (k : String) (i : Nat)
        (K : carg),
      pre ≠ [] →
      (carg_parse_loop parser slots pre).state = 0 →
      FirstMatch parser.cargs k i K →
      K.type = CARG_KEYWORD →
      (carg_parse parser slots (pre ++ [k])).parser.nerrors =
        (carg_parse parser slots pre).parser.nerrors + 1 ∧
      (carg_parse parser slots (pre ++ [k])).trace =
        (carg_parse parser slots pre).trace ++
          [Event.error parser.error_handler CARG_ERROR_EXPECTED_ARGUMENT_AFTER (some k) none] ∧
      (∀ b, (carg_parse parser slots (pre ++ [k])).slots b =
        (carg_parse parser slots pre).slots b)) ∧
    (∀ (parser : carg_parser_t) (slots : Slots) (argv : List String),
      ((carg_parse parser slots argv).trace.filter
        (Event.isErrorOf CARG_ERROR_EXPECTED_ARGUMENT_AFTER)).length ≤ 1 ∧
      ∀ ev ∈ (carg_parse parser slots argv).trace,
        Event.isErrorOf CARG_ERROR_EXPECTED_ARGUMENT_AFTER ev = true →
        (carg_parse_loop parser slots argv).state = 1 ∧
        (carg_parse parser slots argv).trace.getLast? = some ev) := by
  constructor
  · intro parser slots pre k i K hpre hstate hfirst hkw
    have hfirst2 : FirstMatch (carg_parse_loop parser slots pre).m.parser.cargs k i K := by
      rw [carg_parse_loop_cargs]; exact hfirst
    have heh := carg_parse_loop_error_handler parser slots pre
    unfold carg_parse
    rw [carg_parse_loop_snoc parser slots pre k hpre,
      carg_parse_step_keyword _ k i K hstate hfirst2 hkw]
    simp [carg_parse_finish, hstate, heh]
  · intro parser slots argv
    have hno := loop_trace_no_expected parser slots argv
    have hfilter : (carg_parse_loop parser slots argv).m.trace.filter
        (Event.isErrorOf CARG_ERROR_EXPECTED_ARGUMENT_AFTER) = [] := by
      rw [List.filter_eq_nil_iff]
      intro ev hev
      rw [hno ev hev]
      simp
    unfold carg_parse carg_parse_finish
    by_cases hst : (carg_parse_loop parser slots argv).state = 1
    · rw [if_pos hst]
      refine ⟨?_, ?_⟩
      · rw [report_trace, List.filter_append, hfilter]
        simp [Event.isErrorOf]
      · intro ev hev hx
        rw [report_trace] at hev ⊢
        rcases List.mem_append.mp hev with h | h
        · rw [hno ev h] at hx
          cases hx
        · simp only [List.mem_singleton] at h
          rw [h]
          exact ⟨hst, by simp⟩
    · rw [if_neg hst]
      refine ⟨by rw [hfilter]; simp, ?_⟩
      intro ev hev hx
      rw [hno ev hev] at hx
      cases hx

theorem missing_keyword_value_witness :
    (carg_parse scenario_setup null_slots (["prog", "a"] ++ ["--key"])).parser.nerrors =
      (carg_parse scenario_setup null_slots ["prog", "a"]).parser.nerrors + 1 ∧
    (carg_parse scenario_setup null_slots (["prog", "a"] ++ ["--key"])).trace =
      (carg_parse scenario_setup null_slots ["prog", "a"]).trace ++
        [Event.error scenario_setup.error_handler CARG_ERROR_EXPECTED_ARGUMENT_AFTER
          (some "--key") none] ∧
    (∀ b, (carg_parse scenario_setup null_slots (["prog", "a"] ++ ["--key"])).slots b =
      (carg_parse scenario_setup null_slots ["prog", "a"]).slots b) :=
  missing_keyword_value.1 scenario_setup null_slots ["prog", "a"] "--key" 1
    (carg.mk0 CARG_KEYWORD (some 1) (some "--key") (Char.ofNat 0) none none none)
    (by decide)
    (by simp [carg_parse_loop, carg_parse_init, carg_parse_step, carg_parse_dispatch,
      carg_parse_match, scenario_setup, scenario_cargs, carg.mk0, carg_parse_perform,
      carg_parse_unmatched, carg_parse_pos, carg_parse_pos_loop, carg_parse_pos_start])
    (by decide) (by decide)

/-- C5. Keyword value taken verbatim. If a token `k` read in the default state first-matches
a keyword descriptor `K` (declared at index `i`) and is followed by a token `v`, then,
whatever `v` is: the branch taken for `v` is the keyword-value one; afterwards the slot of
`K` holds exactly `v`, no other slot has changed, the events of the two tokens are the store
of `v` in the slot of `K` and the call of the handler of `K` and nothing else (no other
match, no positional assignment, no error), the error count and the positional cursor are
unchanged, and the dispatcher is in the default state. -/
theorem keyword_value_verbatim (parser : carg_parser_t) (slots : Slots) (pre : List String)
    (k v : String) (i : Nat) (K : carg)
    (hpre : pre ≠ [])
    (hstate : (carg_parse_loop parser slots pre).state = 0)
    (hfirst : FirstMatch parser.cargs k i K)
    (hkw : K.type = CARG_KEYWORD) :
    carg_parse_dispatch (carg_parse_loop parser slots (pre ++ [k])).state
      (carg_parse_loop parser slots (pre ++ [k])).key parser.cargs v = Action.value i K ∧
    (∀ a, K.value = some a → (carg_parse_loop parser slots (pre ++ [k, v])).m.slots a = some v) ∧
    (∀ b, K.value ≠ some b →
      (carg_parse_loop parser slots (pre ++ [k, v])).m.slots b =
        (carg_parse_loop parser slots pre).m.slots b) ∧
    (carg_parse_loop parser slots (pre ++ [k, v])).m.trace =
      (carg_parse_loop parser slots pre).m.trace ++
        (writeEvents K.value (some v) ++ callEvents K.handler i) ∧
    (carg_parse_loop parser slots (pre ++ [k, v])).m.parser.nerrors =
      (carg_parse_loop parser slots pre).m.parser.nerrors ∧
    (carg_parse_loop parser slots (pre ++ [k, v])).m.parser.last_pos =
      (carg_parse_loop parser slots pre).m.parser.last_pos ∧
    (carg_parse_loop parser slots (pre ++ [k, v])).state = 0 := by
  have hfirst2 : FirstMatch (carg_parse_loop parser slots pre).m.parser.cargs k i K := by
    rw [carg_parse_loop_cargs]; exact hfirst
  have hk : carg_parse_loop parser slots (pre ++ [k]) =
      { carg_parse_loop parser slots pre with arg := some k, key := some (i, K), state := 1 } := by
    rw [carg_parse_loop_snoc parser slots pre k hpre,
      carg_parse_step_keyword _ k i K hstate hfirst2 hkw]
  have hkv : carg_parse_loop parser slots (pre ++ [k, v]) =
      carg_parse_step (carg_parse_loop parser slots (pre ++ [k])) v := by
    rw [carg_parse_loop_append parser slots pre [k, v] hpre,
      carg_parse_loop_append parser slots pre [k] hpre]
    rfl
  rw [hkv, hk]
  simp only [carg_parse_step, carg_parse_dispatch, carg_parse_perform, invoke_slots,
    invoke_trace, write_trace, invoke_parser_eq, write_parser_eq, List.append_assoc]
  refine ⟨trivial, ?_, ?_, trivial, trivial, trivial, trivial⟩
  · intro a ha; simp [write_slots, ha]
  · intro b hb; simp [write_slots, hb]

theorem keyword_value_verbatim_witness :
    carg_parse_dispatch (carg_parse_loop scenario_setup null_slots (["prog"] ++ ["--key"])).state
      (carg_parse_loop scenario_setup null_slots (["prog"] ++ ["--key"])).key
      scenario_setup.cargs "--" =
        Action.value 1
          (carg.mk0 CARG_KEYWORD (some 1) (some "--key") (Char.ofNat 0) none none none) ∧
    (carg_parse_loop scenario_setup null_slots (["prog"] ++ ["--key", "--"])).m.slots 1 =
      some "--" ∧
    (carg_parse_loop scenario_setup null_slots (["prog"] ++ ["--key", "--"])).state = 0 := by
  obtain ⟨h1, h2, _, _, _, _, h7⟩ :=
    keyword_value_verbatim scenario_setup null_slots ["prog"] "--key" "--" 1
      (carg.mk0 CARG_KEYWORD (some 1) (some "--key") (Char.ofNat 0) none none none)
      (by decide) rfl (by decide) (by decide)
  exact ⟨h1, h2 1 rfl, h7⟩

/-! ## The positional scanner -/

theorem positionalsFrom_nil (i : Nat) : positionalsFrom i [] = [] := rfl

theorem positionalsFrom_cons_end (i : Nat) (ca : carg) (rest : List carg)
    (h : ca.type = CARG_END) : positionalsFrom i (ca :: rest) = [] := by
  simp [positionalsFrom, entries_cons_end ca rest h]

theorem positionalsFrom_cons_pos (i : Nat) (ca : carg) (rest : List carg)
    (h : ca.type = CARG_POS) :
    positionalsFrom i (ca :: rest) = (i, ca) :: positionalsFrom (i + 1) rest := by
  have hend : ca.type ≠ CARG_END := by rw [h]; decide
  simp [positionalsFrom, entries_cons ca rest hend, List.enumFrom_cons, h]

theorem positionalsFrom_cons_other (i : Nat) (ca : carg) (rest : List carg)
    (hend : ca.type ≠ CARG_END) (h : ca.type ≠ CARG_POS) :
    positionalsFrom i (ca :: rest) = positionalsFrom (i + 1) rest := by
  simp [positionalsFrom, entries_cons ca rest hend, List.enumFrom_cons, h]

/-- The loop of `carg_parse_pos`, started at index `i` beyond the cursor, stops at the first
declared positional descriptor from `i` on, or at the sentinel. -/
theorem carg_parse_pos_loop_fresh (lp : Option Nat) (l : List carg) (i : Nat)
    (hlp : ∀ q, lp = some q → q < i) :
    carg_parse_pos_loop lp l i =
      match (positionalsFrom i l).head? with
      | some p => Scan.found p.1 p.2
      | none => Scan.sentinel (i + (entries l).length) := by
  induction l generalizing i with
  | nil => simp [carg_parse_pos_loop, positionalsFrom_nil, entries]
  | cons ca rest ih =>
    unfold carg_parse_pos_loop
    by_cases hend : ca.type = CARG_END
    · simp [hend, positionalsFrom_cons_end i ca rest hend, entries_cons_end ca rest hend]
    · rw [if_neg hend]
      have hrec := ih (i + 1) (fun q hq => Nat.lt_succ_of_lt (hlp q hq))
      by_cases hpos : ca.type = CARG_POS
      · have hskip : ¬ (lp = some i ∧ ca.value ≠ none) := by
          rintro ⟨h1, _⟩
          exact Nat.lt_irrefl i (hlp i h1)
        rw [if_neg (not_not.mpr hpos), if_neg hskip, positionalsFrom_cons_pos i ca rest hpos]
        rfl
      · rw [if_pos hpos, hrec, positionalsFrom_cons_other i ca rest hend hpos,
          entries_cons ca rest hend]
        split
        · rfl
        · simp only [List.length_cons, Scan.sentinel.injEq]; omega

theorem positionalsFrom_getElem (l : List carg) (i j q : Nat) (P : carg)
    (h : (positionalsFrom i l)[j]? = some (q, P)) :
    ∃ rest, l.drop (q - i) = P :: rest ∧ i ≤ q ∧ P.type = CARG_POS ∧
      positionalsFrom (q + 1) rest = (positionalsFrom i l).drop (j + 1) ∧
      q + 1 + (entries rest).length = i + (entries l).length := by
  induction l generalizing i j with
  | nil => simp [positionalsFrom_nil] at h
  | cons ca tl ih =>
    by_cases hend : ca.type = CARG_END
    · simp [positionalsFrom_cons_end i ca tl hend] at h
    · by_cases hpos : ca.type = CARG_POS
      · rw [positionalsFrom_cons_pos i ca tl hpos] at h ⊢
        cases j with
        | zero =>
          simp only [List.getElem?_cons_zero, Option.some.injEq, Prod.mk.injEq] at h
          obtain ⟨hq, hP⟩ := h
          subst hq; subst hP
          refine ⟨tl, by simp, Nat.le_refl _, hpos, by simp, ?_⟩
          rw [entries_cons ca tl hend]; simp; omega
        | succ j2 =>
          simp only [List.getElem?_cons_succ] at h
          obtain ⟨rest, h1, h2, h3, h4, h5⟩ := ih (i + 1) j2 h
          refine ⟨rest, ?_, by omega, h3, ?_, ?_⟩
          · have : q - i = (q - (i + 1)) + 1 := by omega
            rw [this, List.drop_succ_cons]; exact h1
          · rw [h4]; simp
          · rw [entries_cons ca tl hend]; simp; omega
      · rw [positionalsFrom_cons_other i ca tl hend hpos] at h ⊢
        obtain ⟨rest, h1, h2, h3, h4, h5⟩ := ih (i + 1) j h
        refine ⟨rest, ?_, by omega, h3, h4, ?_⟩
        · have : q - i = (q - (i + 1)) + 1 := by omega
          rw [this, List.drop_succ_cons]; exact h1
        · rw [entries_cons ca tl hend]; simp; omega

theorem drop_entries_length (cargs : List carg) :
    cargs.drop (entries cargs).length = [] ∨
      ∃ ca rest, cargs.drop (entries cargs).length = ca :: rest ∧ ca.type = CARG_END := by
  induction cargs with
  | nil => left; rfl
  | cons ca tl ih =>
    by_cases hend : ca.type = CARG_END
    · right
      exact ⟨ca, tl, by simp [entries_cons_end ca tl hend], hend⟩
    · rw [entries_cons ca tl hend]
      simpa using ih

/-- The effect of `carg_parse_pos` on the `j + 1`-th positional token, in a table whose
positional descriptors all have slots: it goes to the `j + 1`-th positional descriptor, or
is rejected when there is none. -/
theorem carg_parse_pos_at (m : Machine) (t : String) (j : Nat)
    (hslots : ∀ p ∈ positionals m.parser.cargs, p.2.value ≠ none)
    (hcur : m.parser.last_pos = cursor m.parser.cargs j) :
    carg_parse_pos m t =
      match (positionals m.parser.cargs)[j]? with
      | some p => ((m.set_last_pos p.1).write p.2.value (some t)).invoke p.2.handler p.1
      | none =>
        (m.report CARG_ERROR_UNEXPECTED_ARGUMENT (some t) none).set_last_pos
          (entries m.parser.cargs).length := by
  unfold carg_parse_pos
  rw [hcur]
  cases j with
  | zero =>
    simp only [cursor, carg_parse_pos_start, List.drop_zero]
    rw [carg_parse_pos_loop_fresh none m.parser.cargs 0 (by simp)]
    simp only [positionals, List.head?_eq_getElem?]
    cases (positionalsFrom 0 m.parser.cargs)[0]? <;> simp
  | succ j2 =>
    cases hps : (positionals m.parser.cargs)[j2]? with
    | some p =>
      obtain ⟨q, P⟩ := p
      simp only [cursor, hps, carg_parse_pos_start]
      obtain ⟨rest, h1, _, h3, h4, h5⟩ := positionalsFrom_getElem m.parser.cargs 0 j2 q P hps
      have hval : P.value ≠ none := hslots (q, P) (List.getElem?_mem hps)
      rw [Nat.sub_zero] at h1
      rw [h1]
      unfold carg_parse_pos_loop
      have hend : P.type ≠ CARG_END := by rw [h3]; decide
      rw [if_neg hend, if_neg (not_not.mpr h3), if_pos ⟨rfl, hval⟩,
        carg_parse_pos_loop_fresh (some q) rest (q + 1) (by simp), h4, h5]
      simp only [positionals, List.head?_drop, Nat.zero_add]
      cases (positionalsFrom 0 m.parser.cargs)[j2 + 1]? <;> simp
    | none =>
      simp only [cursor, hps, carg_parse_pos_start]
      have hnext : (positionals m.parser.cargs)[j2 + 1]? = none := by
        rw [List.getElem?_eq_none_iff] at hps ⊢
        omega
      rw [hnext]
      rcases drop_entries_length m.parser.cargs with h | ⟨ca, rest, h, hend⟩
      · rw [h]; simp [carg_parse_pos_loop]
      · rw [h]; simp [carg_parse_pos_loop, hend]

theorem carg_parse_pos_cursor (m : Machine) (t : String) (j : Nat)
    (hslots : ∀ p ∈ positionals m.parser.cargs, p.2.value ≠ none)
    (hcur : m.parser.last_pos = cursor m.parser.cargs j) :
    (carg_parse_pos m t).parser.last_pos = cursor m.parser.cargs (j + 1) := by
  rw [carg_parse_pos_at m t j hslots hcur]
  cases hps : (positionals m.parser.cargs)[j]? <;> simp [cursor, hps]

/-! ## The branch taken for a token -/

theorem match_cases_aux (t : String) (es : List carg) :
    (∀ E ∈ es, ¬ Matches E t) ∨
      ∃ i D, es[i]? = some D ∧ Matches D t ∧ ∀ E ∈ es.take i, ¬ Matches E t := by
  induction es with
  | nil => left; simp
  | cons ca tl ih =>
    by_cases hca : Matches ca t
    · right; exact ⟨0, ca, by simp, hca, by simp⟩
    · rcases ih with h | ⟨i, D, h1, h2, h3⟩
      · left
        intro E hE
        rcases List.mem_cons.mp hE with rfl | hmem
        · exact hca
        · exact h E hmem
      · right
        refine ⟨i + 1, D, by simpa using h1, h2, ?_⟩
        intro E hE
        rw [List.take_succ_cons] at hE
        rcases List.mem_cons.mp hE with rfl | hmem
        · exact hca
        · exact h3 E hmem

theorem match_cases (cargs : List carg) (t : String) :
    NoMatch cargs t ∨ ∃ i D, FirstMatch cargs t i D :=
  match_cases_aux t (entries cargs)

theorem carg_parse_dispatch_first (key : Option (Nat × carg)) (cargs : List carg) (t : String)
    (i : Nat) (D : carg) (hfirst : FirstMatch cargs t i D) :
    carg_parse_dispatch 0 key cargs t =
      if D.name = some t then
        (if D.type = CARG_UNARY then Action.set i D else Action.await i D)
      else Action.clear i D := by
  unfold carg_parse_dispatch
  simp only []
  rw [carg_parse_match_first t _ 0 i D hfirst]
  by_cases hname : D.name = some t <;> simp [hname]

theorem carg_parse_dispatch_nomatch (key : Option (Nat × carg)) (cargs : List carg)
    (t : String) (hno : NoMatch cargs t) :
    carg_parse_dispatch 0 key cargs t = carg_parse_unmatched t := by
  unfold carg_parse_dispatch
  simp only []
  rw [carg_parse_match_nothing t _ 0 hno]

theorem carg_parse_unmatched_ok (cargs : List carg) (t : String) :
    ActionOK cargs (carg_parse_unmatched t) := by
  unfold carg_parse_unmatched
  split
  · split
    · split
      · split <;> exact trivial
      · exact trivial
    · exact trivial
  · exact trivial

theorem carg_parse_dispatch_ok (state : Nat) (key : Option (Nat × carg)) (cargs : List carg)
    (t : String) (hkey : KeyOK cargs key) :
    ActionOK cargs (carg_parse_dispatch state key cargs t) := by
  match state with
  | 0 =>
    rcases match_cases cargs t with hno | ⟨i, D, hfirst⟩
    · rw [carg_parse_dispatch_nomatch key cargs t hno]
      exact carg_parse_unmatched_ok cargs t
    · rw [carg_parse_dispatch_first key cargs t i D hfirst]
      obtain ⟨hget, hD, _⟩ := hfirst
      by_cases hname : D.name = some t
      · rw [if_pos hname]
        by_cases hun : D.type = CARG_UNARY
        · rw [if_pos hun]; exact ⟨hget, hun⟩
        · rw [if_neg hun]
          refine ⟨hget, ?_⟩
          rcases hD with h | h
          · rcases h.1 with h1 | h1
            · exact absurd h1 hun
            · exact h1
          · exact absurd h.1 hun
      · rw [if_neg hname]
        refine ⟨hget, ?_⟩
        rcases hD with h | h
        · exact absurd h.2 hname
        · exact h.1
  | 1 =>
    unfold carg_parse_dispatch
    cases hk : key with
    | none => exact trivial
    | some kk =>
      obtain ⟨k, K⟩ := kk
      exact hkey k K hk
  | 2 => exact trivial
  | n + 3 => exact trivial

theorem carg_parse_perform_key_ok (cargs : List carg) (L : Loop) (t : String) (a : Action)
    (hkey : KeyOK cargs L.key) (ha : ActionOK cargs a) :
    KeyOK cargs (carg_parse_perform L t a).key := by
  cases a with
  | await i ca =>
    intro k K hk
    simp only [carg_parse_perform, Option.some.injEq, Prod.mk.injEq] at hk
    obtain ⟨rfl, rfl⟩ := hk
    exact ha
  | set i ca => exact hkey
  | clear i ca => exact hkey
  | positional_only => exact hkey
  | invalid_argument => exact hkey
  | flags => exact hkey
  | pos => exact hkey
  | value k key => exact hkey
  | skip => exact hkey

theorem flagEntry_some {cargs : List carg} {c : Char} {D : carg}
    (h : flagEntry cargs c = some D) : D ∈ entries cargs ∧ HasFlag D c := by
  unfold flagEntry flagIndex at h
  have hlt : (entries cargs).findIdx (fun ca => decide (HasFlag ca c)) <
      (entries cargs).length := by
    by_contra hge
    rw [List.getElem?_eq_none (by omega)] at h
    cases h
  have hget := List.findIdx_getElem (w := hlt)
  rw [List.getElem?_eq_getElem hlt] at h
  simp only [Option.some.injEq] at h
  rw [h] at hget
  exact ⟨List.getElem?_mem (by rw [List.getElem?_eq_getElem hlt, h]), by simpa using hget⟩

/-! ## Tokens that do not go to the positional scanner -/

theorem filter_writeEvents (k : carg_error) (p : Option Nat) (v : Option String) :
    (writeEvents p v).filter (Event.isErrorOf k) = [] := by
  cases p <;> simp [writeEvents, Event.isErrorOf]

theorem filter_callEvents (k : carg_error) (h : Option Nat) (i : Nat) :
    (callEvents h i).filter (Event.isErrorOf k) = [] := by
  cases h <;> simp [callEvents, Event.isErrorOf]

theorem filter_flagEvents (k : carg_error) (cargs : List carg) (t : String) (cs : List Char) :
    (cs.flatMap (flagEvents cargs t)).filter (Event.isErrorOf k) = [] := by
  induction cs with
  | nil => rfl
  | cons c rest ih =>
    rw [List.flatMap_cons, List.filter_append, ih, List.append_nil]
    unfold flagEvents
    cases flagEntry cargs c with
    | none => rfl
    | some D => simp [List.filter_append, filter_writeEvents, filter_callEvents]

theorem carg_parse_perform_last_pos (L : Loop) (t : String) (a : Action)
    (ha : a ≠ Action.pos) :
    (carg_parse_perform L t a).m.parser.last_pos = L.m.parser.last_pos := by
  cases a with
  | pos => exact absurd rfl ha
  | flags => exact (carg_parse_flags_loop_spec t _ 1 L.m).2.1
  | set i ca => simp [carg_parse_perform]
  | await i ca => rfl
  | clear i ca => simp [carg_parse_perform]
  | positional_only => rfl
  | invalid_argument => rfl
  | value k key => simp [carg_parse_perform]
  | skip => rfl

theorem carg_parse_perform_unexpected (L : Loop) (t : String) (a : Action)
    (ha : a ≠ Action.pos) :
    (carg_parse_perform L t a).m.trace.filter
        (Event.isErrorOf CARG_ERROR_UNEXPECTED_ARGUMENT) =
      L.m.trace.filter (Event.isErrorOf CARG_ERROR_UNEXPECTED_ARGUMENT) := by
  cases a with
  | pos => exact absurd rfl ha
  | flags =>
    simp only [carg_parse_perform, carg_parse_flags]
    rw [(carg_parse_flags_loop_spec t _ 1 L.m).2.2.1]
    simp only [List.filter_append, filter_flagEvents, List.append_nil]
    split <;> simp [Event.isErrorOf]
  | set i ca =>
    simp [carg_parse_perform, List.filter_append, filter_writeEvents, filter_callEvents]
  | await i ca => rfl
  | clear i ca =>
    simp [carg_parse_perform, List.filter_append, filter_writeEvents, filter_callEvents]
  | positional_only => rfl
  | invalid_argument => simp [carg_parse_perform, List.filter_append, Event.isErrorOf]
  | value k key =>
    simp [carg_parse_perform, List.filter_append, filter_writeEvents, filter_callEvents]
  | skip => rfl

theorem carg_parse_perform_slots (L : Loop) (t : String) (a : Action) (b : Nat)
    (ha : a ≠ Action.pos) (hok : ActionOK L.m.parser.cargs a)
    (hb : Untouched L.m.parser.cargs b) :
    (carg_parse_perform L t a).m.slots b = L.m.slots b := by
  have hwrite : ∀ (i : Nat) (ca : carg) (v : Option String),
      (entries L.m.parser.cargs)[i]? = some ca → ca.type ≠ CARG_POS →
      (L.m.write ca.value v).slots b = L.m.slots b := by
    intro i ca v hget hty
    rw [write_slots, if_neg (hb ca (List.getElem?_mem hget) hty)]
  cases a with
  | pos => exact absurd rfl ha
  | flags =>
    simp only [carg_parse_perform, carg_parse_flags]
    rw [(carg_parse_flags_loop_spec t _ 1 L.m).2.2.2 b, if_neg]
    rintro ⟨c, _, D, hD, hv⟩
    obtain ⟨hmem, hfl⟩ := flagEntry_some hD
    exact hb D hmem (by rw [hfl.1]; decide) hv
  | set i ca =>
    simp only [carg_parse_perform, invoke_slots]
    exact hwrite i ca _ hok.1 (by rw [hok.2]; decide)
  | await i ca => rfl
  | clear i ca =>
    simp only [carg_parse_perform, invoke_slots]
    exact hwrite i ca _ hok.1 (by rw [hok.2]; decide)
  | positional_only => rfl
  | invalid_argument => rfl
  | value k key =>
    simp only [carg_parse_perform, invoke_slots]
    exact hwrite k key _ hok.1 (by rw [hok.2]; decide)
  | skip => rfl

/-! ## Invariants of the scan on the positional descriptors -/

theorem routed_step_fst (acc : Loop × List String) (t : String) :
    (routed_step acc t).1 = carg_parse_step acc.1 t := rfl

theorem routed_step_snd_pos (acc : Loop × List String) (t : String)
    (h : carg_parse_dispatch acc.1.state acc.1.key acc.1.m.parser.cargs t = Action.pos) :
    (routed_step acc t).2 = acc.2 ++ [t] := by
  simp [routed_step, h]

theorem routed_step_snd_other (acc : Loop × List String) (t : String)
    (h : carg_parse_dispatch acc.1.state acc.1.key acc.1.m.parser.cargs t ≠ Action.pos) :
    (routed_step acc t).2 = acc.2 := by
  simp [routed_step, h]

theorem carg_parse_step_pos (L : Loop) (t : String)
    (h : carg_parse_dispatch L.state L.key L.m.parser.cargs t = Action.pos) :
    (carg_parse_step L t).m = carg_parse_pos L.m t := by
  unfold carg_parse_step
  rw [h]
  rfl

theorem posInv_init (parser : carg_parser_t) (slots : Slots) :
    PosInv parser (carg_parse_init parser slots, []) := by
  refine ⟨rfl, rfl, ?_, rfl, ?_⟩
  · intro k K hk
    simp [carg_parse_init] at hk
  · simp [carg_parse_init]

theorem posInv_step (parser : carg_parser_t)
    (hslots : ∀ p ∈ positionals parser.cargs, p.2.value ≠ none)
    (acc : Loop × List String) (t : String) (h : PosInv parser acc) :
    PosInv parser (routed_step acc t) := by
  obtain ⟨hc, he, hk, hl, ht⟩ := h
  have hok : ActionOK parser.cargs
      (carg_parse_dispatch acc.1.state acc.1.key acc.1.m.parser.cargs t) := by
    rw [hc]; exact carg_parse_dispatch_ok _ _ _ _ hk
  have hslots2 : ∀ p ∈ positionals acc.1.m.parser.cargs, p.2.value ≠ none := by
    rw [hc]; exact hslots
  have hl2 : acc.1.m.parser.last_pos = cursor acc.1.m.parser.cargs acc.2.length := by
    rw [hc]; exact hl
  refine ⟨?_, ?_, ?_, ?_, ?_⟩
  · rw [routed_step_fst, carg_parse_step_cargs]; exact hc
  · rw [routed_step_fst, carg_parse_step_error_handler]; exact he
  · rw [routed_step_fst]
    exact carg_parse_perform_key_ok parser.cargs { acc.1 with arg := some t } t _ hk hok
  · by_cases ha : carg_parse_dispatch acc.1.state acc.1.key acc.1.m.parser.cargs t = Action.pos
    · rw [routed_step_fst, routed_step_snd_pos acc t ha, carg_parse_step_pos acc.1 t ha,
        carg_parse_pos_cursor acc.1.m t acc.2.length hslots2 hl2, hc]
      simp
    · rw [routed_step_fst, routed_step_snd_other acc t ha]
      unfold carg_parse_step
      rw [carg_parse_perform_last_pos _ t _ ha]
      exact hl
  · by_cases ha : carg_parse_dispatch acc.1.state acc.1.key acc.1.m.parser.cargs t = Action.pos
    · rw [routed_step_fst, routed_step_snd_pos acc t ha, carg_parse_step_pos acc.1 t ha,
        carg_parse_pos_at acc.1.m t acc.2.length hslots2 hl2, hc]
      cases hps : (positionals parser.cargs)[acc.2.length]? with
      | some p =>
        have hlt : acc.2.length < (positionals parser.cargs).length := by
          by_contra hge
          rw [List.getElem?_eq_none (by omega)] at hps
          cases hps
        simp only [invoke_trace, write_trace, set_last_pos_trace, List.filter_append,
          filter_writeEvents, filter_callEvents, List.append_nil, ht]
        rw [List.drop_eq_nil_of_le (by omega), List.drop_eq_nil_of_le (by simp; omega)]
      | none =>
        have hle : (positionals parser.cargs).length ≤ acc.2.length := by
          rw [List.getElem?_eq_none_iff] at hps; exact hps
        simp only [set_last_pos_trace, report_trace, List.filter_append, ht, he]
        rw [List.drop_append_of_le_length hle, List.map_append]
        simp [unexpectedEvent, Event.isErrorOf]
    · rw [routed_step_fst, routed_step_snd_other acc t ha]
      unfold carg_parse_step
      rw [carg_parse_perform_unexpected _ t _ ha]
      exact ht

theorem posInv_foldl (parser : carg_parser_t)
    (hslots : ∀ p ∈ positionals parser.cargs, p.2.value ≠ none)
    (ts : List String) (acc : Loop × List String) (h : PosInv parser acc) :
    PosInv parser (ts.foldl routed_step acc) := by
  induction ts generalizing acc with
  | nil => exact h
  | cons t rest ih => exact ih _ (posInv_step parser hslots acc t h)

theorem foldl_routed_step_fst (ts : List String) (acc : Loop × List String) :
    (ts.foldl routed_step acc).1 = ts.foldl carg_parse_step acc.1 := by
  induction ts generalizing acc with
  | nil => rfl
  | cons t rest ih => rw [List.foldl_cons, List.foldl_cons, ih, routed_step_fst]

theorem routed_loop_fst (parser : carg_parser_t) (slots : Slots) (argv : List String) :
    ((argv.drop 1).foldl routed_step (carg_parse_init parser slots, [])).1 =
      carg_parse_loop parser slots argv :=
  foldl_routed_step_fst _ _

theorem getElem?_snoc_ne {α : Type} (l : List α) (x : α) (i : Nat) (h : i ≠ l.length) :
    (l ++ [x])[i]? = l[i]? := by
  by_cases hlt : i < l.length
  · exact List.getElem?_append_left hlt
  · rw [List.getElem?_eq_none (by simp; omega), List.getElem?_eq_none (by omega)]

theorem positional_values_ne (cargs : List carg)
    (hun : ((positionals cargs).map (fun p => p.2.value)).Nodup)
    (i j : Nat) (p q : Nat × carg)
    (hi : (positionals cargs)[i]? = some p) (hj : (positionals cargs)[j]? = some q)
    (hij : i ≠ j) : p.2.value ≠ q.2.value := by
  intro heq
  have hi2 : ((positionals cargs).map (fun p => p.2.value))[i]? = some p.2.value := by
    rw [List.getElem?_map, hi]; rfl
  have hj2 : ((positionals cargs).map (fun p => p.2.value))[j]? = some q.2.value := by
    rw [List.getElem?_map, hj]; rfl
  rw [List.nodup_iff_getElem?_ne_getElem?] at hun
  have hjl : j < ((positionals cargs).map (fun p => p.2.value)).length := by
    by_contra hge
    rw [List.getElem?_eq_none (by omega)] at hj2
    cases hj2
  have hil : i < ((positionals cargs).map (fun p => p.2.value)).length := by
    by_contra hge
    rw [List.getElem?_eq_none (by omega)] at hi2
    cases hi2
  rcases Nat.lt_or_gt_of_ne hij with h | h
  · exact hun i j h hjl (by rw [hi2, hj2, heq])
  · exact hun j i h hil (by rw [hi2, hj2, heq])

theorem slotInv_step (parser : carg_parser_t) (slots0 : Slots)
    (hslots : ∀ p ∈ positionals parser.cargs, p.2.value ≠ none)
    (hun : PositionalSlotsUnshared parser.cargs)
    (acc : Loop × List String) (t : String)
    (hp : PosInv parser acc) (hs : SlotInv parser slots0 acc) :
    SlotInv parser slots0 (routed_step acc t) := by
  obtain ⟨hc, he, hk, hl, ht⟩ := hp
  have hok : ActionOK acc.1.m.parser.cargs
      (carg_parse_dispatch acc.1.state acc.1.key acc.1.m.parser.cargs t) := by
    rw [hc]; exact carg_parse_dispatch_ok _ _ _ _ hk
  have hslots2 : ∀ p ∈ positionals acc.1.m.parser.cargs, p.2.value ≠ none := by
    rw [hc]; exact hslots
  have hl2 : acc.1.m.parser.last_pos = cursor acc.1.m.parser.cargs acc.2.length := by
    rw [hc]; exact hl
  intro i p a hpi hva
  have hilt : i < (positionals parser.cargs).length := by
    by_contra hge
    rw [List.getElem?_eq_none (by omega)] at hpi
    cases hpi
  by_cases ha : carg_parse_dispatch acc.1.state acc.1.key acc.1.m.parser.cargs t = Action.pos
  · rw [routed_step_fst, routed_step_snd_pos acc t ha, carg_parse_step_pos acc.1 t ha,
      carg_parse_pos_at acc.1.m t acc.2.length hslots2 hl2, hc]
    cases hps : (positionals parser.cargs)[acc.2.length]? with
    | some pj =>
      simp only [invoke_slots]
      rw [write_slots, set_last_pos_slots]
      by_cases hij : i = acc.2.length
      · rw [hij] at hpi
        rw [hps] at hpi
        cases hpi
        rw [if_pos hva, hij]
        simp
      · have hne : pj.2.value ≠ some a := by
          rw [← hva]
          exact positional_values_ne parser.cargs hun.1 _ _ pj p hps hpi (Ne.symm hij)
        rw [if_neg hne, getElem?_snoc_ne acc.2 t i hij]
        exact hs i p a hpi hva
    | none =>
      have hle : (positionals parser.cargs).length ≤ acc.2.length := by
        rw [List.getElem?_eq_none_iff] at hps; exact hps
      simp only [set_last_pos_slots, report_slots]
      rw [getElem?_snoc_ne acc.2 t i (by omega)]
      exact hs i p a hpi hva
  · rw [routed_step_fst, routed_step_snd_other acc t ha]
    unfold carg_parse_step
    rw [carg_parse_perform_slots { acc.1 with arg := some t } t _ a ha hok]
    · exact hs i p a hpi hva
    · intro E hE hty
      rw [← hva]
      simp only [hc] at hE
      exact hun.2 p (List.getElem?_mem hpi) E hE hty

theorem slotInv_foldl (parser : carg_parser_t) (slots0 : Slots)
    (hslots : ∀ p ∈ positionals parser.cargs, p.2.value ≠ none)
    (hun : PositionalSlotsUnshared parser.cargs)
    (ts : List String) (acc : Loop × List String)
    (hp : PosInv parser acc) (hs : SlotInv parser slots0 acc) :
    SlotInv parser slots0 (ts.foldl routed_step acc) := by
  induction ts generalizing acc with
  | nil => exact hs
  | cons t rest ih =>
    exact ih _ (posInv_step parser hslots acc t hp) (slotInv_step parser slots0 hslots hun acc t hp hs)

/-! ## Positional assignment in order -/

theorem carg_parse_finish_slots (L : Loop) : (carg_parse_finish L).slots = L.m.slots := by
  unfold carg_parse_finish
  split <;> rfl

theorem carg_parse_finish_unexpected (L : Loop) :
    (carg_parse_finish L).trace.filter (Event.isErrorOf CARG_ERROR_UNEXPECTED_ARGUMENT) =
      L.m.trace.filter (Event.isErrorOf CARG_ERROR_UNEXPECTED_ARGUMENT) := by
  unfold carg_parse_finish
  split
  · simp [List.filter_append, Event.isErrorOf]
  · rfl

/-- C6, the claim as stated fails when positional descriptors share a slot: in the table
[positional P1 with slot 0, positional P2 with slot 0, end] both positional descriptors have
a slot, the arguments `prog x y` route `x` then `y` to the positional scanner, and after the
scan the slot of P1 holds `y`, not `x`. -/
theorem positional_shared_slot_counterexample :
    (∀ p ∈ positionals shared_cargs, p.2.value ≠ none) ∧
    routed shared_setup null_slots ["prog", "x", "y"] = ["x", "y"] ∧
    (positionals shared_cargs)[0]? =
      some (0, carg.mk0 CARG_POS (some 0) none (Char.ofNat 0) none none none) ∧
    (carg_parse shared_setup null_slots ["prog", "x", "y"]).slots 0 = some "y" ∧
    (carg_parse shared_setup null_slots ["prog", "x", "y"]).slots 0 ≠ some "x" := by
  have hslot : (carg_parse shared_setup null_slots ["prog", "x", "y"]).slots 0 = some "y" := by
    simp [carg_parse, carg_parse_loop, carg_parse_init, carg_parse_step, carg_parse_dispatch,
      carg_parse_match, shared_setup, shared_cargs, carg.mk0, carg_parse_perform,
      carg_parse_unmatched, carg_parse_pos, carg_parse_pos_loop, carg_parse_pos_start,
      carg_parse_finish, write_slots]
  refine ⟨by decide, ?_, by decide, hslot, ?_⟩
  · simp [routed, routed_step, carg_parse_init, carg_parse_step, carg_parse_dispatch,
      carg_parse_match, shared_setup, shared_cargs, carg.mk0, carg_parse_perform,
      carg_parse_unmatched, carg_parse_pos, carg_parse_pos_loop, carg_parse_pos_start]
  · rw [hslot]; decide

/-- C6, amended. In a table whose positional descriptors P1..Pk all have slots, let
t1..tn be the tokens that the scan of `argv` routes to the positional scanner (from the
default state or after `--`). (1) If moreover no positional descriptor shares its slot with
another declared descriptor, then after the scan the slot of Pi holds ti for every
i ≤ min(n,k) and the slot of Pi for i > n holds what it held before the scan. (2) The
`UnexpectedArgument` error sites of the scan are exactly those of t(k+1)..tn, in order, so
their number is max(0, n-k). (3) Each such token, routed when k tokens or more have been
routed before it, changes no slot, adds one to the error count and has this error as its
only event. -/
theorem positional_assignment_unshared (parser : carg_parser_t) (slots : Slots)
    (hslots : ∀ p ∈ positionals parser.cargs, p.2.value ≠ none) :
    (PositionalSlotsUnshared parser.cargs →
      ∀ (argv : List String) (i : Nat) (p : Nat × carg) (a : Nat),
        (positionals parser.cargs)[i]? = some p → p.2.value = some a →
        (carg_parse parser slots argv).slots a =
          match (routed parser slots argv)[i]? with
          | some t => some t
          | none => slots a) ∧
    (∀ argv : List String,
      (carg_parse parser slots argv).trace.filter
          (Event.isErrorOf CARG_ERROR_UNEXPECTED_ARGUMENT) =
        ((routed parser slots argv).drop (positionals parser.cargs).length).map
          (unexpectedEvent parser)) ∧
    (∀ (pre : List String) (t : String), pre ≠ [] →
      carg_parse_dispatch (carg_parse_loop parser slots pre).state
        (carg_parse_loop parser slots pre).key parser.cargs t = Action.pos →
      (positionals parser.cargs).length ≤ (routed parser slots pre).length →
      (carg_parse_loop parser slots (pre ++ [t])).m.slots =
        (carg_parse_loop parser slots pre).m.slots ∧
      (carg_parse_loop parser slots (pre ++ [t])).m.parser.nerrors =
        (carg_parse_loop parser slots pre).m.parser.nerrors + 1 ∧
      (carg_parse_loop parser slots (pre ++ [t])).m.trace =
        (carg_parse_loop parser slots pre).m.trace ++ [unexpectedEvent parser t]) := by
  have hinv : ∀ argv : List String,
      PosInv parser ((argv.drop 1).foldl routed_step (carg_parse_init parser slots, [])) :=
    fun argv => posInv_foldl parser hslots _ _ (posInv_init parser slots)
  refine ⟨?_, ?_, ?_⟩
  · intro hun argv i p a hpi hva
    have hs : SlotInv parser slots
        ((argv.drop 1).foldl routed_step (carg_parse_init parser slots, [])) := by
      apply slotInv_foldl parser slots hslots hun _ _ (posInv_init parser slots)
      intro i p a _ _
      simp [carg_parse_init]
    have := hs i p a hpi hva
    rw [routed_loop_fst] at this
    unfold carg_parse
    rw [carg_parse_finish_slots]
    exact this
  · intro argv
    obtain ⟨_, _, _, _, ht⟩ := hinv argv
    rw [routed_loop_fst] at ht
    unfold carg_parse
    rw [carg_parse_finish_unexpected]
    exact ht
  · intro pre t hpre ha hle
    obtain ⟨hc, he, _, hl, _⟩ := hinv pre
    rw [routed_loop_fst] at hc he hl
    have hslots2 : ∀ p ∈ positionals (carg_parse_loop parser slots pre).m.parser.cargs,
        p.2.value ≠ none := by
      rw [hc]; exact hslots
    have hl2 : (carg_parse_loop parser slots pre).m.parser.last_pos =
        cursor (carg_parse_loop parser slots pre).m.parser.cargs
          (routed parser slots pre).length := by
      rw [hc]; exact hl
    have ha2 : carg_parse_dispatch (carg_parse_loop parser slots pre).state
        (carg_parse_loop parser slots pre).key
        (carg_parse_loop parser slots pre).m.parser.cargs t = Action.pos := by
      rw [hc]; exact ha
    have hnone : (positionals parser.cargs)[(routed parser slots pre).length]? = none :=
      List.getElem?_eq_none hle
    rw [carg_parse_loop_snoc parser slots pre t hpre, carg_parse_step_pos _ t ha2,
      carg_parse_pos_at _ t _ hslots2 hl2, hc, hnone]
    simp [unexpectedEvent, he]

theorem positional_assignment_unshared_witness :
    (carg_parse scenario_setup null_slots ["prog", "x", "y", "z"]).slots 2 = some "x" ∧
    (carg_parse scenario_setup null_slots ["prog", "x", "y", "z"]).slots 3 = some "y" ∧
    (carg_parse scenario_setup null_slots ["prog", "x", "y", "z"]).trace.filter
        (Event.isErrorOf CARG_ERROR_UNEXPECTED_ARGUMENT) =
      [unexpectedEvent scenario_setup "z"] := by
  have hr : routed scenario_setup null_slots ["prog", "x", "y", "z"] = ["x", "y", "z"] := by
    simp [routed, routed_step, carg_parse_init, carg_parse_step, carg_parse_dispatch,
      carg_parse_match, scenario_setup, scenario_cargs, carg.mk0, carg_parse_perform,
      carg_parse_unmatched, carg_parse_pos, carg_parse_pos_loop, carg_parse_pos_start]
  have hk : (positionals scenario_setup.cargs).length = 2 := by decide
  obtain ⟨h1, h2, _⟩ :=
    positional_assignment_unshared scenario_setup null_slots (by decide)
  have h1a := h1 (by decide) ["prog", "x", "y", "z"] 0
    (2, carg.mk0 CARG_POS (some 2) none (Char.ofNat 0) none none none) 2 (by decide) rfl
  have h1b := h1 (by decide) ["prog", "x", "y", "z"] 1
    (3, carg.mk0 CARG_POS (some 3) none (Char.ofNat 0) none none none) 3 (by decide) rfl
  have h2a := h2 ["prog", "x", "y", "z"]
  rw [hr] at h1a h1b h2a
  rw [hk] at h2a
  exact ⟨h1a, h1b, h2a⟩

/-! ## The positional-only state -/

theorem entries_drop (cargs : List carg) (q : Nat) (h : q ≤ (entries cargs).length) :
    entries (cargs.drop q) = (entries cargs).drop q := by
  induction cargs generalizing q with
  | nil => simp [entries]
  | cons ca tl ih =>
    cases q with
    | zero => rfl
    | succ q2 =>
      by_cases hend : ca.type = CARG_END
      · rw [entries_cons_end ca tl hend] at h
        simp at h
      · rw [entries_cons ca tl hend] at h ⊢
        simp only [List.length_cons, Nat.add_le_add_iff_right] at h
        simpa using ih q2 h

theorem carg_parse_pos_loop_found (lp : Option Nat) (l : List carg) (i q : Nat) (P : carg)
    (h : carg_parse_pos_loop lp l i = Scan.found q P) :
    i ≤ q ∧ (entries l)[q - i]? = some P ∧ P.type = CARG_POS := by
  induction l generalizing i with
  | nil => simp [carg_parse_pos_loop] at h
  | cons ca tl ih =>
    unfold carg_parse_pos_loop at h
    by_cases hend : ca.type = CARG_END
    · simp [hend] at h
    · rw [if_neg hend] at h
      have hrec : carg_parse_pos_loop lp tl (i + 1) = Scan.found q P →
          i ≤ q ∧ (entries (ca :: tl))[q - i]? = some P ∧ P.type = CARG_POS := by
        intro h2
        obtain ⟨h3, h4, h5⟩ := ih (i + 1) h2
        refine ⟨by omega, ?_, h5⟩
        have : q - i = (q - (i + 1)) + 1 := by omega
        rw [entries_cons ca tl hend, this, List.getElem?_cons_succ]
        exact h4
      by_cases hpos : ca.type = CARG_POS
      · rw [if_neg (not_not.mpr hpos)] at h
        by_cases hskip : lp = some i ∧ ca.value ≠ none
        · rw [if_pos hskip] at h
          exact hrec h
        · rw [if_neg hskip] at h
          simp only [Scan.found.injEq] at h
          obtain ⟨rfl, rfl⟩ := h
          refine ⟨Nat.le_refl _, ?_, hpos⟩
          rw [entries_cons ca tl hend]
          simp
      · rw [if_pos hpos] at h
        exact hrec h

theorem carg_parse_pos_loop_sentinel (lp : Option Nat) (l : List carg) (i q : Nat)
    (h : carg_parse_pos_loop lp l i = Scan.sentinel q) : q = i + (entries l).length := by
  induction l generalizing i with
  | nil =>
    simp only [carg_parse_pos_loop, Scan.sentinel.injEq] at h
    simp [entries, h]
  | cons ca tl ih =>
    unfold carg_parse_pos_loop at h
    by_cases hend : ca.type = CARG_END
    · simp only [hend, if_true, Scan.sentinel.injEq] at h
      simp [entries_cons_end ca tl hend, h]
    · rw [if_neg hend] at h
      have hrec : carg_parse_pos_loop lp tl (i + 1) = Scan.sentinel q →
          q = i + (entries (ca :: tl)).length := by
        intro h2
        rw [entries_cons ca tl hend, ih (i + 1) h2]
        simp only [List.length_cons]
        omega
      by_cases hpos : ca.type = CARG_POS
      · rw [if_neg (not_not.mpr hpos)] at h
        by_cases hskip : lp = some i ∧ ca.value ≠ none
        · rw [if_pos hskip] at h
          exact hrec h
        · rw [if_neg hskip] at h
          cases h
      · rw [if_pos hpos] at h
        exact hrec h

theorem carg_parse_pos_start_le (m : Machine) (h : CursorOK m) :
    carg_parse_pos_start m.parser.last_pos ≤ (entries m.parser.cargs).length := by
  cases hl : m.parser.last_pos with
  | none => simp [carg_parse_pos_start]
  | some q => exact h q hl

/-- The positional scanner either stores the token in the slot of a declared positional
descriptor and calls its handler, or reports `UnexpectedArgument`. -/
theorem carg_parse_pos_cases (m : Machine) (t : String) (h : CursorOK m) :
    (∃ q P, P ∈ entries m.parser.cargs ∧ P.type = CARG_POS ∧
        q < (entries m.parser.cargs).length ∧
        carg_parse_pos m t = ((m.set_last_pos q).write P.value (some t)).invoke P.handler q) ∨
    carg_parse_pos m t =
      (m.report CARG_ERROR_UNEXPECTED_ARGUMENT (some t) none).set_last_pos
        (entries m.parser.cargs).length := by
  have hle := carg_parse_pos_start_le m h
  unfold carg_parse_pos
  cases hloop : carg_parse_pos_loop m.parser.last_pos
      (m.parser.cargs.drop (carg_parse_pos_start m.parser.last_pos))
      (carg_parse_pos_start m.parser.last_pos) with
  | found q P =>
    left
    obtain ⟨h1, h2, h3⟩ := carg_parse_pos_loop_found _ _ _ _ _ hloop
    rw [entries_drop _ _ hle, List.getElem?_drop] at h2
    have hidx : carg_parse_pos_start m.parser.last_pos +
        (q - carg_parse_pos_start m.parser.last_pos) = q := by omega
    rw [hidx] at h2
    have hlt : q < (entries m.parser.cargs).length := by
      by_contra hge
      rw [List.getElem?_eq_none (by omega)] at h2
      cases h2
    exact ⟨q, P, List.getElem?_mem h2, h3, hlt, rfl⟩
  | sentinel q =>
    right
    have hq := carg_parse_pos_loop_sentinel _ _ _ _ hloop
    rw [entries_drop _ _ hle, List.length_drop] at hq
    have : q = (entries m.parser.cargs).length := by omega
    rw [this]

theorem carg_parse_pos_cursorOK (m : Machine) (t : String) (h : CursorOK m) :
    CursorOK (carg_parse_pos m t) := by
  intro q hq
  rw [carg_parse_pos_cargs]
  rcases carg_parse_pos_cases m t h with ⟨q2, P, _, _, hlt, heq⟩ | heq
  · rw [heq] at hq
    simp only [invoke_parser_eq, write_parser_eq, set_last_pos_last_pos, Option.some.injEq] at hq
    omega
  · rw [heq] at hq
    simp only [set_last_pos_last_pos, Option.some.injEq] at hq
    omega

theorem carg_parse_pos_slots (m : Machine) (t : String) (b : Nat) (h : CursorOK m)
    (hb : ¬ PosSlot m.parser.cargs b) : (carg_parse_pos m t).slots b = m.slots b := by
  rcases carg_parse_pos_cases m t h with ⟨q, P, hmem, hty, _, heq⟩ | heq
  · rw [heq, invoke_slots, write_slots, if_neg, set_last_pos_slots]
    intro hv
    exact hb ⟨P, hmem, hty, hv⟩
  · rw [heq]; rfl

theorem carg_parse_step_cursorOK (L : Loop) (t : String) (h : CursorOK L.m) :
    CursorOK (carg_parse_step L t).m := by
  by_cases ha : carg_parse_dispatch L.state L.key L.m.parser.cargs t = Action.pos
  · rw [carg_parse_step_pos L t ha]
    exact carg_parse_pos_cursorOK L.m t h
  · intro q hq
    rw [carg_parse_step_cargs]
    unfold carg_parse_step at hq
    rw [carg_parse_perform_last_pos _ t _ ha] at hq
    exact h q hq

theorem foldl_step_cursorOK (ts : List String) (L : Loop) (h : CursorOK L.m) :
    CursorOK (ts.foldl carg_parse_step L).m := by
  induction ts generalizing L with
  | nil => exact h
  | cons t rest ih => exact ih _ (carg_parse_step_cursorOK L t h)

theorem carg_parse_loop_cursorOK (parser : carg_parser_t) (slots : Slots) (argv : List String) :
    CursorOK (carg_parse_loop parser slots argv).m := by
  apply foldl_step_cursorOK
  intro q hq
  simp [carg_parse_init] at hq

theorem foldl_step_positional_only (ts : List String) (L : Loop) (h : L.state = 2) :
    (ts.foldl carg_parse_step L).state = 2 ∧
    (ts.foldl carg_parse_step L).key = L.key ∧
    (ts.foldl carg_parse_step L).m = ts.foldl carg_parse_pos L.m := by
  induction ts generalizing L with
  | nil => exact ⟨h, rfl, rfl⟩
  | cons t rest ih =>
    have hstep : carg_parse_step L t = { L with arg := some t, m := carg_parse_pos L.m t } := by
      unfold carg_parse_step carg_parse_dispatch
      rw [h]
      rfl
    rw [List.foldl_cons, List.foldl_cons, hstep]
    exact ih _ h

theorem foldl_pos_cargs (ts : List String) (m : Machine) :
    (ts.foldl carg_parse_pos m).parser.cargs = m.parser.cargs := by
  induction ts generalizing m with
  | nil => rfl
  | cons t rest ih => rw [List.foldl_cons, ih, carg_parse_pos_cargs]

theorem foldl_pos_slots (ts : List String) (m : Machine) (b : Nat) (h : CursorOK m)
    (hb : ¬ PosSlot m.parser.cargs b) : (ts.foldl carg_parse_pos m).slots b = m.slots b := by
  induction ts generalizing m with
  | nil => rfl
  | cons t rest ih =>
    rw [List.foldl_cons, ih _ (carg_parse_pos_cursorOK m t h)
      (by rw [carg_parse_pos_cargs]; exact hb)]
    exact carg_parse_pos_slots m t b h hb

theorem isError_writeEvents (p : Option Nat) (v : Option String) (ev : Event)
    (h : ev ∈ writeEvents p v) : Event.isError ev = false := by
  cases p with
  | none => simp [writeEvents] at h
  | some a =>
    simp only [writeEvents, List.mem_singleton] at h
    rw [h]; rfl

theorem isError_callEvents (hd : Option Nat) (i : Nat) (ev : Event)
    (h : ev ∈ callEvents hd i) : Event.isError ev = false := by
  cases hd with
  | none => simp [callEvents] at h
  | some fn =>
    simp only [callEvents, List.mem_singleton] at h
    rw [h]; rfl

theorem carg_parse_pos_events (m : Machine) (t : String) :
    ∃ evs : List Event,
      (carg_parse_pos m t).trace = m.trace ++ evs ∧
      (carg_parse_pos m t).parser.nerrors = m.parser.nerrors + (evs.filter Event.isError).length ∧
      ∀ ev ∈ evs, Event.isError ev = true →
        Event.isErrorOf CARG_ERROR_UNEXPECTED_ARGUMENT ev = true := by
  unfold carg_parse_pos
  split
  · rename_i i ca _
    refine ⟨writeEvents ca.value (some t) ++ callEvents ca.handler i, ?_, ?_, ?_⟩
    · simp [List.append_assoc]
    · cases ca.value <;> cases ca.handler <;>
        simp [writeEvents, callEvents, Event.isError]
    · intro ev hev herr
      rcases List.mem_append.mp hev with h | h
      · rw [isError_writeEvents _ _ ev h] at herr
        cases herr
      · rw [isError_callEvents _ _ ev h] at herr
        cases herr
  · refine ⟨[Event.error m.parser.error_handler CARG_ERROR_UNEXPECTED_ARGUMENT (some t) none],
      rfl, ?_, ?_⟩
    · simp [Event.isError]
    · intro ev hev _
      simp only [List.mem_singleton] at hev
      rw [hev]
      simp [Event.isErrorOf]

theorem foldl_pos_events (ts : List String) (m : Machine) :
    ∃ evs : List Event,
      (ts.foldl carg_parse_pos m).trace = m.trace ++ evs ∧
      (ts.foldl carg_parse_pos m).parser.nerrors =
        m.parser.nerrors + (evs.filter Event.isError).length ∧
      ∀ ev ∈ evs, Event.isError ev = true →
        Event.isErrorOf CARG_ERROR_UNEXPECTED_ARGUMENT ev = true := by
  induction ts generalizing m with
  | nil => exact ⟨[], by simp, by simp, by simp⟩
  | cons t rest ih =>
    obtain ⟨evs1, h1, h2, h3⟩ := carg_parse_pos_events m t
    obtain ⟨evs2, h4, h5, h6⟩ := ih (carg_parse_pos m t)
    refine ⟨evs1 ++ evs2, ?_, ?_, ?_⟩
    · rw [List.foldl_cons, h4, h1, List.append_assoc]
    · rw [List.foldl_cons, h5, h2, List.filter_append, List.length_append, Nat.add_assoc]
    · intro ev hev
      rcases List.mem_append.mp hev with h | h
      · exact h3 ev h
      · exact h6 ev h

theorem carg_parse_unmatched_dashes : carg_parse_unmatched "--" = Action.positional_only := by
  simp [carg_parse_unmatched]

/-- C7, the claim as stated fails when a positional descriptor shares its slot with a unary
one: in the table [unary `--foo` with slot 0, positional with slot 0, end] no descriptor has
`--` as name or negation, `--` is read in the default state in `prog -- x`, the slot of the
unary descriptor is absent after `--` and holds `x` at the end of the scan. -/
theorem positional_only_aliased_counterexample :
    (∀ E ∈ entries aliased_cargs, E.name ≠ some "--" ∧ E.neg_name ≠ some "--") ∧
    (carg_parse_loop aliased_setup null_slots ["prog"]).state = 0 ∧
    (entries aliased_cargs)[0]? =
      some (carg.mk0 CARG_UNARY (some 0) (some "--foo") 'f' none none none) ∧
    (carg_parse_loop aliased_setup null_slots ["prog", "--"]).m.slots 0 = none ∧
    (carg_parse aliased_setup null_slots ["prog", "--", "x"]).slots 0 = some "x" := by
  refine ⟨by decide, rfl, by decide, ?_, ?_⟩
  · simp [carg_parse_loop, carg_parse_init, carg_parse_step, carg_parse_dispatch,
      carg_parse_match, aliased_setup, aliased_cargs, carg.mk0, carg_parse_perform,
      carg_parse_unmatched, null_slots]
  · simp [carg_parse, carg_parse_loop, carg_parse_init, carg_parse_step, carg_parse_dispatch,
      carg_parse_match, aliased_setup, aliased_cargs, carg.mk0, carg_parse_perform,
      carg_parse_unmatched, carg_parse_pos, carg_parse_pos_loop, carg_parse_pos_start,
      carg_parse_finish, write_slots]

/-- C7, amended. Positional-only is absorbing. Let `--`, matched by no declared descriptor
(in particular when none has `--` as name or negation), be read in the default state. The
token `--` itself only switches to the positional-only state: it writes no slot, raises no
error and leaves the machine as it is. Whatever tokens `post` follow: the state stays
positional-only, the branch taken for any further token is the positional one, the machine
is the one obtained by handing the tokens of `post`, verbatim and in order, to the
positional scanner, and the scan ends there without a further error; no slot changes except
slots of declared positional descriptors (so a unary or keyword slot changes only if a
positional descriptor shares it); and every error counted after `--` is an
`UnexpectedArgument` one. -/
theorem positional_only_absorbing (parser : carg_parser_t) (slots : Slots) (pre : List String)
    (hpre : pre ≠ [])
    (hstate : (carg_parse_loop parser slots pre).state = 0)
    (hno : NoMatch parser.cargs "--") :
    (carg_parse_loop parser slots (pre ++ ["--"])).state = 2 ∧
    (carg_parse_loop parser slots (pre ++ ["--"])).m = (carg_parse_loop parser slots pre).m ∧
    (∀ post : List String,
      (carg_parse_loop parser slots (pre ++ "--" :: post)).state = 2 ∧
      (carg_parse_loop parser slots (pre ++ "--" :: post)).m =
        post.foldl carg_parse_pos (carg_parse_loop parser slots pre).m ∧
      carg_parse parser slots (pre ++ "--" :: post) =
        (carg_parse_loop parser slots (pre ++ "--" :: post)).m) ∧
    (∀ (post : List String) (t : String),
      carg_parse_dispatch (carg_parse_loop parser slots (pre ++ "--" :: post)).state
        (carg_parse_loop parser slots (pre ++ "--" :: post)).key parser.cargs t =
          Action.pos) ∧
    (∀ (post : List String) (b : Nat), ¬ PosSlot parser.cargs b →
      (carg_parse_loop parser slots (pre ++ "--" :: post)).m.slots b =
        (carg_parse_loop parser slots pre).m.slots b) ∧
    (∀ post : List String, ∃ evs : List Event,
      (carg_parse_loop parser slots (pre ++ "--" :: post)).m.trace =
        (carg_parse_loop parser slots pre).m.trace ++ evs ∧
      (carg_parse_loop parser slots (pre ++ "--" :: post)).m.parser.nerrors =
        (carg_parse_loop parser slots pre).m.parser.nerrors +
          (evs.filter Event.isError).length ∧
      ∀ ev ∈ evs, Event.isError ev = true →
        Event.isErrorOf CARG_ERROR_UNEXPECTED_ARGUMENT ev = true) := by
  have hcargs := carg_parse_loop_cargs parser slots pre
  have hno2 : NoMatch (carg_parse_loop parser slots pre).m.parser.cargs "--" := by
    rw [hcargs]; exact hno
  have hdash : carg_parse_loop parser slots (pre ++ ["--"]) =
      { carg_parse_loop parser slots pre with arg := some "--", state := 2 } := by
    rw [carg_parse_loop_snoc parser slots pre "--" hpre,
      carg_parse_step_nomatch _ "--" hstate hno2, carg_parse_unmatched_dashes]
    rfl
  have hpost : ∀ post : List String,
      (carg_parse_loop parser slots (pre ++ "--" :: post)).state = 2 ∧
      (carg_parse_loop parser slots (pre ++ "--" :: post)).m =
        post.foldl carg_parse_pos (carg_parse_loop parser slots pre).m := by
    intro post
    have happ : pre ++ "--" :: post = (pre ++ ["--"]) ++ post := by simp
    rw [happ, carg_parse_loop_append parser slots (pre ++ ["--"]) post (by simp), hdash]
    obtain ⟨h1, _, h3⟩ := foldl_step_positional_only post
      { carg_parse_loop parser slots pre with arg := some "--", state := 2 } rfl
    exact ⟨h1, h3⟩
  have hok := carg_parse_loop_cursorOK parser slots pre
  refine ⟨by rw [hdash], by rw [hdash], ?_, ?_, ?_, ?_⟩
  · intro post
    refine ⟨(hpost post).1, (hpost post).2, ?_⟩
    unfold carg_parse carg_parse_finish
    rw [if_neg]
    rw [(hpost post).1]
    decide
  · intro post t
    rw [(hpost post).1]
    rfl
  · intro post b hb
    rw [(hpost post).2]
    exact foldl_pos_slots post _ b hok (by rw [hcargs]; exact hb)
  · intro post
    rw [(hpost post).2]
    exact foldl_pos_events post _

theorem positional_only_absorbing_witness :
    (carg_parse_loop scenario_setup null_slots (["prog"] ++ "--" :: ["--", "-f", "--key"])).m =
      ["--", "-f", "--key"].foldl carg_parse_pos
        (carg_parse_loop scenario_setup null_slots ["prog"]).m ∧
    (carg_parse_loop scenario_setup null_slots
      (["prog"] ++ "--" :: ["--", "-f", "--key"])).m.slots 0 = none :=
  ⟨((positional_only_absorbing scenario_setup null_slots ["prog"] (by decide) rfl
      (by decide)).2.2.1 ["--", "-f", "--key"]).2.1,
    (positional_only_absorbing scenario_setup null_slots ["prog"] (by decide) rfl
      (by decide)).2.2.2.2.1 ["--", "-f", "--key"] 0 (by decide)⟩

/-! ## The error counter -/

theorem sim_write {m1 m2 : Machine} (h : Sim m1 m2) (p : Option Nat) (v : Option String) :
    Sim (m1.write p v) (m2.write p v) := by
  obtain ⟨h1, h2, h3, h4⟩ := h
  refine ⟨by simpa using h1, by simpa using h2, by simpa using h3, ?_⟩
  funext b
  rw [write_slots, write_slots, h4]

theorem sim_invoke {m1 m2 : Machine} (h : Sim m1 m2) (hd : Option Nat) (i : Nat) :
    Sim (m1.invoke hd i) (m2.invoke hd i) := by
  obtain ⟨h1, h2, h3, h4⟩ := h
  exact ⟨by simpa using h1, by simpa using h2, by simpa using h3, by simpa using h4⟩

theorem sim_report {m1 m2 : Machine} (h : Sim m1 m2) (e : carg_error) (p1 : Option String)
    (p2 : Option Nat) : Sim (m1.report e p1 p2) (m2.report e p1 p2) := by
  obtain ⟨h1, h2, h3, h4⟩ := h
  exact ⟨h1, by simp [h2], h3, h4⟩

theorem sim_set_last_pos {m1 m2 : Machine} (h : Sim m1 m2) (i : Nat) :
    Sim (m1.set_last_pos i) (m2.set_last_pos i) := by
  obtain ⟨h1, h2, h3, h4⟩ := h
  exact ⟨h1, h2, rfl, h4⟩

theorem sim_carg_parse_pos {m1 m2 : Machine} (h : Sim m1 m2) (t : String) :
    Sim (carg_parse_pos m1 t) (carg_parse_pos m2 t) := by
  unfold carg_parse_pos
  rw [h.1, h.2.2.1]
  cases carg_parse_pos_loop m2.parser.last_pos
      (m2.parser.cargs.drop (carg_parse_pos_start m2.parser.last_pos))
      (carg_parse_pos_start m2.parser.last_pos) with
  | found i ca => exact sim_invoke (sim_write (sim_set_last_pos h i) _ _) _ _
  | sentinel i => exact sim_set_last_pos (sim_report h _ _ _) i

theorem sim_carg_parse_flags_loop (arg : String) (cs : List Char) (off : Nat)
    {m1 m2 : Machine} (h : Sim m1 m2) :
    Sim (carg_parse_flags_loop arg cs off m1) (carg_parse_flags_loop arg cs off m2) := by
  induction cs generalizing off m1 m2 with
  | nil => exact h
  | cons c rest ih =>
    unfold carg_parse_flags_loop
    rw [h.1]
    cases carg_parse_flags_find c m2.parser.cargs 0 with
    | found i ca => exact ih _ (sim_invoke (sim_write h _ _) _ _)
    | sentinel i => exact sim_report h _ _ _

theorem sim_carg_parse_perform {L1 L2 : Loop} (h : LoopSim L1 L2) (t : String) (a : Action) :
    LoopSim (carg_parse_perform L1 t a) (carg_parse_perform L2 t a) := by
  obtain ⟨h1, h2, h3, h4⟩ := h
  cases a with
  | set i ca => exact ⟨h1, h2, h3, sim_invoke (sim_write h4 _ _) _ _⟩
  | await i ca => exact ⟨rfl, rfl, h3, h4⟩
  | clear i ca => exact ⟨h1, h2, h3, sim_invoke (sim_write h4 _ _) _ _⟩
  | positional_only => exact ⟨rfl, h2, h3, h4⟩
  | invalid_argument => exact ⟨h1, h2, h3, sim_report h4 _ _ _⟩
  | flags => exact ⟨h1, h2, h3, sim_carg_parse_flags_loop _ _ _ h4⟩
  | pos => exact ⟨h1, h2, h3, sim_carg_parse_pos h4 _⟩
  | value k key => exact ⟨rfl, h2, h3, sim_invoke (sim_write h4 _ _) _ _⟩
  | skip => exact ⟨h1, h2, h3, h4⟩

theorem sim_carg_parse_step {L1 L2 : Loop} (h : LoopSim L1 L2) (t : String) :
    LoopSim (carg_parse_step L1 t) (carg_parse_step L2 t) := by
  have hd : carg_parse_dispatch L1.state L1.key L1.m.parser.cargs t =
      carg_parse_dispatch L2.state L2.key L2.m.parser.cargs t := by
    rw [h.1, h.2.1, h.2.2.2.1]
  have hs : LoopSim { L1 with arg := some t } { L2 with arg := some t } :=
    ⟨h.1, h.2.1, rfl, h.2.2.2⟩
  unfold carg_parse_step
  rw [hd]
  exact sim_carg_parse_perform hs t _

theorem sim_foldl_step (ts : List String) {L1 L2 : Loop} (h : LoopSim L1 L2) :
    LoopSim (ts.foldl carg_parse_step L1) (ts.foldl carg_parse_step L2) := by
  induction ts generalizing L1 L2 with
  | nil => exact h
  | cons t rest ih => exact ih (sim_carg_parse_step h t)

theorem sim_carg_parse (cargs : List carg) (eh1 eh2 : Option Nat) (n1 n2 : Nat)
    (lp1 lp2 : Option Nat) (slots : Slots) (argv : List String) :
    Sim (carg_parse ⟨cargs, eh1, n1, lp1⟩ slots argv)
      (carg_parse ⟨cargs, eh2, n2, lp2⟩ slots argv) := by
  have h : LoopSim (carg_parse_loop ⟨cargs, eh1, n1, lp1⟩ slots argv)
      (carg_parse_loop ⟨cargs, eh2, n2, lp2⟩ slots argv) :=
    sim_foldl_step _ ⟨rfl, rfl, rfl, rfl, rfl, rfl, rfl⟩
  unfold carg_parse carg_parse_finish
  rw [h.1, h.2.2.1]
  split
  · exact sim_report h.2.2.2 _ _ _
  · exact h.2.2.2

theorem carg_parse_perform_arg (L : Loop) (t : String) (a : Action) :
    (carg_parse_perform L t a).arg = L.arg := by
  cases a <;> rfl

theorem carg_parse_step_arg (L : Loop) (t : String) : (carg_parse_step L t).arg = some t := by
  unfold carg_parse_step
  rw [carg_parse_perform_arg]

theorem filter_isInvocation (f : Nat) (l : List Event)
    (h : ∀ ev ∈ l, ∀ fn e p1 p2, ev = Event.error fn e p1 p2 → fn = some f) :
    l.filter Event.isInvocation = l.filter Event.isError := by
  apply List.filter_congr
  intro ev hev
  cases ev with
  | write a v => rfl
  | call fn ca => rfl
  | error fn e p1 p2 =>
    rw [h _ hev fn e p1 p2 rfl]
    rfl

theorem filter_isInvocation_none (l : List Event)
    (h : ∀ ev ∈ l, ∀ fn e p1 p2, ev = Event.error fn e p1 p2 → fn = none) :
    l.filter Event.isInvocation = [] := by
  rw [List.filter_eq_nil_iff]
  intro ev hev
  cases ev with
  | write a v => simp [Event.isInvocation]
  | call fn ca => simp [Event.isInvocation]
  | error fn e p1 p2 =>
    rw [h _ hev fn e p1 p2 rfl]
    simp [Event.isInvocation]

/-- The error sites of a whole scan: the error count is their number, and each carries the
error handler of the parser. -/
theorem carg_parse_error_sites (parser : carg_parser_t) (slots : Slots) (argv : List String) :
    (carg_parse parser slots argv).parser.nerrors =
      ((carg_parse parser slots argv).trace.filter Event.isError).length ∧
    ∀ ev ∈ (carg_parse parser slots argv).trace, ∀ fn e p1 p2,
      ev = Event.error fn e p1 p2 → fn = parser.error_handler := by
  obtain ⟨_, he, evs, ht, hn, _, hf⟩ := extends_carg_parse_loop parser slots argv
  simp only [carg_parse_init, List.nil_append, Nat.zero_add] at ht hn hf he
  unfold carg_parse carg_parse_finish
  split
  · refine ⟨?_, ?_⟩
    · rw [report_nerrors, report_trace, hn, ht, List.filter_append]
      simp [Event.isError]
    · intro ev hev fn e p1 p2 heq
      rw [report_trace] at hev
      rcases List.mem_append.mp hev with h | h
      · rw [ht] at h
        exact hf ev h fn e p1 p2 heq
      · simp only [List.mem_singleton] at h
        rw [h] at heq
        cases heq
        exact he
  · refine ⟨by rw [hn, ht], ?_⟩
    intro ev hev fn e p1 p2 heq
    rw [ht] at hev
    exact hf ev hev fn e p1 p2 heq

/-! ## Unrecognised long options -/

theorem carg_parse_unmatched_long (t : String) (c : Char) (rest : List Char)
    (htok : t.toList = '-' :: '-' :: c :: rest) :
    carg_parse_unmatched t = Action.invalid_argument := by
  unfold carg_parse_unmatched
  rw [htok]
  simp

/-- C9. Unrecognised long option. Let the token `t` begin with two dashes and have at least
three characters, be read in the default state and match no declared descriptor by name or
negation. Then the branch taken is the invalid-argument one; processing `t` adds exactly one
to the error count; its only event is an `InvalidArgument` error site with payload `t` (no
slot store, no handler call); every slot is unchanged; the positional cursor is unchanged
(`t` is not taken as a positional argument); and the dispatcher stays in the default
state. -/
theorem unrecognised_long_option (parser : carg_parser_t) (slots : Slots) (pre : List String)
    (t : String) (c : Char) (rest : List Char)
    (hpre : pre ≠ [])
    (hstate : (carg_parse_loop parser slots pre).state = 0)
    (hno : NoMatch parser.cargs t)
    (htok : t.toList = '-' :: '-' :: c :: rest) :
    carg_parse_dispatch (carg_parse_loop parser slots pre).state
      (carg_parse_loop parser slots pre).key parser.cargs t = Action.invalid_argument ∧
    (carg_parse_loop parser slots (pre ++ [t])).m.parser.nerrors =
      (carg_parse_loop parser slots pre).m.parser.nerrors + 1 ∧
    (carg_parse_loop parser slots (pre ++ [t])).m.trace =
      (carg_parse_loop parser slots pre).m.trace ++
        [Event.error parser.error_handler CARG_ERROR_INVALID_ARGUMENT (some t) none] ∧
    (carg_parse_loop parser slots (pre ++ [t])).m.slots =
      (carg_parse_loop parser slots pre).m.slots ∧
    (carg_parse_loop parser slots (pre ++ [t])).m.parser.last_pos =
      (carg_parse_loop parser slots pre).m.parser.last_pos ∧
    (carg_parse_loop parser slots (pre ++ [t])).state = 0 := by
  have hcargs := carg_parse_loop_cargs parser slots pre
  have heh := carg_parse_loop_error_handler parser slots pre
  have hno2 : NoMatch (carg_parse_loop parser slots pre).m.parser.cargs t := by
    rw [hcargs]; exact hno
  refine ⟨?_, ?_⟩
  · rw [hstate, carg_parse_dispatch_nomatch _ _ t hno, carg_parse_unmatched_long t c rest htok]
  · rw [carg_parse_loop_snoc parser slots pre t hpre,
      carg_parse_step_nomatch _ t hstate hno2, carg_parse_unmatched_long t c rest htok]
    simp only [carg_parse_perform, report_nerrors, report_trace, report_slots, report_last_pos,
      heh]
    exact ⟨trivial, trivial, trivial, trivial, hstate⟩

theorem unrecognised_long_option_witness :
    carg_parse_dispatch (carg_parse_loop scenario_setup null_slots ["prog"]).state
      (carg_parse_loop scenario_setup null_slots ["prog"]).key scenario_setup.cargs "--bar" =
        Action.invalid_argument ∧
    (carg_parse_loop scenario_setup null_slots (["prog"] ++ ["--bar"])).m.parser.nerrors =
      (carg_parse_loop scenario_setup null_slots ["prog"]).m.parser.nerrors + 1 ∧
    (carg_parse_loop scenario_setup null_slots (["prog"] ++ ["--bar"])).m.trace =
      (carg_parse_loop scenario_setup null_slots ["prog"]).m.trace ++
        [Event.error scenario_setup.error_handler CARG_ERROR_INVALID_ARGUMENT (some "--bar")
          none] ∧
    (carg_parse_loop scenario_setup null_slots (["prog"] ++ ["--bar"])).m.slots =
      (carg_parse_loop scenario_setup null_slots ["prog"]).m.slots ∧
    (carg_parse_loop scenario_setup null_slots (["prog"] ++ ["--bar"])).m.parser.last_pos =
      (carg_parse_loop scenario_setup null_slots ["prog"]).m.parser.last_pos ∧
    (carg_parse_loop scenario_setup null_slots (["prog"] ++ ["--bar"])).state = 0 :=
  unrecognised_long_option scenario_setup null_slots ["prog"] "--bar" 'b' ['a', 'r']
    (by decide) rfl (by decide) rfl

/-! ## The program name -/

theorem drop_one_eq_of_tail_eq (argv1 argv2 : List String)
    (h : ∀ i, 1 ≤ i → argv1[i]? = argv2[i]?) : argv1.drop 1 = argv2.drop 1 := by
  apply List.ext_getElem?
  intro i
  rw [List.getElem?_drop, List.getElem?_drop]
  exact h (1 + i) (by omega)

/-- C10. Token 0 is always skipped. Two argument vectors that agree at every index from 1
on give the same scan: the same machine, hence the same slots, the same sequence of slot
stores, handler calls and error events, and the same error count, whatever their token 0
is. When there are no arguments beyond token 0 (`argc ≤ 1`), no slot is written, there is
no event at all and the error count is 0. -/
theorem token_zero_skipped :
    (∀ (parser : carg_parser_t) (slots : Slots) (argv1 argv2 : List String),
      (∀ i, 1 ≤ i → argv1[i]? = argv2[i]?) →
      carg_parse parser slots argv1 = carg_parse parser slots argv2) ∧
    (∀ (parser : carg_parser_t) (slots : Slots) (argv : List String), argv.length ≤ 1 →
      (carg_parse parser slots argv).slots = slots ∧
      (carg_parse parser slots argv).trace = [] ∧
      (carg_parse parser slots argv).parser.nerrors = 0) := by
  constructor
  · intro parser slots argv1 argv2 h
    unfold carg_parse carg_parse_loop
    rw [drop_one_eq_of_tail_eq argv1 argv2 h]
  · intro parser slots argv hlen
    have hdrop : argv.drop 1 = [] := List.drop_eq_nil_of_le hlen
    unfold carg_parse carg_parse_loop
    rw [hdrop]
    exact ⟨rfl, rfl, rfl⟩

theorem token_zero_skipped_witness :
    carg_parse scenario_setup null_slots ["--foo", "a", "-f"] =
      carg_parse scenario_setup null_slots ["--", "a", "-f"] ∧
    (carg_parse scenario_setup null_slots ["--key"]).parser.nerrors = 0 :=
  ⟨token_zero_skipped.1 scenario_setup null_slots ["--foo", "a", "-f"] ["--", "a", "-f"]
      (by
        intro i hi
        match i, hi with
        | i + 1, _ => rfl),
    (token_zero_skipped.2 scenario_setup null_slots ["--key"] (by decide)).2.2⟩

/-! ## A scan starts afresh -/

theorem carg_parse_cargs (parser : carg_parser_t) (slots : Slots) (argv : List String) :
    (carg_parse parser slots argv).parser.cargs = parser.cargs := by
  unfold carg_parse carg_parse_finish
  split
  · rw [report_cargs]; exact carg_parse_loop_cargs parser slots argv
  · exact carg_parse_loop_cargs parser slots argv

theorem carg_parse_error_handler (parser : carg_parser_t) (slots : Slots)
    (argv : List String) :
    (carg_parse parser slots argv).parser.error_handler = parser.error_handler := by
  unfold carg_parse carg_parse_finish
  split
  · rw [report_error_handler]; exact carg_parse_loop_error_handler parser slots argv
  · exact carg_parse_loop_error_handler parser slots argv

theorem carg_parse_fresh (cargs : List carg) (eh : Option Nat) (n1 n2 : Nat)
    (lp1 lp2 : Option Nat) (slots : Slots) (argv : List String) :
    carg_parse ⟨cargs, eh, n1, lp1⟩ slots argv = carg_parse ⟨cargs, eh, n2, lp2⟩ slots argv :=
  rfl

/-- C11. Parser state is fresh per scan. (1) The whole outcome of a scan (final slots, event
trace, final error count and cursor) is the same whatever values the fields `nerrors` and
`last_pos` of the parser object held before the call. (2) The error count after the call is
the number of error sites of this scan only. (3) A second scan with the parser object left
by a first scan gives what a scan with the original parser object gives; (4) for instance,
after a first scan `prog x y z` of the scenario table, which used up both positional
descriptors and left the cursor on the sentinel, the second scan `prog q` stores `q` in the
slot of the first positional descriptor and counts no error. -/
theorem parser_state_fresh :
    (∀ (cargs : List carg) (eh : Option Nat) (n1 n2 : Nat) (lp1 lp2 : Option Nat)
        (slots : Slots) (argv : List String),
      carg_parse ⟨cargs, eh, n1, lp1⟩ slots argv =
        carg_parse ⟨cargs, eh, n2, lp2⟩ slots argv) ∧
    (∀ (parser : carg_parser_t) (slots : Slots) (argv : List String),
      (carg_parse parser slots argv).parser.nerrors =
        ((carg_parse parser slots argv).trace.filter Event.isError).length) ∧
    (∀ (parser : carg_parser_t) (slots1 slots2 : Slots) (argv1 argv2 : List String),
      carg_parse (carg_parse parser slots1 argv1).parser slots2 argv2 =
        carg_parse parser slots2 argv2) ∧
    ((carg_parse scenario_setup null_slots ["prog", "x", "y", "z"]).parser.last_pos = some 4 ∧
      (carg_parse scenario_setup null_slots ["prog", "x", "y", "z"]).parser.nerrors = 1 ∧
      (carg_parse (carg_parse scenario_setup null_slots ["prog", "x", "y", "z"]).parser
        null_slots ["prog", "q"]).slots 2 = some "q" ∧
      (carg_parse (carg_parse scenario_setup null_slots ["prog", "x", "y", "z"]).parser
        null_slots ["prog", "q"]).parser.nerrors = 0) := by
  have h3 : ∀ (parser : carg_parser_t) (slots1 slots2 : Slots) (argv1 argv2 : List String),
      carg_parse (carg_parse parser slots1 argv1).parser slots2 argv2 =
        carg_parse parser slots2 argv2 := by
    intro parser slots1 slots2 argv1 argv2
    have hc := carg_parse_cargs parser slots1 argv1
    have he := carg_parse_error_handler parser slots1 argv1
    have key : ∀ p q : carg_parser_t, p.cargs = q.cargs → p.error_handler = q.error_handler →
        carg_parse p slots2 argv2 = carg_parse q slots2 argv2 := by
      intro p q h1 h2
      obtain ⟨c1, e1, n1, l1⟩ := p
      obtain ⟨c2, e2, n2, l2⟩ := q
      simp only at h1 h2
      subst h1; subst h2
      rfl
    exact key _ _ hc he
  refine ⟨fun cargs eh n1 n2 lp1 lp2 slots argv => rfl,
    fun parser slots argv => (carg_parse_error_sites parser slots argv).1, h3, ?_, ?_, ?_, ?_⟩
  · simp [carg_parse, carg_parse_loop, carg_parse_init, carg_parse_step, carg_parse_dispatch,
      carg_parse_match, scenario_setup, scenario_cargs, carg.mk0, carg_parse_perform,
      carg_parse_unmatched, carg_parse_pos, carg_parse_pos_loop, carg_parse_pos_start,
      carg_parse_finish, Machine.set_last_pos, Machine.report]
  · simp [carg_parse, carg_parse_loop, carg_parse_init, carg_parse_step, carg_parse_dispatch,
      carg_parse_match, scenario_setup, scenario_cargs, carg.mk0, carg_parse_perform,
      carg_parse_unmatched, carg_parse_pos, carg_parse_pos_loop, carg_parse_pos_start,
      carg_parse_finish, Machine.set_last_pos, Machine.report]
  · rw [h3]
    simp [carg_parse, carg_parse_loop, carg_parse_init, carg_parse_step, carg_parse_dispatch,
      carg_parse_match, scenario_setup, scenario_cargs, carg.mk0, carg_parse_perform,
      carg_parse_unmatched, carg_parse_pos, carg_parse_pos_loop, carg_parse_pos_start,
      carg_parse_finish, write_slots]
  · rw [h3]
    simp [carg_parse, carg_parse_loop, carg_parse_init, carg_parse_step, carg_parse_dispatch,
      carg_parse_match, scenario_setup, scenario_cargs, carg.mk0, carg_parse_perform,
      carg_parse_unmatched, carg_parse_pos, carg_parse_pos_loop, carg_parse_pos_start,
      carg_parse_finish, Machine.set_last_pos, Machine.report]

/-! ## The positional scanner in any table -/

/-- The effect of `carg_parse_pos` on the `n + 1`-th positional token in any table: the
token goes to the positional descriptor at position `consumer n`, or is rejected when there
is none. -/
theorem carg_parse_pos_general (m : Machine) (t : String) (n : Nat)
    (hcur : m.parser.last_pos = cursorG m.parser.cargs n) :
    carg_parse_pos m t =
      match (positionals m.parser.cargs)[consumer (positionals m.parser.cargs) n]? with
      | some p => ((m.set_last_pos p.1).write p.2.value (some t)).invoke p.2.handler p.1
      | none =>
        (m.report CARG_ERROR_UNEXPECTED_ARGUMENT (some t) none).set_last_pos
          (entries m.parser.cargs).length := by
  unfold carg_parse_pos
  rw [hcur]
  cases n with
  | zero =>
    simp only [cursorG, consumer, carg_parse_pos_start, List.drop_zero]
    rw [carg_parse_pos_loop_fresh none m.parser.cargs 0 (by simp)]
    simp only [positionals, List.head?_eq_getElem?]
    cases (positionalsFrom 0 m.parser.cargs)[0]? <;> simp
  | succ n2 =>
    cases hps : (positionals m.parser.cargs)[consumer (positionals m.parser.cargs) n2]? with
    | some p =>
      obtain ⟨q, P⟩ := p
      simp only [cursorG, consumer, hps, carg_parse_pos_start]
      obtain ⟨rest, h1, _, h3, h4, h5⟩ :=
        positionalsFrom_getElem m.parser.cargs 0 _ q P hps
      rw [Nat.sub_zero] at h1
      rw [h1]
      unfold carg_parse_pos_loop
      have hend : P.type ≠ CARG_END := by rw [h3]; decide
      rw [if_neg hend, if_neg (not_not.mpr h3)]
      by_cases hval : P.value = none
      · have hskip : ¬ (some q = some q ∧ P.value ≠ none) := fun h => h.2 hval
        rw [if_neg hskip]
        simp [hval, hps]
      · rw [if_pos ⟨rfl, hval⟩,
          carg_parse_pos_loop_fresh (some q) rest (q + 1) (by simp), h4, h5]
        simp only [hval, if_false, positionals, List.head?_drop, Nat.zero_add]
        cases (positionalsFrom 0 m.parser.cargs)[consumer (positionalsFrom 0 m.parser.cargs) n2
          + 1]? <;> simp
    | none =>
      simp only [cursorG, consumer, hps, carg_parse_pos_start]
      rcases drop_entries_length m.parser.cargs with h | ⟨ca, rest, h, hend⟩
      · rw [h]; simp [carg_parse_pos_loop]
      · rw [h]; simp [carg_parse_pos_loop, hend]

theorem carg_parse_pos_cursorG (m : Machine) (t : String) (n : Nat)
    (hcur : m.parser.last_pos = cursorG m.parser.cargs n) :
    (carg_parse_pos m t).parser.last_pos = cursorG m.parser.cargs (n + 1) := by
  rw [carg_parse_pos_general m t n hcur]
  cases hps : (positionals m.parser.cargs)[consumer (positionals m.parser.cargs) n]? <;>
    simp [cursorG, hps]

theorem posInvG_init (parser : carg_parser_t) (slots : Slots) :
    PosInvG parser (carg_parse_init parser slots, []) := by
  refine ⟨rfl, rfl, ?_, rfl⟩
  intro k K hk
  simp [carg_parse_init] at hk

theorem posInvG_step (parser : carg_parser_t) (acc : Loop × List String) (t : String)
    (h : PosInvG parser acc) : PosInvG parser (routed_step acc t) := by
  obtain ⟨hc, he, hk, hl⟩ := h
  have hok : ActionOK parser.cargs
      (carg_parse_dispatch acc.1.state acc.1.key acc.1.m.parser.cargs t) := by
    rw [hc]; exact carg_parse_dispatch_ok _ _ _ _ hk
  have hl2 : acc.1.m.parser.last_pos = cursorG acc.1.m.parser.cargs acc.2.length := by
    rw [hc]; exact hl
  refine ⟨?_, ?_, ?_, ?_⟩
  · rw [routed_step_fst, carg_parse_step_cargs]; exact hc
  · rw [routed_step_fst, carg_parse_step_error_handler]; exact he
  · rw [routed_step_fst]
    exact carg_parse_perform_key_ok parser.cargs { acc.1 with arg := some t } t _ hk hok
  · by_cases ha : carg_parse_dispatch acc.1.state acc.1.key acc.1.m.parser.cargs t = Action.pos
    · rw [routed_step_fst, routed_step_snd_pos acc t ha, carg_parse_step_pos acc.1 t ha,
        carg_parse_pos_cursorG acc.1.m t acc.2.length hl2, hc]
      simp
    · rw [routed_step_fst, routed_step_snd_other acc t ha]
      unfold carg_parse_step
      rw [carg_parse_perform_last_pos _ t _ ha]
      exact hl

theorem posInvG_foldl (parser : carg_parser_t) (ts : List String) (acc : Loop × List String)
    (h : PosInvG parser acc) : PosInvG parser (ts.foldl routed_step acc) := by
  induction ts generalizing acc with
  | nil => exact h
  | cons t rest ih => exact ih _ (posInvG_step parser acc t h)

theorem posInvG_loop (parser : carg_parser_t) (slots : Slots) (argv : List String) :
    (carg_parse_loop parser slots argv).m.parser.last_pos =
      cursorG parser.cargs (routed parser slots argv).length := by
  have h := (posInvG_foldl parser (argv.drop 1) _ (posInvG_init parser slots)).2.2.2
  rw [routed_loop_fst] at h
  exact h

theorem consumer_succ (ps : List (Nat × carg)) (n : Nat) :
    consumer ps (n + 1) =
      match ps[consumer ps n]? with
      | some p => if p.2.value = none then consumer ps n else consumer ps n + 1
      | none => consumer ps n := rfl

theorem consumer_mono_succ (ps : List (Nat × carg)) (n : Nat) :
    consumer ps n ≤ consumer ps (n + 1) := by
  rw [consumer_succ]
  split
  · split
    · exact Nat.le_refl _
    · exact Nat.le_succ _
  · exact Nat.le_refl _

theorem consumer_mono (ps : List (Nat × carg)) {n1 n2 : Nat} (h : n1 ≤ n2) :
    consumer ps n1 ≤ consumer ps n2 := by
  induction n2 with
  | zero =>
    have : n1 = 0 := by omega
    rw [this]
  | succ k ih =>
    by_cases hk : n1 = k + 1
    · rw [hk]
    · exact Nat.le_trans (ih (by omega)) (consumer_mono_succ ps k)

theorem consumer_le_slotless (ps : List (Nat × carg)) (j : Nat) (p : Nat × carg)
    (hj : ps[j]? = some p) (hval : p.2.value = none) (n : Nat) : consumer ps n ≤ j := by
  induction n with
  | zero => exact Nat.zero_le _
  | succ k ih =>
    rw [consumer_succ]
    split
    · rename_i p2 hp2
      split
      · exact ih
      · rename_i hne
        have hnej : consumer ps k ≠ j := by
          intro heq
          rw [heq, hj] at hp2
          cases hp2
          exact hne hval
        exact Nat.succ_le_of_lt (Nat.lt_of_le_of_ne ih hnej)
    · exact ih

theorem consumer_stay (ps : List (Nat × carg)) {n1 n2 : Nat} (h : n1 < n2)
    (heq : consumer ps n1 = consumer ps n2) (p : Nat × carg)
    (hp : ps[consumer ps n1]? = some p) : p.2.value = none := by
  have h1 := consumer_mono_succ ps n1
  have h2 : consumer ps (n1 + 1) ≤ consumer ps n2 := consumer_mono ps (by omega)
  have h3 : consumer ps (n1 + 1) = consumer ps n1 := by
    rw [← heq] at h2
    exact Nat.le_antisymm h2 h1
  rw [consumer_succ, hp] at h3
  by_contra hne
  simp only [hne, if_false] at h3
  exact Nat.succ_ne_self _ h3

theorem no_unexpected_foldl (parser : carg_parser_t) (j : Nat) (p : Nat × carg)
    (hD : (positionals parser.cargs)[j]? = some p) (hval : p.2.value = none)
    (ts : List String) (acc : Loop × List String) (h : PosInvG parser acc)
    (ht : acc.1.m.trace.filter (Event.isErrorOf CARG_ERROR_UNEXPECTED_ARGUMENT) = []) :
    ((ts.foldl routed_step acc).1.m.trace.filter
      (Event.isErrorOf CARG_ERROR_UNEXPECTED_ARGUMENT)) = [] := by
  induction ts generalizing acc with
  | nil => exact ht
  | cons t rest ih =>
    apply ih _ (posInvG_step parser acc t h)
    obtain ⟨hc, _, _, hl⟩ := h
    have hl2 : acc.1.m.parser.last_pos = cursorG acc.1.m.parser.cargs acc.2.length := by
      rw [hc]; exact hl
    by_cases ha : carg_parse_dispatch acc.1.state acc.1.key acc.1.m.parser.cargs t = Action.pos
    · rw [routed_step_fst, carg_parse_step_pos acc.1 t ha,
        carg_parse_pos_general acc.1.m t acc.2.length hl2, hc]
      have hle := consumer_le_slotless (positionals parser.cargs) j p hD hval acc.2.length
      have hjlt : j < (positionals parser.cargs).length := by
        by_contra hge
        rw [List.getElem?_eq_none (by omega)] at hD
        cases hD
      rw [List.getElem?_eq_getElem (by omega)]
      simp only [invoke_trace, write_trace, set_last_pos_trace, List.filter_append,
        filter_writeEvents, filter_callEvents, List.append_nil, ht]
    · rw [routed_step_fst]
      unfold carg_parse_step
      rw [carg_parse_perform_unexpected _ t _ ha]
      exact ht

/-- C12. Slot-less positional catches all. Let `D`, at position `j` among the declared
positional descriptors, have no value slot. (1) Every token routed to the positional scanner
goes to a positional descriptor at a position not after `j` (so descriptors declared after
`D` never receive a token), and a token that does not go to one declared before `D` goes to
`D`: the cursor is set to `D`, the handler of `D` is called (when it has one), no slot
changes and no error is counted. (2) Hence when `D` is the first positional descriptor every
positional token is handled that way. (3) No `UnexpectedArgument` error site occurs in any
scan with such a table. -/
theorem slotless_positional_catches_all (parser : carg_parser_t) (slots : Slots) (j : Nat)
    (p : Nat × carg)
    (hD : (positionals parser.cargs)[j]? = some p) (hval : p.2.value = none) :
    (∀ (pre : List String) (t : String), pre ≠ [] →
      carg_parse_dispatch (carg_parse_loop parser slots pre).state
        (carg_parse_loop parser slots pre).key parser.cargs t = Action.pos →
      consumer (positionals parser.cargs) (routed parser slots pre).length ≤ j ∧
      ∃ q, (positionals parser.cargs)[consumer (positionals parser.cargs)
          (routed parser slots pre).length]? = some q ∧
        (carg_parse_loop parser slots (pre ++ [t])).m =
          (((carg_parse_loop parser slots pre).m.set_last_pos q.1).write q.2.value
            (some t)).invoke q.2.handler q.1 ∧
        (consumer (positionals parser.cargs) (routed parser slots pre).length = j →
          q = p ∧
          (carg_parse_loop parser slots (pre ++ [t])).m.trace =
            (carg_parse_loop parser slots pre).m.trace ++ callEvents p.2.handler p.1 ∧
          (carg_parse_loop parser slots (pre ++ [t])).m.slots =
            (carg_parse_loop parser slots pre).m.slots ∧
          (carg_parse_loop parser slots (pre ++ [t])).m.parser.nerrors =
            (carg_parse_loop parser slots pre).m.parser.nerrors)) ∧
    (j = 0 → ∀ (pre : List String) (t : String), pre ≠ [] →
      carg_parse_dispatch (carg_parse_loop parser slots pre).state
        (carg_parse_loop parser slots pre).key parser.cargs t = Action.pos →
      (carg_parse_loop parser slots (pre ++ [t])).m =
        ((carg_parse_loop parser slots pre).m.set_last_pos p.1).invoke p.2.handler p.1) ∧
    (∀ argv : List String,
      (carg_parse parser slots argv).trace.filter
        (Event.isErrorOf CARG_ERROR_UNEXPECTED_ARGUMENT) = []) := by
  have hjlt : j < (positionals parser.cargs).length := by
    by_contra hge
    rw [List.getElem?_eq_none (by omega)] at hD
    cases hD
  have hstep : ∀ (pre : List String) (t : String), pre ≠ [] →
      carg_parse_dispatch (carg_parse_loop parser slots pre).state
        (carg_parse_loop parser slots pre).key parser.cargs t = Action.pos →
      consumer (positionals parser.cargs) (routed parser slots pre).length ≤ j ∧
      ∃ q, (positionals parser.cargs)[consumer (positionals parser.cargs)
          (routed parser slots pre).length]? = some q ∧
        (carg_parse_loop parser slots (pre ++ [t])).m =
          (((carg_parse_loop parser slots pre).m.set_last_pos q.1).write q.2.value
            (some t)).invoke q.2.handler q.1 := by
    intro pre t hpre ha
    have hc := carg_parse_loop_cargs parser slots pre
    have hl := posInvG_loop parser slots pre
    have hle := consumer_le_slotless (positionals parser.cargs) j p hD hval
      (routed parser slots pre).length
    have hl2 : (carg_parse_loop parser slots pre).m.parser.last_pos =
        cursorG (carg_parse_loop parser slots pre).m.parser.cargs
          (routed parser slots pre).length := by
      rw [hc]; exact hl
    have ha2 : carg_parse_dispatch (carg_parse_loop parser slots pre).state
        (carg_parse_loop parser slots pre).key
        (carg_parse_loop parser slots pre).m.parser.cargs t = Action.pos := by
      rw [hc]; exact ha
    cases hq : (positionals parser.cargs)[consumer (positionals parser.cargs)
        (routed parser slots pre).length]? with
    | none =>
      rw [List.getElem?_eq_none_iff] at hq
      omega
    | some q =>
      refine ⟨hle, q, rfl, ?_⟩
      rw [carg_parse_loop_snoc parser slots pre t hpre, carg_parse_step_pos _ t ha2,
        carg_parse_pos_general _ t _ hl2, hc, hq]
  refine ⟨?_, ?_, ?_⟩
  · intro pre t hpre ha
    obtain ⟨hle, q, hq, hm⟩ := hstep pre t hpre ha
    refine ⟨hle, q, hq, hm, ?_⟩
    intro hcj
    rw [hcj, hD] at hq
    cases hq
    rw [hm, hval]
    simp
  · intro hj0 pre t hpre ha
    obtain ⟨hle, q, hq, hm⟩ := hstep pre t hpre ha
    have hcj : consumer (positionals parser.cargs) (routed parser slots pre).length = j := by
      omega
    rw [hcj, hD] at hq
    cases hq
    rw [hm, hval]
    rfl
  · intro argv
    unfold carg_parse
    rw [carg_parse_finish_unexpected, ← routed_loop_fst]
    exact no_unexpected_foldl parser j p hD hval _ _ (posInvG_init parser slots) rfl

theorem slotless_positional_catches_all_witness :
    (carg_parse_loop catchall_setup null_slots (["prog", "x"] ++ ["y"])).m =
      ((carg_parse_loop catchall_setup null_slots ["prog", "x"]).m.set_last_pos 1).invoke
        (some 7) 1 ∧
    (carg_parse catchall_setup null_slots ["prog", "x", "y", "z"]).trace.filter
      (Event.isErrorOf CARG_ERROR_UNEXPECTED_ARGUMENT) = [] :=
  ⟨(slotless_positional_catches_all catchall_setup null_slots 0
      (1, carg.mk0 CARG_POS none none (Char.ofNat 0) none (some 7) none) (by decide) rfl).2.1
      rfl ["prog", "x"] "y" (by decide)
      (by simp [carg_parse_loop, carg_parse_init, carg_parse_step, carg_parse_dispatch,
        carg_parse_match, catchall_setup, catchall_cargs, carg.mk0, carg_parse_perform,
        carg_parse_unmatched, carg_parse_pos, carg_parse_pos_loop, carg_parse_pos_start]),
    (slotless_positional_catches_all catchall_setup null_slots 0
      (1, carg.mk0 CARG_POS none none (Char.ofNat 0) none (some 7) none) (by decide) rfl).2.2
      ["prog", "x", "y", "z"]⟩

/-! ## Names and negations: the first matching descriptor decides -/

theorem carg_parse_unmatched_cases (t : String) :
    carg_parse_unmatched t = Action.positional_only ∨
    carg_parse_unmatched t = Action.invalid_argument ∨
    carg_parse_unmatched t = Action.flags ∨
    carg_parse_unmatched t = Action.pos := by
  unfold carg_parse_unmatched
  split
  · split
    · split
      · split
        · exact Or.inl rfl
        · exact Or.inr (Or.inl rfl)
      · exact Or.inr (Or.inr (Or.inl rfl))
    · exact Or.inr (Or.inr (Or.inr rfl))
  · exact Or.inr (Or.inr (Or.inr rfl))

/-- In the default state the branch taken is fully described by the first matching
descriptor: name match (set or await), negation match (clear), or one of the four branches
for unmatched tokens. -/
theorem carg_parse_dispatch_default (key : Option (Nat × carg)) (cargs : List carg)
    (t : String) :
    (NoMatch cargs t ∧ carg_parse_dispatch 0 key cargs t = carg_parse_unmatched t) ∨
    (∃ i D, FirstMatch cargs t i D ∧ NameMatch D t ∧ D.type = CARG_UNARY ∧
      carg_parse_dispatch 0 key cargs t = Action.set i D) ∨
    (∃ i D, FirstMatch cargs t i D ∧ NameMatch D t ∧ D.type = CARG_KEYWORD ∧
      carg_parse_dispatch 0 key cargs t = Action.await i D) ∨
    (∃ i D, FirstMatch cargs t i D ∧ ¬ NameMatch D t ∧ NegMatch D t ∧
      carg_parse_dispatch 0 key cargs t = Action.clear i D) := by
  rcases match_cases cargs t with hno | ⟨i, D, hfirst⟩
  · exact Or.inl ⟨hno, carg_parse_dispatch_nomatch key cargs t hno⟩
  · right
    have hd := carg_parse_dispatch_first key cargs t i D hfirst
    by_cases hname : D.name = some t
    · rw [if_pos hname] at hd
      have hty : D.type = CARG_UNARY ∨ D.type = CARG_KEYWORD := by
        rcases hfirst.2.1 with h | h
        · exact h.1
        · exact Or.inl h.1
      by_cases hun : D.type = CARG_UNARY
      · rw [if_pos hun] at hd
        exact Or.inl ⟨i, D, hfirst, ⟨hty, hname⟩, hun, hd⟩
      · rw [if_neg hun] at hd
        have hkw : D.type = CARG_KEYWORD := by
          rcases hty with h | h
          · exact absurd h hun
          · exact h
        exact Or.inr (Or.inl ⟨i, D, hfirst, ⟨hty, hname⟩, hkw, hd⟩)
    · rw [if_neg hname] at hd
      have hneg : NegMatch D t := by
        rcases hfirst.2.1 with h | h
        · exact absurd h.2 hname
        · exact h
      exact Or.inr (Or.inr ⟨i, D, hfirst, fun h => hname h.2, hneg, hd⟩)

/-- C13, the claim as stated fails: the negation of an earlier descriptor wins over the name
of a later one. In the table [unary `--a` with negation `--b` and slot 0, unary `--b` with
slot 1, end] the token `--b` is the name of the second descriptor, yet in `prog --b` the
branch taken clears the first descriptor: its slot 0 goes from `old` to absent, and slot 1
of `--b` is not set. -/
theorem negation_before_name_counterexample :
    NameMatch (carg.mk0 CARG_UNARY (some 1) (some "--b") 'b' none none none) "--b" ∧
    (entries negfirst_cargs)[1]? =
      some (carg.mk0 CARG_UNARY (some 1) (some "--b") 'b' none none none) ∧
    carg_parse_dispatch (carg_parse_loop negfirst_setup (fun _ => some "old") ["prog"]).state
      (carg_parse_loop negfirst_setup (fun _ => some "old") ["prog"]).key
      negfirst_setup.cargs "--b" =
        Action.clear 0 (carg.mk0 CARG_UNARY (some 0) (some "--a") 'a' (some "--b") none none) ∧
    (carg_parse negfirst_setup (fun _ => some "old") ["prog", "--b"]).slots 0 = none ∧
    (carg_parse negfirst_setup (fun _ => some "old") ["prog", "--b"]).slots 1 = some "old" := by
  refine ⟨by decide, by decide, ?_, ?_, ?_⟩
  · simp [carg_parse_loop, carg_parse_init, carg_parse_dispatch, carg_parse_match,
      negfirst_setup, negfirst_cargs, carg.mk0]
  · simp [carg_parse, carg_parse_loop, carg_parse_init, carg_parse_step, carg_parse_dispatch,
      carg_parse_match, negfirst_setup, negfirst_cargs, carg.mk0, carg_parse_perform,
      carg_parse_finish, write_slots]
  · simp [carg_parse, carg_parse_loop, carg_parse_init, carg_parse_step, carg_parse_dispatch,
      carg_parse_match, negfirst_setup, negfirst_cargs, carg.mk0, carg_parse_perform,
      carg_parse_finish, write_slots]

/-- C13, amended. For a token `t` read in the default state the first descriptor, in
declared order, that `t` matches by name or by negation decides, the name being tested
before the negation within one descriptor. (1) `t` is treated as a negation (clear branch on
`D`) exactly when the first descriptor that `t` matches is `D` and `t` is not the name of
`D`; then no descriptor declared before `D` has `t` as name, but one declared after `D`
may. (2) `t` is treated as a name (set branch on a unary `D`, await branch on a keyword `D`)
exactly when the first descriptor that `t` matches is `D` and `t` is its name; then no unary
descriptor declared before `D` has `t` as negation. -/
theorem first_match_decides (parser : carg_parser_t) (slots : Slots) (pre : List String)
    (t : String) (i : Nat) (D : carg)
    (hstate : (carg_parse_loop parser slots pre).state = 0) :
    (carg_parse_dispatch (carg_parse_loop parser slots pre).state
        (carg_parse_loop parser slots pre).key parser.cargs t = Action.clear i D ↔
      FirstMatch parser.cargs t i D ∧ ¬ NameMatch D t) ∧
    (carg_parse_dispatch (carg_parse_loop parser slots pre).state
        (carg_parse_loop parser slots pre).key parser.cargs t = Action.set i D ↔
      FirstMatch parser.cargs t i D ∧ NameMatch D t ∧ D.type = CARG_UNARY) ∧
    (carg_parse_dispatch (carg_parse_loop parser slots pre).state
        (carg_parse_loop parser slots pre).key parser.cargs t = Action.await i D ↔
      FirstMatch parser.cargs t i D ∧ NameMatch D t ∧ D.type = CARG_KEYWORD) := by
  rw [hstate]
  have hun := carg_parse_unmatched_cases t
  have hcases := carg_parse_dispatch_default (carg_parse_loop parser slots pre).key
    parser.cargs t
  have hfd : ∀ (i2 : Nat) (D2 : carg), FirstMatch parser.cargs t i2 D2 →
      carg_parse_dispatch 0 (carg_parse_loop parser slots pre).key parser.cargs t =
        if D2.name = some t then
          (if D2.type = CARG_UNARY then Action.set i2 D2 else Action.await i2 D2)
        else Action.clear i2 D2 :=
    fun i2 D2 h => carg_parse_dispatch_first _ parser.cargs t i2 D2 h
  refine ⟨⟨?_, ?_⟩, ⟨?_, ?_⟩, ⟨?_, ?_⟩⟩
  · intro h
    rcases hcases with ⟨_, h2⟩ | ⟨i2, D2, _, _, _, h2⟩ | ⟨i2, D2, _, _, _, h2⟩ |
      ⟨i2, D2, hf, hn, _, h2⟩
    · rw [h] at h2
      rcases hun with h3 | h3 | h3 | h3 <;> rw [h3] at h2 <;> cases h2
    · rw [h] at h2; cases h2
    · rw [h] at h2; cases h2
    · rw [h] at h2
      cases h2
      exact ⟨hf, hn⟩
  · rintro ⟨hf, hn⟩
    rw [hfd i D hf, if_neg]
    intro hname
    rcases hf.2.1 with h | h
    · exact hn h
    · exact hn ⟨Or.inl h.1, hname⟩
  · intro h
    rcases hcases with ⟨_, h2⟩ | ⟨i2, D2, hf, hn, hty, h2⟩ | ⟨i2, D2, _, _, _, h2⟩ |
      ⟨i2, D2, _, _, _, h2⟩
    · rw [h] at h2
      rcases hun with h3 | h3 | h3 | h3 <;> rw [h3] at h2 <;> cases h2
    · rw [h] at h2
      cases h2
      exact ⟨hf, hn, hty⟩
    · rw [h] at h2; cases h2
    · rw [h] at h2; cases h2
  · rintro ⟨hf, hn, hty⟩
    rw [hfd i D hf, if_pos hn.2, if_pos hty]
  · intro h
    rcases hcases with ⟨_, h2⟩ | ⟨i2, D2, _, _, _, h2⟩ | ⟨i2, D2, hf, hn, hty, h2⟩ |
      ⟨i2, D2, _, _, _, h2⟩
    · rw [h] at h2
      rcases hun with h3 | h3 | h3 | h3 <;> rw [h3] at h2 <;> cases h2
    · rw [h] at h2; cases h2
    · rw [h] at h2
      cases h2
      exact ⟨hf, hn, hty⟩
    · rw [h] at h2; cases h2
  · rintro ⟨hf, hn, hty⟩
    rw [hfd i D hf, if_pos hn.2, if_neg]
    rw [hty]
    decide

theorem first_match_decides_witness :
    (carg_parse_dispatch (carg_parse_loop negfirst_setup null_slots ["prog"]).state
        (carg_parse_loop negfirst_setup null_slots ["prog"]).key negfirst_setup.cargs "--b" =
          Action.clear 0
            (carg.mk0 CARG_UNARY (some 0) (some "--a") 'a' (some "--b") none none) ↔
      FirstMatch negfirst_setup.cargs "--b" 0
          (carg.mk0 CARG_UNARY (some 0) (some "--a") 'a' (some "--b") none none) ∧
        ¬ NameMatch (carg.mk0 CARG_UNARY (some 0) (some "--a") 'a' (some "--b") none none)
          "--b") :=
  (first_match_decides negfirst_setup null_slots ["prog"] "--b" 0
    (carg.mk0 CARG_UNARY (some 0) (some "--a") 'a' (some "--b") none none) rfl).1

/-! ## How many tokens a positional descriptor takes -/

theorem carg_parse_pos_of_search (m : Machine) (t : String) :
    carg_parse_pos m t =
      match carg_parse_pos_search m with
      | Scan.found i ca => ((m.set_last_pos i).write ca.value (some t)).invoke ca.handler i
      | Scan.sentinel i =>
        (m.report CARG_ERROR_UNEXPECTED_ARGUMENT (some t) none).set_last_pos i := rfl

/-- The search of the positional scanner for the `n + 1`-th positional token, in any table. -/
theorem carg_parse_pos_search_general (m : Machine) (n : Nat)
    (hcur : m.parser.last_pos = cursorG m.parser.cargs n) :
    carg_parse_pos_search m =
      match (positionals m.parser.cargs)[consumer (positionals m.parser.cargs) n]? with
      | some p => Scan.found p.1 p.2
      | none => Scan.sentinel (entries m.parser.cargs).length := by
  unfold carg_parse_pos_search
  rw [hcur]
  cases n with
  | zero =>
    simp only [cursorG, consumer, carg_parse_pos_start, List.drop_zero]
    rw [carg_parse_pos_loop_fresh none m.parser.cargs 0 (by simp)]
    simp only [positionals, List.head?_eq_getElem?]
    cases (positionalsFrom 0 m.parser.cargs)[0]? <;> simp
  | succ n2 =>
    cases hps : (positionals m.parser.cargs)[consumer (positionals m.parser.cargs) n2]? with
    | some p =>
      obtain ⟨q, P⟩ := p
      simp only [cursorG, consumer, hps, carg_parse_pos_start]
      obtain ⟨rest, h1, _, h3, h4, h5⟩ :=
        positionalsFrom_getElem m.parser.cargs 0 _ q P hps
      rw [Nat.sub_zero] at h1
      rw [h1]
      unfold carg_parse_pos_loop
      have hend : P.type ≠ CARG_END := by rw [h3]; decide
      rw [if_neg hend, if_neg (not_not.mpr h3)]
      by_cases hval : P.value = none
      · have hskip : ¬ (some q = some q ∧ P.value ≠ none) := fun h => h.2 hval
        rw [if_neg hskip]
        simp [hval, hps]
      · rw [if_pos ⟨rfl, hval⟩,
          carg_parse_pos_loop_fresh (some q) rest (q + 1) (by simp), h4, h5]
        simp only [hval, if_false, positionals, List.head?_drop, Nat.zero_add]
    | none =>
      simp only [cursorG, consumer, hps, carg_parse_pos_start]
      rcases drop_entries_length m.parser.cargs with h | ⟨ca, rest, h, hend⟩
      · rw [h]; simp [carg_parse_pos_loop]
      · rw [h]; simp [carg_parse_pos_loop, hend]

theorem positionalsFrom_fst_ge (i : Nat) (l : List carg) :
    ∀ p ∈ positionalsFrom i l, i ≤ p.1 := by
  induction l generalizing i with
  | nil => simp [positionalsFrom_nil]
  | cons ca tl ih =>
    by_cases hend : ca.type = CARG_END
    · simp [positionalsFrom_cons_end i ca tl hend]
    · by_cases hpos : ca.type = CARG_POS
      · rw [positionalsFrom_cons_pos i ca tl hpos]
        intro p hp
        rcases List.mem_cons.mp hp with rfl | h
        · exact Nat.le_refl _
        · exact Nat.le_of_succ_le (ih (i + 1) p h)
      · rw [positionalsFrom_cons_other i ca tl hend hpos]
        intro p hp
        exact Nat.le_of_succ_le (ih (i + 1) p hp)

theorem positionalsFrom_pairwise (i : Nat) (l : List carg) :
    (positionalsFrom i l).Pairwise (fun p q => p.1 < q.1) := by
  induction l generalizing i with
  | nil => simp [positionalsFrom_nil]
  | cons ca tl ih =>
    by_cases hend : ca.type = CARG_END
    · simp [positionalsFrom_cons_end i ca tl hend]
    · by_cases hpos : ca.type = CARG_POS
      · rw [positionalsFrom_cons_pos i ca tl hpos, List.pairwise_cons]
        exact ⟨fun q hq => positionalsFrom_fst_ge (i + 1) tl q hq, ih (i + 1)⟩
      · rw [positionalsFrom_cons_other i ca tl hend hpos]
        exact ih (i + 1)

theorem positionals_index_inj (cargs : List carg) (c1 c2 : Nat) (p1 p2 : Nat × carg)
    (h1 : (positionals cargs)[c1]? = some p1) (h2 : (positionals cargs)[c2]? = some p2)
    (heq : p1.1 = p2.1) : c1 = c2 := by
  have hpw := positionalsFrom_pairwise 0 cargs
  rw [List.pairwise_iff_getElem] at hpw
  have hl1 : c1 < (positionalsFrom 0 cargs).length := by
    by_contra hge
    rw [positionals, List.getElem?_eq_none (by omega)] at h1
    cases h1
  have hl2 : c2 < (positionalsFrom 0 cargs).length := by
    by_contra hge
    rw [positionals, List.getElem?_eq_none (by omega)] at h2
    cases h2
  rw [positionals, List.getElem?_eq_getElem hl1] at h1
  rw [positionals, List.getElem?_eq_getElem hl2] at h2
  simp only [Option.some.injEq] at h1 h2
  rcases Nat.lt_trichotomy c1 c2 with h | h | h
  · have := hpw c1 c2 hl1 hl2 h
    rw [h1, h2] at this
    omega
  · exact h
  · have := hpw c2 c1 hl2 hl1 h
    rw [h1, h2] at this
    omega

theorem consumer_of_slots (ps : List (Nat × carg)) (hslots : ∀ p ∈ ps, p.2.value ≠ none)
    (n : Nat) : consumer ps n = min n ps.length := by
  induction n with
  | zero => simp [consumer]
  | succ k ih =>
    rw [consumer_succ, ih]
    by_cases hk : k < ps.length
    · have hmin : min k ps.length = k := Nat.min_eq_left (Nat.le_of_lt hk)
      rw [hmin, List.getElem?_eq_getElem hk]
      have hv := hslots _ (List.getElem_mem hk)
      simp only [hv, if_false]
      exact (Nat.min_eq_left hk).symm
    · have hmin : min k ps.length = ps.length := Nat.min_eq_right (by omega)
      rw [hmin, List.getElem?_eq_none (Nat.le_refl _)]
      show ps.length = min (k + 1) ps.length
      exact (Nat.min_eq_right (by omega)).symm

theorem find_not_consumed_aux (pre ps : List (Nat × carg))
    (hpw : (pre ++ ps).Pairwise (fun p q => p.1 < q.1)) (n : Nat) :
    ps.find? (fun p => decide (p.1 ∉ (pre ++ ps.take n).map Prod.fst)) = ps[n]? := by
  induction ps generalizing pre n with
  | nil => simp
  | cons a tl ih =>
    cases n with
    | zero =>
      have hnot : a.1 ∉ (pre ++ List.take 0 (a :: tl)).map Prod.fst := by
        simp only [List.take_zero, List.append_nil, List.mem_map, not_exists, not_and]
        intro x hx heq
        rw [List.pairwise_append] at hpw
        have := hpw.2.2 x hx a (List.mem_cons_self _ _)
        omega
      rw [List.find?_cons]
      simp only [hnot, not_false_eq_true, decide_True, List.getElem?_cons_zero]
    | succ k =>
      have hin : a.1 ∈ (pre ++ List.take (k + 1) (a :: tl)).map Prod.fst := by
        simp [List.take_succ_cons]
      rw [List.find?_cons]
      simp only [hin, not_true_eq_false, decide_False, List.getElem?_cons_succ]
      have happ : pre ++ List.take (k + 1) (a :: tl) = (pre ++ [a]) ++ List.take k tl := by
        simp [List.take_succ_cons]
      rw [happ]
      exact ih (pre ++ [a]) (by simpa using hpw) k

theorem find_not_consumed (ps : List (Nat × carg))
    (hpw : ps.Pairwise (fun p q => p.1 < q.1)) (n : Nat) :
    ps.find? (fun p => decide (p.1 ∉ (ps.take n).map Prod.fst)) = ps[n]? := by
  have := find_not_consumed_aux [] ps (by simpa using hpw) n
  simpa using this

theorem search_step_fst (acc : Loop × List Scan) (t : String) :
    (search_step acc t).1 = carg_parse_step acc.1 t := rfl

theorem foldl_search_step_fst (ts : List String) (acc : Loop × List Scan) :
    (ts.foldl search_step acc).1 = ts.foldl carg_parse_step acc.1 := by
  induction ts generalizing acc with
  | nil => rfl
  | cons t rest ih => rw [List.foldl_cons, List.foldl_cons, ih, search_step_fst]

theorem searches_loop_fst (parser : carg_parser_t) (slots : Slots) (argv : List String) :
    ((argv.drop 1).foldl search_step (carg_parse_init parser slots, [])).1 =
      carg_parse_loop parser slots argv :=
  foldl_search_step_fst _ _

theorem searchInv_init (parser : carg_parser_t) (slots : Slots) :
    SearchInv parser (carg_parse_init parser slots, []) := by
  refine ⟨rfl, ?_, rfl, ?_⟩
  · intro k K hk
    simp [carg_parse_init] at hk
  · intro i s hs
    simp at hs

theorem searchInv_step (parser : carg_parser_t) (acc : Loop × List Scan) (t : String)
    (h : SearchInv parser acc) : SearchInv parser (search_step acc t) := by
  obtain ⟨hc, hk, hl, hs⟩ := h
  have hok : ActionOK parser.cargs
      (carg_parse_dispatch acc.1.state acc.1.key acc.1.m.parser.cargs t) := by
    rw [hc]; exact carg_parse_dispatch_ok _ _ _ _ hk
  have hl2 : acc.1.m.parser.last_pos = cursorG acc.1.m.parser.cargs acc.2.length := by
    rw [hc]; exact hl
  refine ⟨?_, ?_, ?_, ?_⟩
  · rw [search_step_fst, carg_parse_step_cargs]; exact hc
  · rw [search_step_fst]
    exact carg_parse_perform_key_ok parser.cargs { acc.1 with arg := some t } t _ hk hok
  · by_cases ha : carg_parse_dispatch acc.1.state acc.1.key acc.1.m.parser.cargs t = Action.pos
    · rw [search_step_fst, carg_parse_step_pos acc.1 t ha,
        carg_parse_pos_cursorG acc.1.m t acc.2.length hl2, hc]
      simp [search_step, ha]
    · rw [search_step_fst]
      unfold carg_parse_step
      rw [carg_parse_perform_last_pos _ t _ ha]
      simp only [search_step, ha, if_false]
      exact hl
  · intro i s hi
    by_cases ha : carg_parse_dispatch acc.1.state acc.1.key acc.1.m.parser.cargs t = Action.pos
    · simp only [search_step, ha, if_true] at hi
      by_cases hil : i = acc.2.length
      · rw [hil] at hi ⊢
        simp only [List.getElem?_concat_length, Option.some.injEq] at hi
        rw [← hi, carg_parse_pos_search_general acc.1.m acc.2.length hl2, hc]
        rfl
      · rw [getElem?_snoc_ne acc.2 _ i hil] at hi
        exact hs i s hi
    · simp only [search_step, ha, if_false] at hi
      exact hs i s hi

theorem searchInv_foldl (parser : carg_parser_t) (ts : List String) (acc : Loop × List Scan)
    (h : SearchInv parser acc) : SearchInv parser (ts.foldl search_step acc) := by
  induction ts generalizing acc with
  | nil => exact h
  | cons t rest ih => exact ih _ (searchInv_step parser acc t h)

theorem searchInv_scan (parser : carg_parser_t) (slots : Slots) (argv : List String) :
    (carg_parse_loop parser slots argv).m.parser.last_pos =
        cursorG parser.cargs (searches parser slots argv).length ∧
    ∀ i s, (searches parser slots argv)[i]? = some s → s = scanAt parser.cargs i := by
  have h := searchInv_foldl parser (argv.drop 1) _ (searchInv_init parser slots)
  obtain ⟨_, _, h3, h4⟩ := h
  rw [searches_loop_fst] at h3
  exact ⟨h3, h4⟩

theorem range_filterMap_getElem? {α β : Type} (l : List α) (f : α → β) (n : Nat) :
    (List.range n).filterMap (fun j => (l[j]?).map f) = (l.take n).map f := by
  induction n with
  | zero => simp
  | succ k ih =>
    rw [List.range_succ, List.filterMap_append, ih, List.take_succ, List.map_append]
    congr 1
    cases hk : l[k]? <;> simp [hk]

theorem scanAt_found {cargs : List carg} {i q : Nat} {P : carg}
    (h : scanAt cargs i = Scan.found q P) :
    (positionals cargs)[consumer (positionals cargs) i]? = some (q, P) := by
  unfold scanAt at h
  cases hps : (positionals cargs)[consumer (positionals cargs) i]? with
  | none => rw [hps] at h; cases h
  | some p =>
    rw [hps] at h
    simp only [Scan.found.injEq] at h
    obtain ⟨p1, p2⟩ := p
    simp only at h
    rw [h.1, h.2]

theorem scanAt_of_slots (cargs : List carg)
    (hslots : ∀ p ∈ positionals cargs, p.2.value ≠ none) (i : Nat) :
    scanAt cargs i =
      match (positionals cargs)[i]? with
      | some p => Scan.found p.1 p.2
      | none => Scan.sentinel (entries cargs).length := by
  unfold scanAt
  rw [consumer_of_slots (positionals cargs) hslots i]
  by_cases hi : i < (positionals cargs).length
  · rw [Nat.min_eq_left (Nat.le_of_lt hi)]
  · rw [Nat.min_eq_right (by omega), List.getElem?_eq_none (Nat.le_refl _),
      List.getElem?_eq_none (by omega)]

theorem searches_eq_map (parser : carg_parser_t) (slots : Slots) (argv : List String) :
    searches parser slots argv =
      (List.range (searches parser slots argv).length).map (scanAt parser.cargs) := by
  apply List.ext_getElem?
  intro i
  by_cases hi : i < (searches parser slots argv).length
  · rw [List.getElem?_map, List.getElem?_range hi, List.getElem?_eq_getElem hi]
    simp only [Option.map_some', Option.some.injEq]
    exact (searchInv_scan parser slots argv).2 i _ (List.getElem?_eq_getElem hi)
  · rw [List.getElem?_eq_none (by omega), List.getElem?_eq_none (by simp; omega)]

/-- C14, the claim as stated fails for a positional descriptor without slot: in the table
[unary `--foo`, positional without slot and with handler 7, end] the scan of `prog x y`
matches the positional descriptor (index 1) for both tokens, and calls its handler twice. -/
theorem positional_matched_twice_counterexample :
    searches catchall_setup null_slots ["prog", "x", "y"] =
      [Scan.found 1 (carg.mk0 CARG_POS none none (Char.ofNat 0) none (some 7) none),
        Scan.found 1 (carg.mk0 CARG_POS none none (Char.ofNat 0) none (some 7) none)] ∧
    (carg_parse catchall_setup null_slots ["prog", "x", "y"]).trace =
      [Event.call 7 1, Event.call 7 1] := by
  constructor
  · simp [searches, search_step, carg_parse_pos_search, carg_parse_init, carg_parse_step,
      carg_parse_dispatch, carg_parse_match, catchall_setup, catchall_cargs, carg.mk0,
      carg_parse_perform, carg_parse_unmatched, carg_parse_pos, carg_parse_pos_loop,
      carg_parse_pos_start, Machine.set_last_pos, Machine.write, Machine.invoke]
  · simp [carg_parse, carg_parse_loop, carg_parse_init, carg_parse_step,
      carg_parse_dispatch, carg_parse_match, catchall_setup, catchall_cargs, carg.mk0,
      carg_parse_perform, carg_parse_unmatched, carg_parse_pos, carg_parse_pos_loop,
      carg_parse_pos_start, carg_parse_finish, callEvents, writeEvents]

/-- C14, amended. (1) In any table, a positional descriptor that has a slot is matched by
the positional scanner for at most one token of a scan: if the searches for two different
routed tokens stop at the same descriptor, this descriptor has no slot. (2) In a table
whose positional descriptors all have slots no descriptor is matched for two tokens, and at
any point of the scan the search resumed at the cursor finds what a fresh search from the
start of the table finds for the first positional descriptor not among those matched so
far. -/
theorem positional_with_slot_takes_one (parser : carg_parser_t) (slots : Slots) :
    (∀ (argv : List String) (i1 i2 q : Nat) (P1 P2 : carg), i1 < i2 →
      (searches parser slots argv)[i1]? = some (Scan.found q P1) →
      (searches parser slots argv)[i2]? = some (Scan.found q P2) →
      P1.value = none ∧ P2 = P1) ∧
    ((∀ p ∈ positionals parser.cargs, p.2.value ≠ none) →
      ∀ argv : List String,
        (∀ (i1 i2 q : Nat) (P1 P2 : carg), i1 < i2 →
          (searches parser slots argv)[i1]? = some (Scan.found q P1) →
          (searches parser slots argv)[i2]? = some (Scan.found q P2) → False) ∧
        carg_parse_pos_search (carg_parse_loop parser slots argv).m =
          fresh_search parser.cargs
            ((searches parser slots argv).filterMap Scan.index?)) := by
  have h1 : ∀ (argv : List String) (i1 i2 q : Nat) (P1 P2 : carg), i1 < i2 →
      (searches parser slots argv)[i1]? = some (Scan.found q P1) →
      (searches parser slots argv)[i2]? = some (Scan.found q P2) →
      (positionals parser.cargs)[consumer (positionals parser.cargs) i1]? = some (q, P1) ∧
      P1.value = none ∧ P2 = P1 := by
    intro argv i1 i2 q P1 P2 hlt hs1 hs2
    have hinv := (searchInv_scan parser slots argv).2
    have hp1 := scanAt_found (hinv i1 _ hs1).symm
    have hp2 := scanAt_found (hinv i2 _ hs2).symm
    have hc := positionals_index_inj parser.cargs _ _ _ _ hp1 hp2 rfl
    refine ⟨hp1, consumer_stay (positionals parser.cargs) hlt hc (q, P1) hp1, ?_⟩
    rw [hc, hp2] at hp1
    simp only [Option.some.injEq, Prod.mk.injEq] at hp1
    exact hp1.2
  refine ⟨fun argv i1 i2 q P1 P2 hlt hs1 hs2 => (h1 argv i1 i2 q P1 P2 hlt hs1 hs2).2, ?_⟩
  intro hslots argv
  refine ⟨?_, ?_⟩
  · intro i1 i2 q P1 P2 hlt hs1 hs2
    obtain ⟨hp, hv, _⟩ := h1 argv i1 i2 q P1 P2 hlt hs1 hs2
    exact hslots (q, P1) (List.getElem?_mem hp) hv
  · have hc := carg_parse_loop_cargs parser slots argv
    have hl := (searchInv_scan parser slots argv).1
    have hl2 : (carg_parse_loop parser slots argv).m.parser.last_pos =
        cursorG (carg_parse_loop parser slots argv).m.parser.cargs
          (searches parser slots argv).length := by
      rw [hc]; exact hl
    have hscan : ∀ i, scanAt parser.cargs i =
        match (positionals parser.cargs)[i]? with
        | some p => Scan.found p.1 p.2
        | none => Scan.sentinel (entries parser.cargs).length :=
      scanAt_of_slots parser.cargs hslots
    have hidx : ∀ i, Scan.index? (scanAt parser.cargs i) =
        ((positionals parser.cargs)[i]?).map Prod.fst := by
      intro i
      rw [hscan i]
      cases (positionals parser.cargs)[i]? <;> rfl
    have hcons : (searches parser slots argv).filterMap Scan.index? =
        ((positionals parser.cargs).take (searches parser slots argv).length).map Prod.fst := by
      rw [← range_filterMap_getElem?]
      conv_lhs => rw [searches_eq_map parser slots argv]
      rw [List.filterMap_map]
      apply List.filterMap_congr
      intro i _
      exact hidx i
    rw [carg_parse_pos_search_general _ _ hl2, hc, hcons]
    unfold fresh_search
    rw [find_not_consumed (positionals parser.cargs) (positionalsFrom_pairwise 0 parser.cargs)]
    exact hscan _

theorem positional_with_slot_takes_one_witness :
    carg_parse_pos_search (carg_parse_loop scenario_setup null_slots ["prog", "x"]).m =
      fresh_search scenario_setup.cargs
        ((searches scenario_setup null_slots ["prog", "x"]).filterMap Scan.index?) :=
  ((positional_with_slot_takes_one scenario_setup null_slots).2 (by decide) ["prog", "x"]).2

/-! ## Order of the side effects -/

theorem blocks_nil (cargs : List carg) : Blocks cargs [] :=
  ⟨[], rfl, by simp⟩

theorem blocks_append {cargs : List carg} {l1 l2 : List Event} (h1 : Blocks cargs l1)
    (h2 : Blocks cargs l2) : Blocks cargs (l1 ++ l2) := by
  obtain ⟨b1, e1, hb1⟩ := h1
  obtain ⟨b2, e2, hb2⟩ := h2
  refine ⟨b1 ++ b2, by rw [e1, e2, List.flatten_append], ?_⟩
  intro b hb
  rcases List.mem_append.mp hb with h | h
  · exact hb1 b h
  · exact hb2 b h

theorem blocks_single {cargs : List carg} {b : List Event}
    (h : IsMatchBlock cargs b ∨ IsErrorBlock b) : Blocks cargs b :=
  ⟨[b], by simp, by simpa using h⟩

theorem blocks_error (cargs : List carg) (fn : Option Nat) (e : carg_error)
    (p1 : Option String) (p2 : Option Nat) : Blocks cargs [Event.error fn e p1 p2] :=
  blocks_single (Or.inr ⟨fn, e, p1, p2, rfl⟩)

theorem blocks_set (cargs : List carg) (i : Nat) (D : carg) (t : String)
    (h : (entries cargs)[i]? = some D) :
    Blocks cargs (writeEvents D.value (some t) ++ callEvents D.handler i) :=
  blocks_single (Or.inl ⟨i, D, h, Or.inl ⟨t, rfl⟩⟩)

theorem blocks_flagEvents (cargs : List carg) (t : String) (cs : List Char) :
    Blocks cargs (cs.flatMap (flagEvents cargs t)) := by
  induction cs with
  | nil => exact blocks_nil cargs
  | cons c rest ih =>
    rw [List.flatMap_cons]
    apply blocks_append _ ih
    unfold flagEvents
    cases hfe : flagEntry cargs c with
    | none => exact blocks_nil cargs
    | some D => exact blocks_set cargs _ D t hfe

theorem carg_parse_pos_search_found (m : Machine) (h : CursorOK m) (q : Nat) (P : carg)
    (hs : carg_parse_pos_search m = Scan.found q P) :
    (entries m.parser.cargs)[q]? = some P ∧ P.type = CARG_POS := by
  have hle := carg_parse_pos_start_le m h
  unfold carg_parse_pos_search at hs
  obtain ⟨h1, h2, h3⟩ := carg_parse_pos_loop_found _ _ _ _ _ hs
  rw [entries_drop _ _ hle, List.getElem?_drop] at h2
  have hidx : carg_parse_pos_start m.parser.last_pos +
      (q - carg_parse_pos_start m.parser.last_pos) = q := by omega
  rw [hidx] at h2
  exact ⟨h2, h3⟩

theorem blocks_carg_parse_pos (m : Machine) (t : String) (h : CursorOK m)
    (hb : Blocks m.parser.cargs m.trace) :
    Blocks m.parser.cargs (carg_parse_pos m t).trace := by
  rw [carg_parse_pos_of_search]
  cases hs : carg_parse_pos_search m with
  | found q P =>
    obtain ⟨hget, _⟩ := carg_parse_pos_search_found m h q P hs
    simp only [invoke_trace, write_trace, set_last_pos_trace, List.append_assoc]
    exact blocks_append hb (blocks_set _ q P t hget)
  | sentinel q =>
    simp only [set_last_pos_trace, report_trace]
    exact blocks_append hb (blocks_error _ _ _ _ _)

theorem blocks_carg_parse_perform (L : Loop) (t : String) (a : Action)
    (hok : ActionOK L.m.parser.cargs a) (hcur : CursorOK L.m)
    (hb : Blocks L.m.parser.cargs L.m.trace) :
    Blocks L.m.parser.cargs (carg_parse_perform L t a).m.trace := by
  cases a with
  | set i ca =>
    simp only [carg_parse_perform, invoke_trace, write_trace, List.append_assoc]
    exact blocks_append hb (blocks_set _ i ca t hok.1)
  | await i ca => exact hb
  | clear i ca =>
    simp only [carg_parse_perform, invoke_trace, write_trace, List.append_assoc]
    exact blocks_append hb (blocks_single (Or.inl ⟨i, ca, hok.1, Or.inr ⟨hok.2, rfl⟩⟩))
  | positional_only => exact hb
  | invalid_argument =>
    simp only [carg_parse_perform, report_trace]
    exact blocks_append hb (blocks_error _ _ _ _ _)
  | flags =>
    simp only [carg_parse_perform, carg_parse_flags]
    rw [(carg_parse_flags_loop_spec t _ 1 L.m).2.2.1]
    apply blocks_append (blocks_append hb (blocks_flagEvents _ _ _))
    split
    · exact blocks_error _ _ _ _ _
    · exact blocks_nil _
  | pos => exact blocks_carg_parse_pos L.m t hcur hb
  | value k key =>
    simp only [carg_parse_perform, invoke_trace, write_trace, List.append_assoc]
    exact blocks_append hb (blocks_set _ k key t hok.1)
  | skip => exact hb

theorem blockInv_step (parser : carg_parser_t) (L : Loop) (t : String)
    (h : BlockInv parser L) : BlockInv parser (carg_parse_step L t) := by
  obtain ⟨hc, hk, hcur, hb⟩ := h
  have hok : ActionOK parser.cargs
      (carg_parse_dispatch L.state L.key L.m.parser.cargs t) := by
    rw [hc]; exact carg_parse_dispatch_ok _ _ _ _ hk
  refine ⟨by rw [carg_parse_step_cargs]; exact hc, ?_, carg_parse_step_cursorOK L t hcur, ?_⟩
  · exact carg_parse_perform_key_ok parser.cargs { L with arg := some t } t _ hk hok
  · have hok2 : ActionOK L.m.parser.cargs
        (carg_parse_dispatch L.state L.key L.m.parser.cargs t) := by
      rw [hc]; exact carg_parse_dispatch_ok _ _ _ _ hk
    have hb2 : Blocks L.m.parser.cargs L.m.trace := by
      rw [hc]; exact hb
    have := blocks_carg_parse_perform { L with arg := some t } t
      (carg_parse_dispatch L.state L.key L.m.parser.cargs t) hok2 hcur hb2
    rw [← hc]
    exact this

theorem blockInv_foldl (parser : carg_parser_t) (ts : List String) (L : Loop)
    (h : BlockInv parser L) : BlockInv parser (ts.foldl carg_parse_step L) := by
  induction ts generalizing L with
  | nil => exact h
  | cons t rest ih => exact ih _ (blockInv_step parser L t h)

theorem blocks_carg_parse (parser : carg_parser_t) (slots : Slots) (argv : List String) :
    Blocks parser.cargs (carg_parse parser slots argv).trace := by
  have hinv : BlockInv parser (carg_parse_loop parser slots argv) := by
    apply blockInv_foldl
    refine ⟨rfl, ?_, ?_, blocks_nil _⟩
    · intro k K hk
      simp [carg_parse_init] at hk
    · intro q hq
      simp [carg_parse_init] at hq
  unfold carg_parse carg_parse_finish
  split
  · rw [report_trace]
    exact blocks_append hinv.2.2.2 (blocks_error _ _ _ _ _)
  · exact hinv.2.2.2

theorem block_call_preceded (p : Option Nat) (v : Option String) (h : Option Nat)
    (i2 k fn i : Nat)
    (hk : (writeEvents p v ++ callEvents h i2)[k]? = some (Event.call fn i)) :
    i = i2 ∧ ∀ a, p = some a →
      k = 1 ∧ (writeEvents p v ++ callEvents h i2)[0]? = some (Event.write a v) := by
  cases p with
  | none =>
    cases h with
    | none => simp [writeEvents, callEvents] at hk
    | some f =>
      simp only [writeEvents, callEvents, List.nil_append] at hk
      cases k with
      | zero =>
        simp only [List.getElem?_cons_zero, Option.some.injEq, Event.call.injEq] at hk
        exact ⟨hk.2.symm, fun a ha => by cases ha⟩
      | succ k2 => simp at hk
  | some a2 =>
    cases h with
    | none =>
      simp only [writeEvents, callEvents, List.append_nil] at hk
      cases k with
      | zero => simp at hk
      | succ k2 => simp at hk
    | some f =>
      simp only [writeEvents, callEvents, List.singleton_append] at hk
      cases k with
      | zero => simp at hk
      | succ k2 =>
        cases k2 with
        | zero =>
          simp only [List.getElem?_cons_succ, List.getElem?_cons_zero, Option.some.injEq,
            Event.call.injEq] at hk
          refine ⟨hk.2.symm, fun a ha => ?_⟩
          simp only [Option.some.injEq] at ha
          subst ha
          exact ⟨rfl, rfl⟩
        | succ k3 => simp at hk

theorem blocks_call_preceded (cargs : List carg) (bs : List (List Event))
    (hbs : ∀ b ∈ bs, IsMatchBlock cargs b ∨ IsErrorBlock b)
    (k fn i : Nat) (D : carg) (a : Nat)
    (hk : bs.flatten[k]? = some (Event.call fn i))
    (hD : (entries cargs)[i]? = some D) (ha : D.value = some a) :
    1 ≤ k ∧ ∃ v, bs.flatten[k - 1]? = some (Event.write a v) := by
  induction bs generalizing k with
  | nil => simp at hk
  | cons b rest ih =>
    rw [List.flatten_cons] at hk ⊢
    by_cases hkb : k < b.length
    · rw [List.getElem?_append_left hkb] at hk
      rcases hbs b (List.mem_cons_self _ _) with hm | he
      · obtain ⟨i2, D2, hget, hform⟩ := hm
        have key : ∀ (v : Option String) (h : Option Nat),
            b = writeEvents D2.value v ++ callEvents h i2 →
            1 ≤ k ∧ ∃ v, (b ++ rest.flatten)[k - 1]? = some (Event.write a v) := by
          intro v h hb
          rw [hb] at hk
          obtain ⟨hi, hrest⟩ := block_call_preceded D2.value v h i2 k fn i hk
          rw [hi, hget] at hD
          simp only [Option.some.injEq] at hD
          rw [hD] at hrest
          obtain ⟨hk1, h0⟩ := hrest a ha
          refine ⟨by omega, v, ?_⟩
          rw [hk1]
          have hlen : 0 < b.length := by omega
          rw [List.getElem?_append_left hlen, hb, hD]
          exact h0
        rcases hform with ⟨t, hb⟩ | ⟨_, hb⟩
        · exact key _ _ hb
        · exact key _ _ hb
      · obtain ⟨fn2, e, p1, p2, hb⟩ := he
        rw [hb] at hk
        cases k with
        | zero => simp at hk
        | succ k2 => simp at hk
    · have hge : b.length ≤ k := by omega
      rw [List.getElem?_append_right hge] at hk
      obtain ⟨h1, v, hv⟩ := ih (fun b2 hb2 => hbs b2 (List.mem_cons_of_mem _ hb2))
        (k - b.length) hk
      refine ⟨by omega, v, ?_⟩
      rw [List.getElem?_append_right (by omega)]
      have : k - 1 - b.length = k - b.length - 1 := by omega
      rw [this]
      exact hv

/-- C15. Write happens before handler. (1) The trace of every scan is a succession of
match blocks and error sites, a match block being, for a declared descriptor, the store in
its slot (when it has a slot) immediately followed by the call of its handler (when it has
one): the token with `handler`, or absent with `neg_handler` for a negation. (2) Hence every
handler call on a descriptor that has a slot comes right after a store in that slot. (3) For
each kind of match the events of the step are that store followed by that call: unary by
name, unary negation, keyword value, positional; for a flag cluster they are, for each
processed character, the store of the whole token followed by the call. A descriptor
without slot still has its handler called, one without handler still has its slot
written. -/
theorem write_before_handler (parser : carg_parser_t) (slots : Slots) (argv : List String) :
    Blocks parser.cargs (carg_parse parser slots argv).trace ∧
    (∀ (k fn i : Nat) (D : carg) (a : Nat),
      (carg_parse parser slots argv).trace[k]? = some (Event.call fn i) →
      (entries parser.cargs)[i]? = some D → D.value = some a →
      1 ≤ k ∧ ∃ v, (carg_parse parser slots argv).trace[k - 1]? = some (Event.write a v)) ∧
    (∀ (L : Loop) (t : String) (i : Nat) (ca : carg),
      (carg_parse_dispatch L.state L.key L.m.parser.cargs t = Action.set i ca →
        (carg_parse_step L t).m.trace =
          L.m.trace ++ (writeEvents ca.value (some t) ++ callEvents ca.handler i)) ∧
      (carg_parse_dispatch L.state L.key L.m.parser.cargs t = Action.clear i ca →
        (carg_parse_step L t).m.trace =
          L.m.trace ++ (writeEvents ca.value none ++ callEvents ca.neg_handler i)) ∧
      (carg_parse_dispatch L.state L.key L.m.parser.cargs t = Action.value i ca →
        (carg_parse_step L t).m.trace =
          L.m.trace ++ (writeEvents ca.value (some t) ++ callEvents ca.handler i)) ∧
      (carg_parse_dispatch L.state L.key L.m.parser.cargs t = Action.pos →
        carg_parse_pos_search L.m = Scan.found i ca →
        (carg_parse_step L t).m.trace =
          L.m.trace ++ (writeEvents ca.value (some t) ++ callEvents ca.handler i)) ∧
      (carg_parse_dispatch L.state L.key L.m.parser.cargs t = Action.flags →
        ∃ tail, (carg_parse_step L t).m.trace =
          L.m.trace ++ (declaredPrefix L.m.parser.cargs (t.toList.drop 1)).flatMap
            (flagEvents L.m.parser.cargs t) ++ tail ∧
          ∀ ev ∈ tail, Event.isError ev = true)) := by
  have hb := blocks_carg_parse parser slots argv
  refine ⟨hb, ?_, ?_⟩
  · intro k fn i D a hk hD ha
    obtain ⟨bs, hflat, hbs⟩ := hb
    rw [hflat] at hk ⊢
    exact blocks_call_preceded parser.cargs bs hbs k fn i D a hk hD ha
  · intro L t i ca
    refine ⟨?_, ?_, ?_, ?_, ?_⟩
    · intro h
      unfold carg_parse_step
      rw [h]
      simp [carg_parse_perform, List.append_assoc]
    · intro h
      unfold carg_parse_step
      rw [h]
      simp [carg_parse_perform, List.append_assoc]
    · intro h
      unfold carg_parse_step
      rw [h]
      simp [carg_parse_perform, List.append_assoc]
    · intro h hs
      rw [carg_parse_step_pos L t h, carg_parse_pos_of_search, hs]
      simp [List.append_assoc]
    · intro h
      unfold carg_parse_step
      rw [h]
      simp only [carg_parse_perform, carg_parse_flags]
      rw [(carg_parse_flags_loop_spec t _ 1 L.m).2.2.1]
      refine ⟨_, rfl, ?_⟩
      intro ev hev
      split at hev
      · simp only [List.mem_singleton] at hev
        rw [hev]; rfl
      · simp at hev

/-! ## Duplicated names and flags -/

theorem findIdx_le_of_getElem? {α : Type} (l : List α) (p : α → Bool) (i : Nat) (x : α)
    (h : l[i]? = some x) (hp : p x = true) : l.findIdx p ≤ i := by
  induction l generalizing i with
  | nil => simp at h
  | cons a tl ih =>
    rw [List.findIdx_cons]
    cases i with
    | zero =>
      simp only [List.getElem?_cons_zero, Option.some.injEq] at h
      rw [h, hp]
      exact Nat.le_refl _
    | succ j =>
      simp only [List.getElem?_cons_succ] at h
      cases hpa : p a with
      | true => exact Nat.zero_le _
      | false => exact Nat.succ_le_succ (ih j h)

theorem findIdx_eq_of_first {α : Type} (l : List α) (p : α → Bool) (i : Nat) (x : α)
    (h : l[i]? = some x) (hp : p x = true) (hb : ∀ y ∈ l.take i, p y = false) :
    l.findIdx p = i := by
  induction l generalizing i with
  | nil => simp at h
  | cons a tl ih =>
    rw [List.findIdx_cons]
    cases i with
    | zero =>
      simp only [List.getElem?_cons_zero, Option.some.injEq] at h
      rw [h, hp]
      rfl
    | succ j =>
      simp only [List.getElem?_cons_succ] at h
      have hpa : p a = false := hb a (by simp [List.take_succ_cons])
      rw [hpa]
      have := ih j h (fun y hy => hb y (by simp [List.take_succ_cons, hy]))
      simp [this]

theorem name_shadowed_not_first {cargs : List carg} {iA iB : Nat} {A B : carg} {n : String}
    (hlt : iA < iB) (hA : (entries cargs)[iA]? = some A)
    (hB : (entries cargs)[iB]? = some B)
    (hAt : A.type = CARG_UNARY ∨ A.type = CARG_KEYWORD)
    (hAn : A.name = some n) (hBn : B.name = some n)
    (t : String) (D : carg) (hfirst : FirstMatch cargs t iB D) : ¬ NameMatch D t := by
  intro hnm
  obtain ⟨hget, _, hbefore⟩ := hfirst
  rw [hB] at hget
  cases hget
  have hnt : n = t := by
    have := hnm.2
    rw [hBn] at this
    exact Option.some.inj this
  have hmem : A ∈ (entries cargs).take iB := by
    rw [List.mem_iff_getElem?]
    exact ⟨iA, by rw [List.getElem?_take_of_lt hlt]; exact hA⟩
  exact hbefore A hmem (Or.inl ⟨hAt, by rw [hAn, hnt]⟩)

theorem dispatch_never_shadowed {cargs : List carg} {iA iB : Nat} {A B : carg} {n : String}
    (hlt : iA < iB) (hA : (entries cargs)[iA]? = some A)
    (hB : (entries cargs)[iB]? = some B)
    (hAt : A.type = CARG_UNARY ∨ A.type = CARG_KEYWORD)
    (hAn : A.name = some n) (hBn : B.name = some n)
    (state : Nat) (key : Option (Nat × carg)) (hkey : KeyNot iB key) (t : String) (D : carg) :
    carg_parse_dispatch state key cargs t ≠ Action.set iB D ∧
    carg_parse_dispatch state key cargs t ≠ Action.await iB D ∧
    carg_parse_dispatch state key cargs t ≠ Action.value iB D := by
  have hns := fun D2 hf => name_shadowed_not_first hlt hA hB hAt hAn hBn t D2 hf
  match state with
  | 0 =>
    have hun := carg_parse_unmatched_cases t
    rcases carg_parse_dispatch_default key cargs t with ⟨_, h2⟩ | ⟨i2, D2, hf, hn, _, h2⟩ |
      ⟨i2, D2, hf, hn, _, h2⟩ | ⟨i2, D2, _, _, _, h2⟩
    · rw [h2]
      rcases hun with h3 | h3 | h3 | h3 <;> rw [h3] <;>
        refine ⟨?_, ?_, ?_⟩ <;> intro h <;> cases h
    · rw [h2]
      refine ⟨?_, ?_, ?_⟩
      · intro h
        cases h
        exact hns D hf hn
      · intro h; cases h
      · intro h; cases h
    · rw [h2]
      refine ⟨?_, ?_, ?_⟩
      · intro h; cases h
      · intro h
        cases h
        exact hns D hf hn
      · intro h; cases h
    · rw [h2]
      refine ⟨?_, ?_, ?_⟩ <;> intro h <;> cases h
  | 1 =>
    unfold carg_parse_dispatch
    cases hk : key with
    | none => refine ⟨?_, ?_, ?_⟩ <;> intro h <;> cases h
    | some kk =>
      obtain ⟨k, K⟩ := kk
      refine ⟨?_, ?_, ?_⟩
      · intro h; cases h
      · intro h; cases h
      · intro h
        simp only [Action.value.injEq] at h
        exact hkey k K hk h.1
  | 2 => refine ⟨?_, ?_, ?_⟩ <;> intro h <;> cases h
  | n + 3 => refine ⟨?_, ?_, ?_⟩ <;> intro h <;> cases h

theorem keyNot_step {cargs : List carg} {iA iB : Nat} {A B : carg} {n : String}
    (hlt : iA < iB) (hA : (entries cargs)[iA]? = some A)
    (hB : (entries cargs)[iB]? = some B)
    (hAt : A.type = CARG_UNARY ∨ A.type = CARG_KEYWORD)
    (hAn : A.name = some n) (hBn : B.name = some n)
    (L : Loop) (hc : L.m.parser.cargs = cargs) (hkey : KeyNot iB L.key) (t : String) :
    KeyNot iB (carg_parse_step L t).key := by
  unfold carg_parse_step
  rw [hc]
  have hd := fun D => dispatch_never_shadowed hlt hA hB hAt hAn hBn L.state L.key hkey t D
  cases ha : carg_parse_dispatch L.state L.key cargs t with
  | await i ca =>
    intro k K hk
    simp only [carg_parse_perform, Option.some.injEq, Prod.mk.injEq] at hk
    obtain ⟨rfl, rfl⟩ := hk
    intro hi
    rw [hi] at ha
    exact (hd _).2.1 ha
  | set i ca => exact hkey
  | clear i ca => exact hkey
  | positional_only => exact hkey
  | invalid_argument => exact hkey
  | flags => exact hkey
  | pos => exact hkey
  | value k key => exact hkey
  | skip => exact hkey

theorem keyNot_loop {cargs : List carg} {iA iB : Nat} {A B : carg} {n : String}
    (hlt : iA < iB) (hA : (entries cargs)[iA]? = some A)
    (hB : (entries cargs)[iB]? = some B)
    (hAt : A.type = CARG_UNARY ∨ A.type = CARG_KEYWORD)
    (hAn : A.name = some n) (hBn : B.name = some n)
    (ts : List String) (L : Loop) (hc : L.m.parser.cargs = cargs) (hkey : KeyNot iB L.key) :
    KeyNot iB (ts.foldl carg_parse_step L).key := by
  induction ts generalizing L with
  | nil => exact hkey
  | cons t rest ih =>
    exact ih _ (by rw [carg_parse_step_cargs]; exact hc)
      (keyNot_step hlt hA hB hAt hAn hBn L hc hkey t)

theorem flag_shadowed_never_found {cargs : List carg} {iA iB : Nat} {A B : carg} {c : Char}
    (hlt : iA < iB) (hA : (entries cargs)[iA]? = some A)
    (hB : (entries cargs)[iB]? = some B) (hAf : HasFlag A c) (hBf : HasFlag B c)
    (c2 : Char) (D : carg) : carg_parse_flags_find c2 cargs 0 ≠ Scan.found iB D := by
  rw [carg_parse_flags_find_eq]
  cases hfe : flagEntry cargs c2 with
  | none => intro h; cases h
  | some D2 =>
    intro h
    simp only [Nat.zero_add, Scan.found.injEq] at h
    have hidx : flagIndex cargs c2 = iB := h.1
    have hD2 : D2 = B := by
      unfold flagEntry at hfe
      rw [hidx, hB] at hfe
      exact (Option.some.inj hfe).symm
    have hc2 : c2 = c := by
      have := (flagEntry_some hfe).2.2
      rw [hD2, hBf.2] at this
      exact this.symm
    have hle : flagIndex cargs c2 ≤ iA := by
      unfold flagIndex
      apply findIdx_le_of_getElem? _ _ iA A hA
      rw [hc2]
      simpa using hAf
    omega

theorem carg_parse_perform_nerrors_match (L : Loop) (t : String) (i : Nat) (ca : carg) :
    (carg_parse_perform L t (Action.set i ca)).m.parser.nerrors = L.m.parser.nerrors ∧
    (carg_parse_perform L t (Action.await i ca)).m.parser.nerrors = L.m.parser.nerrors ∧
    (carg_parse_perform L t (Action.clear i ca)).m.parser.nerrors = L.m.parser.nerrors ∧
    (carg_parse_perform L t (Action.value i ca)).m.parser.nerrors = L.m.parser.nerrors := by
  simp [carg_parse_perform]

theorem declaredPrefix_getElem? (cargs : List carg) (cs : List Char) (k : Nat)
    (h : k < (declaredPrefix cargs cs).length) : (declaredPrefix cargs cs)[k]? = cs[k]? := by
  induction cs generalizing k with
  | nil => simp [declaredPrefix] at h
  | cons c rest ih =>
    by_cases hd : Declared cargs c
    · rw [declaredPrefix_cons_declared rest hd] at h ⊢
      cases k with
      | zero => simp
      | succ j =>
        simp only [List.length_cons, Nat.add_lt_add_iff_right] at h
        simp only [List.getElem?_cons_succ]
        exact ih j h
    · rw [declaredPrefix_cons_undeclared rest hd] at h
      simp at h

/-- C16, the claim as stated fails when a third descriptor declared before `A` has the same
flag: in the table [unary `--z` with flag `c` and slot 0, unary `--a` with flag `c`, slot 1
and handler 11, unary `--b` with flag `c` and slot 2, end], `--a` is declared before `--b`
and both have the flag `c`; the cluster `-c` is read in the default state, matches no name,
and its only character is a declared flag; yet the scan of `prog -c` leaves the slot of
`--a` as it was and never calls its handler: its only event is the store of `-c` in the
slot of `--z`, the first declared entry with that flag. -/
theorem third_duplicate_counterexample :
    (entries tripleflag_cargs)[1]? =
      some (carg.mk0 CARG_UNARY (some 1) (some "--a") 'c' none (some 11) none) ∧
    (entries tripleflag_cargs)[2]? =
      some (carg.mk0 CARG_UNARY (some 2) (some "--b") 'c' none none none) ∧
    HasFlag (carg.mk0 CARG_UNARY (some 1) (some "--a") 'c' none (some 11) none) 'c' ∧
    HasFlag (carg.mk0 CARG_UNARY (some 2) (some "--b") 'c' none none none) 'c' ∧
    declaredPrefix tripleflag_cargs ("-c".toList.drop 1) = ['c'] ∧
    carg_parse_dispatch (carg_parse_loop tripleflag_setup null_slots ["prog"]).state
      (carg_parse_loop tripleflag_setup null_slots ["prog"]).key tripleflag_setup.cargs "-c" =
        Action.flags ∧
    null_slots 1 = none ∧
    (carg_parse tripleflag_setup null_slots ["prog", "-c"]).slots 1 = none ∧
    (carg_parse tripleflag_setup null_slots ["prog", "-c"]).slots 0 = some "-c" ∧
    (carg_parse tripleflag_setup null_slots ["prog", "-c"]).trace =
      [Event.write 0 (some "-c")] ∧
    (carg_parse tripleflag_setup null_slots ["prog", "-c"]).parser.nerrors = 0 := by
  refine ⟨by decide, by decide, by decide, by decide, by decide, ?_, rfl, ?_, ?_, ?_, ?_⟩
  · simp [carg_parse_loop, carg_parse_init, carg_parse_dispatch, carg_parse_match,
      tripleflag_setup, tripleflag_cargs, carg.mk0, carg_parse_unmatched]
  · simp [carg_parse, carg_parse_loop, carg_parse_init, carg_parse_step, carg_parse_dispatch,
      carg_parse_match, tripleflag_setup, tripleflag_cargs, carg.mk0, carg_parse_perform,
      carg_parse_unmatched, carg_parse_flags, carg_parse_flags_loop, carg_parse_flags_find,
      carg_parse_finish, null_slots, Machine.write, Machine.invoke]
  · simp [carg_parse, carg_parse_loop, carg_parse_init, carg_parse_step, carg_parse_dispatch,
      carg_parse_match, tripleflag_setup, tripleflag_cargs, carg.mk0, carg_parse_perform,
      carg_parse_unmatched, carg_parse_flags, carg_parse_flags_loop, carg_parse_flags_find,
      carg_parse_finish, Machine.write, Machine.invoke]
  · simp [carg_parse, carg_parse_loop, carg_parse_init, carg_parse_step, carg_parse_dispatch,
      carg_parse_match, tripleflag_setup, tripleflag_cargs, carg.mk0, carg_parse_perform,
      carg_parse_unmatched, carg_parse_flags, carg_parse_flags_loop, carg_parse_flags_find,
      carg_parse_finish, Machine.write, Machine.invoke]
  · simp [carg_parse, carg_parse_loop, carg_parse_init, carg_parse_step, carg_parse_dispatch,
      carg_parse_match, tripleflag_setup, tripleflag_cargs, carg.mk0, carg_parse_perform,
      carg_parse_unmatched, carg_parse_flags, carg_parse_flags_loop, carg_parse_flags_find,
      carg_parse_finish, Machine.write, Machine.invoke]

/-- C16, amended. First declared entry wins, later duplicates are unreachable. Let `A` be
declared before `B`. (1) If `A` is unary or keyword and `A` and `B` have the same name `n`,
then in no scan a token is matched to `B` by name: no step sets `B`, awaits `B` or gives
`B` a keyword value; and a token `n` read in the default state counts no error. (2) If `A`
and `B` are unary with the same flag `c`, then the flag search never stops at `B`, for any
character; the search for `c` stops at the first declared unary descriptor `F` with flag
`c`, which is declared at or before `A` and is `A` itself when no unary descriptor declared
before `A` has that flag. For every flag cluster `t` read in the default state: the events of
the token are, for each character before the first undeclared one, the store of `t` in the
slot of the first entry with that flag and the call of its handler (for `c`: the slot and
the handler of `F`), followed by one `InvalidFlag` error when there is an undeclared
character; so every occurrence of `c` that the cluster scan reaches leaves `t` in the slot
of `F`; the offending character of the error, if any, is never `c`; and the error count
grows by one exactly when some character of the cluster is the flag of no declared unary
descriptor, so a cluster of declared flags, shared or not, counts no error. -/
theorem first_declared_wins (parser : carg_parser_t) (slots : Slots) (iA iB : Nat)
    (A B : carg)
    (hlt : iA < iB)
    (hA : (entries parser.cargs)[iA]? = some A)
    (hB : (entries parser.cargs)[iB]? = some B) :
    (∀ n : String, (A.type = CARG_UNARY ∨ A.type = CARG_KEYWORD) →
      A.name = some n → B.name = some n →
      (∀ (pre : List String) (t : String) (D : carg),
        carg_parse_dispatch (carg_parse_loop parser slots pre).state
          (carg_parse_loop parser slots pre).key parser.cargs t ≠ Action.set iB D ∧
        carg_parse_dispatch (carg_parse_loop parser slots pre).state
          (carg_parse_loop parser slots pre).key parser.cargs t ≠ Action.await iB D ∧
        carg_parse_dispatch (carg_parse_loop parser slots pre).state
          (carg_parse_loop parser slots pre).key parser.cargs t ≠ Action.value iB D) ∧
      (∀ pre : List String, pre ≠ [] → (carg_parse_loop parser slots pre).state = 0 →
        (carg_parse_loop parser slots (pre ++ [n])).m.parser.nerrors =
          (carg_parse_loop parser slots pre).m.parser.nerrors)) ∧
    (∀ c : Char, HasFlag A c → HasFlag B c →
      (∀ (c2 : Char) (D : carg), carg_parse_flags_find c2 parser.cargs 0 ≠ Scan.found iB D) ∧
      ∃ F, flagEntry parser.cargs c = some F ∧ HasFlag F c ∧
        carg_parse_flags_find c parser.cargs 0 = Scan.found (flagIndex parser.cargs c) F ∧
        flagIndex parser.cargs c ≤ iA ∧
        (∀ E ∈ (entries parser.cargs).take (flagIndex parser.cargs c), ¬ HasFlag E c) ∧
        ((∀ E ∈ (entries parser.cargs).take iA, ¬ HasFlag E c) →
          flagIndex parser.cargs c = iA ∧ F = A) ∧
        ∀ (pre : List String) (t : String) (c1 : Char) (rest : List Char), pre ≠ [] →
          (carg_parse_loop parser slots pre).state = 0 → NoMatch parser.cargs t →
          t.toList = '-' :: c1 :: rest → c1 ≠ '-' →
          (carg_parse_loop parser slots (pre ++ [t])).m.trace =
            (carg_parse_loop parser slots pre).m.trace ++
              (declaredPrefix parser.cargs (c1 :: rest)).flatMap (flagEvents parser.cargs t) ++
              (if (declaredPrefix parser.cargs (c1 :: rest)).length < (c1 :: rest).length then
                [Event.error parser.error_handler CARG_ERROR_INVALID_FLAG (some t)
                  (some (1 + (declaredPrefix parser.cargs (c1 :: rest)).length))]
               else []) ∧
          flagEvents parser.cargs t c =
            writeEvents F.value (some t) ++ callEvents F.handler (flagIndex parser.cargs c) ∧
          (c ∈ declaredPrefix parser.cargs (c1 :: rest) → ∀ a, F.value = some a →
            (carg_parse_loop parser slots (pre ++ [t])).m.slots a = some t) ∧
          (∀ k, (c1 :: rest)[k]? = some c →
            k ≠ (declaredPrefix parser.cargs (c1 :: rest)).length ∧
            (k < (declaredPrefix parser.cargs (c1 :: rest)).length →
              c ∈ declaredPrefix parser.cargs (c1 :: rest))) ∧
          (carg_parse_loop parser slots (pre ++ [t])).m.parser.nerrors =
            (carg_parse_loop parser slots pre).m.parser.nerrors +
              (if ∀ x ∈ c1 :: rest, Declared parser.cargs x then 0 else 1)) := by
  constructor
  · intro n hAt hAn hBn
    constructor
    · intro pre t D
      have hkey : KeyNot iB (carg_parse_loop parser slots pre).key := by
        apply keyNot_loop hlt hA hB hAt hAn hBn _ _ rfl
        intro k K hk
        simp [carg_parse_init] at hk
      exact dispatch_never_shadowed hlt hA hB hAt hAn hBn _ _ hkey t D
    · intro pre hpre hstate
      have hc := carg_parse_loop_cargs parser slots pre
      have hmatch : ¬ NoMatch parser.cargs n :=
        fun hno => hno A (List.getElem?_mem hA) (Or.inl ⟨hAt, hAn⟩)
      rw [carg_parse_loop_snoc parser slots pre n hpre]
      unfold carg_parse_step
      rw [hstate, hc]
      rcases carg_parse_dispatch_default (carg_parse_loop parser slots pre).key
          parser.cargs n with ⟨hno, _⟩ | ⟨i2, D2, _, _, _, h2⟩ | ⟨i2, D2, _, _, _, h2⟩ |
          ⟨i2, D2, _, _, _, h2⟩
      · exact absurd hno hmatch
      · rw [h2]; exact (carg_parse_perform_nerrors_match _ n i2 D2).1
      · rw [h2]; exact (carg_parse_perform_nerrors_match _ n i2 D2).2.1
      · rw [h2]; exact (carg_parse_perform_nerrors_match _ n i2 D2).2.2.1
  · intro c hAf hBf
    refine ⟨fun c2 D => flag_shadowed_never_found hlt hA hB hAf hBf c2 D, ?_⟩
    have hdecl : Declared parser.cargs c := ⟨A, List.getElem?_mem hA, hAf⟩
    have hle : flagIndex parser.cargs c ≤ iA := by
      unfold flagIndex
      exact findIdx_le_of_getElem? _ _ iA A hA (by simpa using hAf)
    have hAlt : iA < (entries parser.cargs).length := by
      by_contra hge
      rw [List.getElem?_eq_none (Nat.le_of_not_lt hge)] at hA
      cases hA
    cases hfe : flagEntry parser.cargs c with
    | none =>
      unfold flagEntry at hfe
      rw [List.getElem?_eq_none_iff] at hfe
      omega
    | some F =>
      have hF := flagEntry_some hfe
      have hfind : carg_parse_flags_find c parser.cargs 0 =
          Scan.found (flagIndex parser.cargs c) F := by
        rw [carg_parse_flags_find_eq, hfe, Nat.zero_add]
      have hbefore : ∀ E ∈ (entries parser.cargs).take (flagIndex parser.cargs c),
          ¬ HasFlag E c := by
        intro E hE hEf
        obtain ⟨k, hk⟩ := List.mem_iff_getElem?.mp hE
        rw [List.getElem?_take] at hk
        split at hk
        · rename_i hklt
          have : flagIndex parser.cargs c ≤ k := by
            unfold flagIndex
            exact findIdx_le_of_getElem? _ _ k E hk (by simpa using hEf)
          omega
        · cases hk
      refine ⟨F, rfl, hF.2, hfind, hle, hbefore, ?_, ?_⟩
      · intro hfirst
        have hidx : flagIndex parser.cargs c = iA := by
          unfold flagIndex
          apply findIdx_eq_of_first _ _ iA A hA (by simpa using hAf)
          intro y hy
          simpa using hfirst y hy
        refine ⟨hidx, ?_⟩
        unfold flagEntry at hfe
        rw [hidx, hA] at hfe
        exact (Option.some.inj hfe).symm
      · intro pre t c1 rest hpre hstate hno htok hc1
        have hcargs := carg_parse_loop_cargs parser slots pre
        have heh := carg_parse_loop_error_handler parser slots pre
        have hno2 : NoMatch (carg_parse_loop parser slots pre).m.parser.cargs t := by
          rw [hcargs]; exact hno
        rw [carg_parse_loop_snoc parser slots pre t hpre,
          carg_parse_step_nomatch _ t hstate hno2,
          carg_parse_unmatched_flags t c1 rest htok hc1]
        simp only [carg_parse_perform, carg_parse_flags, htok, List.drop_succ_cons,
          List.drop_zero]
        obtain ⟨h1, _, h3, h4⟩ :=
          carg_parse_flags_loop_spec t (c1 :: rest) 1 (carg_parse_loop parser slots pre).m
        rw [hcargs] at h1 h3 h4
        rw [heh] at h3
        refine ⟨h3, ?_, ?_, ?_, ?_⟩
        · unfold flagEvents
          rw [hfe]
        · intro hreach a ha
          rw [h4 a, if_pos ⟨c, hreach, F, hfe, ha⟩]
        · intro k hk
          constructor
          · intro hkeq
            rw [hkeq] at hk
            exact declaredPrefix_next _ _ c hk hdecl
          · intro hklt
            have hpre2 : (declaredPrefix parser.cargs (c1 :: rest))[k]? = some c := by
              rw [declaredPrefix_getElem? parser.cargs (c1 :: rest) k hklt]
              exact hk
            exact List.getElem?_mem hpre2
        · rw [h1]
          congr 1
          by_cases hall : ∀ x ∈ c1 :: rest, Declared parser.cargs x
          · rw [if_pos hall, if_neg]
            have : declaredPrefix parser.cargs (c1 :: rest) = c1 :: rest := by
              unfold declaredPrefix
              rw [List.takeWhile_eq_self_iff]
              intro x hx
              simpa using hall x hx
            rw [this]
            exact Nat.lt_irrefl _
          · rw [if_neg hall, if_pos]
            by_contra hge
            apply hall
            have hlen := declaredPrefix_length_le parser.cargs (c1 :: rest)
            have heq : (declaredPrefix parser.cargs (c1 :: rest)).length =
                (c1 :: rest).length := by omega
            have hself : declaredPrefix parser.cargs (c1 :: rest) = c1 :: rest := by
              unfold declaredPrefix at heq ⊢
              exact (List.takeWhile_sublist _).eq_of_length heq
            intro x hx
            rw [← hself] at hx
            exact declaredPrefix_declared hx

theorem first_declared_wins_witness :
    (∀ (c2 : Char) (D : carg),
      carg_parse_flags_find c2 dupflag_setup.cargs 0 ≠ Scan.found 1 D) ∧
    carg_parse_flags_find 'c' dupflag_setup.cargs 0 =
      Scan.found 0 (carg.mk0 CARG_UNARY (some 0) (some "--a") 'c' none none none) ∧
    (carg_parse_loop dupflag_setup null_slots (["prog"] ++ ["-cc"])).m.slots 0 = some "-cc" ∧
    (carg_parse_loop dupflag_setup null_slots (["prog"] ++ ["-cc"])).m.parser.nerrors =
      (carg_parse_loop dupflag_setup null_slots ["prog"]).m.parser.nerrors +
        (if ∀ x ∈ ['c', 'c'], Declared dupflag_setup.cargs x then 0 else 1) := by
  obtain ⟨h1, F, hF, _, hfind, _, _, hfirst, hstep⟩ :=
    (first_declared_wins dupflag_setup null_slots 0 1
      (carg.mk0 CARG_UNARY (some 0) (some "--a") 'c' none none none)
      (carg.mk0 CARG_UNARY (some 1) (some "--b") 'c' none none none)
      (by decide) (by decide) (by decide)).2 'c' (by decide) (by decide)
  obtain ⟨hidx, hFA⟩ := hfirst (by decide)
  obtain ⟨_, _, hslot, _, hn⟩ :=
    hstep ["prog"] "-cc" 'c' ['c'] (by decide) rfl (by decide) rfl (by decide)
  rw [hidx, hFA] at hfind
  refine ⟨h1, hfind, hslot (by decide) 0 ?_, hn⟩
  rw [hFA]
  rfl

theorem write_before_handler_witness :
    1 ≤ 1 ∧ ∃ v, (carg_parse abd_setup null_slots ["prog", "--aa"]).trace[1 - 1]? =
      some (Event.write 0 v) :=
  (write_before_handler abd_setup null_slots ["prog", "--aa"]).2.1 1 10 0
    (carg.mk0 CARG_UNARY (some 0) (some "--aa") 'a' none (some 10) none) 0
    (by simp [carg_parse, carg_parse_loop, carg_parse_init, carg_parse_step,
      carg_parse_dispatch, carg_parse_match, abd_setup, abd_cargs, carg.mk0,
      carg_parse_perform, carg_parse_finish, writeEvents, callEvents])
    (by decide) rfl

/-! ## At most one error for each token -/

theorem carg_parse_pos_nerrors (m : Machine) (t : String) :
    (carg_parse_pos m t).parser.nerrors =
      m.parser.nerrors + (if (carg_parse_pos_search m).index? = none then 1 else 0) := by
  rw [carg_parse_pos_of_search]
  cases carg_parse_pos_search m <;> simp [Scan.index?]

theorem carg_parse_flags_nerrors (m : Machine) (t : String) :
    (carg_parse_flags m t).parser.nerrors =
      m.parser.nerrors +
        (if (declaredPrefix m.parser.cargs (t.toList.drop 1)).length < (t.toList.drop 1).length
          then 1 else 0) :=
  (carg_parse_flags_loop_spec t _ 1 m).1

/-- How the error count and the state change in one iteration, branch by branch. -/
theorem carg_parse_perform_nerrors (L : Loop) (t : String) (a : Action) :
    (carg_parse_perform L t a).m.parser.nerrors =
      L.m.parser.nerrors +
        (match a with
          | Action.invalid_argument => 1
          | Action.flags =>
            if (declaredPrefix L.m.parser.cargs (t.toList.drop 1)).length <
                (t.toList.drop 1).length then 1 else 0
          | Action.pos => if (carg_parse_pos_search L.m).index? = none then 1 else 0
          | _ => 0) := by
  cases a with
  | flags => exact carg_parse_flags_nerrors L.m t
  | pos => exact carg_parse_pos_nerrors L.m t
  | set i ca => simp [carg_parse_perform]
  | await i ca => rfl
  | clear i ca => simp [carg_parse_perform]
  | positional_only => rfl
  | invalid_argument => rfl
  | value k key => simp [carg_parse_perform]
  | skip => rfl

theorem carg_parse_step_nerrors_le (L : Loop) (t : String) :
    (carg_parse_step L t).m.parser.nerrors = L.m.parser.nerrors ∨
    (carg_parse_step L t).m.parser.nerrors = L.m.parser.nerrors + 1 := by
  unfold carg_parse_step
  rw [carg_parse_perform_nerrors]
  simp only []
  split
  · right; rfl
  · split
    · right; rfl
    · left; rfl
  · split
    · right; rfl
    · left; rfl
  · left; rfl

theorem carg_parse_dispatch_state_cases (state : Nat) (key : Option (Nat × carg))
    (cargs : List carg) (t : String) :
    (state = 0) ∨
    (state ≠ 0 ∧ ((∃ k K, carg_parse_dispatch state key cargs t = Action.value k K) ∨
      carg_parse_dispatch state key cargs t = Action.skip ∨
      (state = 2 ∧ carg_parse_dispatch state key cargs t = Action.pos))) := by
  match state with
  | 0 => exact Or.inl rfl
  | 1 =>
    right
    refine ⟨by decide, ?_⟩
    unfold carg_parse_dispatch
    cases key with
    | none => exact Or.inr (Or.inl rfl)
    | some kk => exact Or.inl ⟨kk.1, kk.2, rfl⟩
  | 2 => exact Or.inr ⟨by decide, Or.inr (Or.inr ⟨rfl, rfl⟩)⟩
  | n + 3 => exact Or.inr ⟨by omega, Or.inr (Or.inl rfl)⟩

/-- When an iteration ends awaiting a keyword value, it has counted no error. -/
theorem carg_parse_step_awaiting (L : Loop) (t : String)
    (h : (carg_parse_step L t).state = 1) :
    (carg_parse_step L t).m.parser.nerrors = L.m.parser.nerrors := by
  rcases carg_parse_dispatch_state_cases L.state L.key L.m.parser.cargs t with
    h0 | ⟨hne, ⟨k, K, hv⟩ | hs | ⟨h2, hp⟩⟩
  · unfold carg_parse_step at h ⊢
    rw [h0] at h ⊢
    rcases carg_parse_dispatch_default L.key L.m.parser.cargs t with ⟨_, h2⟩ |
      ⟨i2, D2, _, _, _, h2⟩ | ⟨i2, D2, _, _, _, h2⟩ | ⟨i2, D2, _, _, _, h2⟩
    · rw [h2] at h
      rcases carg_parse_unmatched_cases t with h3 | h3 | h3 | h3 <;> rw [h3] at h <;>
        simp [carg_parse_perform, h0] at h
    · rw [h2] at h
      simp [carg_parse_perform, h0] at h
    · rw [h2]; rfl
    · rw [h2] at h
      simp [carg_parse_perform, h0] at h
  · unfold carg_parse_step
    rw [hv]
    simp [carg_parse_perform]
  · unfold carg_parse_step
    rw [hs]
    rfl
  · unfold carg_parse_step at h
    rw [hp] at h
    simp [carg_parse_perform, h2] at h

theorem errInv_step (L : Loop) (n : Nat) (t : String) (h : ErrInv L n) :
    ErrInv (carg_parse_step L t) (n + 1) := by
  unfold ErrInv at h ⊢
  by_cases hs : (carg_parse_step L t).state = 1
  · rw [if_pos hs, carg_parse_step_awaiting L t hs]
    have : L.m.parser.nerrors ≤ n := Nat.le_trans (Nat.le_add_right _ _) h
    omega
  · rw [if_neg hs]
    have : L.m.parser.nerrors ≤ n := Nat.le_trans (Nat.le_add_right _ _) h
    rcases carg_parse_step_nerrors_le L t with h1 | h1 <;> rw [h1] <;> omega

theorem errInv_foldl (ts : List String) (L : Loop) (n : Nat) (h : ErrInv L n) :
    ErrInv (ts.foldl carg_parse_step L) (n + ts.length) := by
  induction ts generalizing L n with
  | nil => exact h
  | cons t rest ih =>
    have := ih _ (n + 1) (errInv_step L n t h)
    rw [List.length_cons]
    have heq : n + (rest.length + 1) = n + 1 + rest.length := by omega
    rw [heq]
    exact this

/-- C17. At most one error per token. (1) The final error count of a scan is at most
`argc - 1`. (2) Each iteration of the token loop leaves the counter as it is or adds one to
it; a flag cluster adds one when it contains an undeclared character, however many it
contains, and nothing otherwise. (3) The token that makes the dispatcher await a keyword
value counts no error, and the token taken as a keyword value counts none. (4) When the
loop ends awaiting a value, its last token has counted no error and the final check adds
exactly one, the `ExpectedArgumentAfter` error. -/
theorem at_most_one_error_per_token :
    (∀ (parser : carg_parser_t) (slots : Slots) (argv : List String),
      (carg_parse parser slots argv).parser.nerrors ≤ argv.length - 1) ∧
    (∀ (L : Loop) (t : String),
      ((carg_parse_step L t).m.parser.nerrors = L.m.parser.nerrors ∨
        (carg_parse_step L t).m.parser.nerrors = L.m.parser.nerrors + 1) ∧
      (carg_parse_dispatch L.state L.key L.m.parser.cargs t = Action.flags →
        (carg_parse_step L t).m.parser.nerrors =
          L.m.parser.nerrors +
            (if (declaredPrefix L.m.parser.cargs (t.toList.drop 1)).length <
              (t.toList.drop 1).length then 1 else 0)) ∧
      (∀ i ca, carg_parse_dispatch L.state L.key L.m.parser.cargs t = Action.await i ca →
        (carg_parse_step L t).m.parser.nerrors = L.m.parser.nerrors) ∧
      (∀ k key, carg_parse_dispatch L.state L.key L.m.parser.cargs t = Action.value k key →
        (carg_parse_step L t).m.parser.nerrors = L.m.parser.nerrors)) ∧
    (∀ (parser : carg_parser_t) (slots : Slots) (pre : List String) (k : String),
      pre ≠ [] → (carg_parse_loop parser slots (pre ++ [k])).state = 1 →
      (carg_parse_loop parser slots (pre ++ [k])).m.parser.nerrors =
        (carg_parse_loop parser slots pre).m.parser.nerrors ∧
      (carg_parse parser slots (pre ++ [k])).parser.nerrors =
        (carg_parse_loop parser slots pre).m.parser.nerrors + 1 ∧
      (carg_parse parser slots (pre ++ [k])).trace =
        (carg_parse_loop parser slots (pre ++ [k])).m.trace ++
          [Event.error parser.error_handler CARG_ERROR_EXPECTED_ARGUMENT_AFTER (some k)
            none]) := by
  refine ⟨?_, ?_, ?_⟩
  · intro parser slots argv
    have hinv : ErrInv (carg_parse_loop parser slots argv) (0 + (argv.drop 1).length) :=
      errInv_foldl (argv.drop 1) (carg_parse_init parser slots) 0
        (by simp [ErrInv, carg_parse_init])
    unfold ErrInv at hinv
    rw [List.length_drop, Nat.zero_add] at hinv
    unfold carg_parse carg_parse_finish
    split
    · rename_i hs
      rw [if_pos hs] at hinv
      rw [report_nerrors]
      exact hinv
    · exact Nat.le_trans (Nat.le_add_right _ _) hinv
  · intro L t
    refine ⟨carg_parse_step_nerrors_le L t, ?_, ?_, ?_⟩
    · intro h
      unfold carg_parse_step
      rw [h]
      exact carg_parse_flags_nerrors L.m t
    · intro i ca h
      unfold carg_parse_step
      rw [h]
      rfl
    · intro k key h
      unfold carg_parse_step
      rw [h]
      simp [carg_parse_perform]
  · intro parser slots pre k hpre hs
    have heh := carg_parse_loop_error_handler parser slots (pre ++ [k])
    have harg : (carg_parse_loop parser slots (pre ++ [k])).arg = some k := by
      rw [carg_parse_loop_snoc parser slots pre k hpre, carg_parse_step_arg]
    have hn : (carg_parse_loop parser slots (pre ++ [k])).m.parser.nerrors =
        (carg_parse_loop parser slots pre).m.parser.nerrors := by
      rw [carg_parse_loop_snoc parser slots pre k hpre] at hs ⊢
      exact carg_parse_step_awaiting _ k hs
    refine ⟨hn, ?_, ?_⟩
    · unfold carg_parse carg_parse_finish
      rw [if_pos hs, report_nerrors, hn]
    · unfold carg_parse carg_parse_finish
      rw [if_pos hs, report_trace, heh, harg]

/-! ## Induction over the statements of a scan -/

/-- A property of the machine kept by the four elementary statements is kept by the
positional scanner. -/
theorem carg_parse_pos_preserves (I : Machine → Prop)
    (hw : ∀ m p v, I m → I (m.write p v)) (hi : ∀ m h i, I m → I (m.invoke h i))
    (hr : ∀ m e p1 p2, I m → I (m.report e p1 p2)) (hs : ∀ m i, I m → I (m.set_last_pos i))
    (m : Machine) (t : String) (h : I m) : I (carg_parse_pos m t) := by
  rw [carg_parse_pos_of_search]
  cases carg_parse_pos_search m with
  | found i ca => exact hi _ _ _ (hw _ _ _ (hs _ _ h))
  | sentinel i => exact hs _ _ (hr _ _ _ _ h)

theorem carg_parse_flags_loop_preserves (I : Machine → Prop)
    (hw : ∀ m p v, I m → I (m.write p v)) (hi : ∀ m h i, I m → I (m.invoke h i))
    (hr : ∀ m e p1 p2, I m → I (m.report e p1 p2))
    (arg : String) (cs : List Char) (off : Nat) (m : Machine) (h : I m) :
    I (carg_parse_flags_loop arg cs off m) := by
  induction cs generalizing off m with
  | nil => exact h
  | cons c rest ih =>
    unfold carg_parse_flags_loop
    split
    · exact ih _ _ (hi _ _ _ (hw _ _ _ h))
    · exact hr _ _ _ _ h

theorem carg_parse_perform_preserves (I : Machine → Prop)
    (hw : ∀ m p v, I m → I (m.write p v)) (hi : ∀ m h i, I m → I (m.invoke h i))
    (hr : ∀ m e p1 p2, I m → I (m.report e p1 p2)) (hs : ∀ m i, I m → I (m.set_last_pos i))
    (L : Loop) (t : String) (a : Action) (h : I L.m) : I (carg_parse_perform L t a).m := by
  cases a with
  | set i ca => exact hi _ _ _ (hw _ _ _ h)
  | await i ca => exact h
  | clear i ca => exact hi _ _ _ (hw _ _ _ h)
  | positional_only => exact h
  | invalid_argument => exact hr _ _ _ _ h
  | flags => exact carg_parse_flags_loop_preserves I hw hi hr _ _ _ _ h
  | pos => exact carg_parse_pos_preserves I hw hi hr hs _ _ h
  | value k key => exact hi _ _ _ (hw _ _ _ h)
  | skip => exact h

theorem carg_parse_preserves (I : Machine → Prop)
    (hw : ∀ m p v, I m → I (m.write p v)) (hi : ∀ m h i, I m → I (m.invoke h i))
    (hr : ∀ m e p1 p2, I m → I (m.report e p1 p2)) (hs : ∀ m i, I m → I (m.set_last_pos i))
    (parser : carg_parser_t) (slots : Slots) (argv : List String)
    (h : I (carg_parse_init parser slots).m) : I (carg_parse parser slots argv) := by
  have hloop : ∀ (ts : List String) (L : Loop), I L.m → I (ts.foldl carg_parse_step L).m := by
    intro ts
    induction ts with
    | nil => intro L hL; exact hL
    | cons t rest ih =>
      intro L hL
      exact ih _ (carg_parse_perform_preserves I hw hi hr hs { L with arg := some t } t _ hL)
  have := hloop (argv.drop 1) _ h
  unfold carg_parse carg_parse_finish
  split
  · exact hr _ _ _ _ this
  · exact this

/-! ## The scan never reads a slot -/

theorem applyWrites_append (t1 t2 : List Event) (s0 : Slots) :
    applyWrites (t1 ++ t2) s0 = applyWrites t2 (applyWrites t1 s0) := by
  unfold applyWrites
  rw [List.foldl_append]

theorem tracks_carg_parse (parser : carg_parser_t) (slots : Slots) (argv : List String) :
    Tracks slots (carg_parse parser slots argv) := by
  apply carg_parse_preserves (Tracks slots)
  · intro m p v h
    unfold Tracks at h ⊢
    cases p with
    | none => exact h
    | some a =>
      rw [write_trace, applyWrites_append, ← h]
      rfl
  · intro m hd i h
    unfold Tracks at h ⊢
    cases hd with
    | none => exact h
    | some f =>
      rw [invoke_trace, applyWrites_append, ← h, invoke_slots]
      rfl
  · intro m e p1 p2 h
    unfold Tracks at h ⊢
    rw [report_trace, applyWrites_append, ← h]
    rfl
  · intro m i h
    exact h
  · rfl

theorem applyWrites_lastWrite (tr : List Event) (s0 : Slots) (b : Nat) :
    applyWrites tr s0 b = (lastWrite b tr).getD (s0 b) := by
  induction tr generalizing s0 with
  | nil => rfl
  | cons ev rest ih =>
    have hstep : applyWrites (ev :: rest) s0 = applyWrites rest (applyEvent s0 ev) := rfl
    rw [hstep, ih]
    cases ev with
    | write a v =>
      simp only [lastWrite]
      cases lastWrite b rest with
      | some w => rfl
      | none =>
        by_cases hb : b = a
        · simp [applyEvent, hb]
        · simp [applyEvent, hb]
    | call fn ca => rfl
    | error fn e p1 p2 => rfl

theorem applyWrites_idem (tr : List Event) (s0 : Slots) :
    applyWrites tr (applyWrites tr s0) = applyWrites tr s0 := by
  funext b
  rw [applyWrites_lastWrite tr (applyWrites tr s0) b, applyWrites_lastWrite tr s0 b]
  cases lastWrite b tr <;> rfl

theorem simT_write {m1 m2 : Machine} (h : SimT m1 m2) (p : Option Nat) (v : Option String) :
    SimT (m1.write p v) (m2.write p v) := by
  obtain ⟨h1, h2⟩ := h
  exact ⟨by simpa using h1, by simp [h2]⟩

theorem simT_invoke {m1 m2 : Machine} (h : SimT m1 m2) (hd : Option Nat) (i : Nat) :
    SimT (m1.invoke hd i) (m2.invoke hd i) := by
  obtain ⟨h1, h2⟩ := h
  exact ⟨by simpa using h1, by simp [h2]⟩

theorem simT_report {m1 m2 : Machine} (h : SimT m1 m2) (e : carg_error)
    (p1 : Option String) (p2 : Option Nat) : SimT (m1.report e p1 p2) (m2.report e p1 p2) := by
  obtain ⟨h1, h2⟩ := h
  exact ⟨by simp [Machine.report, h1], by simp [h1, h2]⟩

theorem simT_set_last_pos {m1 m2 : Machine} (h : SimT m1 m2) (i : Nat) :
    SimT (m1.set_last_pos i) (m2.set_last_pos i) := by
  obtain ⟨h1, h2⟩ := h
  exact ⟨by simp [Machine.set_last_pos, h1], h2⟩

theorem simT_carg_parse_pos {m1 m2 : Machine} (h : SimT m1 m2) (t : String) :
    SimT (carg_parse_pos m1 t) (carg_parse_pos m2 t) := by
  have hs : carg_parse_pos_search m1 = carg_parse_pos_search m2 := by
    unfold carg_parse_pos_search
    rw [h.1]
  rw [carg_parse_pos_of_search, carg_parse_pos_of_search, hs]
  cases carg_parse_pos_search m2 with
  | found i ca => exact simT_invoke (simT_write (simT_set_last_pos h i) _ _) _ _
  | sentinel i => exact simT_set_last_pos (simT_report h _ _ _) i

theorem simT_carg_parse_flags_loop (arg : String) (cs : List Char) (off : Nat)
    {m1 m2 : Machine} (h : SimT m1 m2) :
    SimT (carg_parse_flags_loop arg cs off m1) (carg_parse_flags_loop arg cs off m2) := by
  induction cs generalizing off m1 m2 with
  | nil => exact h
  | cons c rest ih =>
    unfold carg_parse_flags_loop
    rw [h.1]
    cases carg_parse_flags_find c m2.parser.cargs 0 with
    | found i ca => exact ih _ (simT_invoke (simT_write h _ _) _ _)
    | sentinel i => exact simT_report h _ _ _

theorem simT_carg_parse_perform {L1 L2 : Loop} (h : LoopSimT L1 L2) (t : String)
    (a : Action) : LoopSimT (carg_parse_perform L1 t a) (carg_parse_perform L2 t a) := by
  obtain ⟨h1, h2, h3, h4⟩ := h
  cases a with
  | set i ca => exact ⟨h1, h2, h3, simT_invoke (simT_write h4 _ _) _ _⟩
  | await i ca => exact ⟨rfl, rfl, h3, h4⟩
  | clear i ca => exact ⟨h1, h2, h3, simT_invoke (simT_write h4 _ _) _ _⟩
  | positional_only => exact ⟨rfl, h2, h3, h4⟩
  | invalid_argument => exact ⟨h1, h2, h3, simT_report h4 _ _ _⟩
  | flags => exact ⟨h1, h2, h3, simT_carg_parse_flags_loop _ _ _ h4⟩
  | pos => exact ⟨h1, h2, h3, simT_carg_parse_pos h4 _⟩
  | value k key => exact ⟨rfl, h2, h3, simT_invoke (simT_write h4 _ _) _ _⟩
  | skip => exact ⟨h1, h2, h3, h4⟩

theorem simT_carg_parse_step {L1 L2 : Loop} (h : LoopSimT L1 L2) (t : String) :
    LoopSimT (carg_parse_step L1 t) (carg_parse_step L2 t) := by
  have hd : carg_parse_dispatch L1.state L1.key L1.m.parser.cargs t =
      carg_parse_dispatch L2.state L2.key L2.m.parser.cargs t := by
    rw [h.1, h.2.1, h.2.2.2.1]
  have hs : LoopSimT { L1 with arg := some t } { L2 with arg := some t } :=
    ⟨h.1, h.2.1, rfl, h.2.2.2⟩
  unfold carg_parse_step
  rw [hd]
  exact simT_carg_parse_perform hs t _

theorem simT_carg_parse_loop (parser : carg_parser_t) (s1 s2 : Slots) (argv : List String) :
    LoopSimT (carg_parse_loop parser s1 argv) (carg_parse_loop parser s2 argv) := by
  have hfold : ∀ (ts : List String) (L1 L2 : Loop), LoopSimT L1 L2 →
      LoopSimT (ts.foldl carg_parse_step L1) (ts.foldl carg_parse_step L2) := by
    intro ts
    induction ts with
    | nil => intro L1 L2 h; exact h
    | cons t rest ih => intro L1 L2 h; exact ih _ _ (simT_carg_parse_step h t)
  exact hfold _ _ _ ⟨rfl, rfl, rfl, rfl, rfl⟩

theorem simT_carg_parse (parser : carg_parser_t) (s1 s2 : Slots) (argv : List String) :
    SimT (carg_parse parser s1 argv) (carg_parse parser s2 argv) := by
  have h := simT_carg_parse_loop parser s1 s2 argv
  unfold carg_parse carg_parse_finish
  rw [h.1, h.2.2.1]
  split
  · exact simT_report h.2.2.2 _ _ _
  · exact h.2.2.2

theorem machine_ext (m1 m2 : Machine) (hp : m1.parser = m2.parser) (hs : m1.slots = m2.slots)
    (ht : m1.trace = m2.trace) : m1 = m2 := by
  obtain ⟨p1, s1, t1⟩ := m1
  obtain ⟨p2, s2, t2⟩ := m2
  simp only at hp hs ht
  rw [hp, hs, ht]

/-- C18. Scanning is idempotent on the slots (handlers being taken not to modify the table
or the slots). (1) Scanning the same arguments again, with the parser object and the slots
left by a first scan, gives the very result of the first scan: the same slots, the same
error count, the same events. (2) No decision of the scanner depends on the content of a
slot: from any two initial slot memories the scan ends with the same parser object (error
count, cursor), the same events and the same loop state; (3) and the final slots are the
initial ones overwritten by the stores recorded in the trace. -/
theorem scanning_idempotent (parser : carg_parser_t) (slots : Slots) (argv : List String) :
    carg_parse (carg_parse parser slots argv).parser (carg_parse parser slots argv).slots argv =
      carg_parse parser slots argv ∧
    (∀ s2 : Slots,
      (carg_parse parser s2 argv).parser = (carg_parse parser slots argv).parser ∧
      (carg_parse parser s2 argv).trace = (carg_parse parser slots argv).trace ∧
      (carg_parse_loop parser s2 argv).state = (carg_parse_loop parser slots argv).state) ∧
    (carg_parse parser slots argv).slots =
      applyWrites (carg_parse parser slots argv).trace slots := by
  have hind : ∀ s2 : Slots, SimT (carg_parse parser s2 argv) (carg_parse parser slots argv) :=
    fun s2 => simT_carg_parse parser s2 slots argv
  have hfresh : ∀ s2 : Slots,
      carg_parse (carg_parse parser slots argv).parser s2 argv = carg_parse parser s2 argv := by
    intro s2
    have hc := carg_parse_cargs parser slots argv
    have he := carg_parse_error_handler parser slots argv
    have key : ∀ p q : carg_parser_t, p.cargs = q.cargs → p.error_handler = q.error_handler →
        carg_parse p s2 argv = carg_parse q s2 argv := by
      intro p q h1 h2
      obtain ⟨c1, e1, n1, l1⟩ := p
      obtain ⟨c2, e2, n2, l2⟩ := q
      simp only at h1 h2
      subst h1; subst h2
      rfl
    exact key _ _ hc he
  refine ⟨?_, ?_, tracks_carg_parse parser slots argv⟩
  · rw [hfresh]
    apply machine_ext
    · exact (hind _).1
    · have h1 := tracks_carg_parse parser (carg_parse parser slots argv).slots argv
      have h2 := tracks_carg_parse parser slots argv
      unfold Tracks at h1 h2
      rw [h1, (hind _).2]
      conv_lhs => rw [h2]
      rw [applyWrites_idem]
      exact h2.symm
    · exact (hind _).2
  · intro s2
    exact ⟨(hind s2).1, (hind s2).2, (simT_carg_parse_loop parser s2 slots argv).1⟩

theorem at_most_one_error_per_token_witness :
    (carg_parse_loop scenario_setup null_slots (["prog", "--bad"] ++ ["--key"])).m.parser.nerrors =
      (carg_parse_loop scenario_setup null_slots ["prog", "--bad"]).m.parser.nerrors ∧
    (carg_parse scenario_setup null_slots (["prog", "--bad"] ++ ["--key"])).parser.nerrors =
      (carg_parse_loop scenario_setup null_slots ["prog", "--bad"]).m.parser.nerrors + 1 :=
  ⟨(at_most_one_error_per_token.2.2 scenario_setup null_slots ["prog", "--bad"] "--key"
      (by decide)
      (by simp [carg_parse_loop, carg_parse_init, carg_parse_step, carg_parse_dispatch,
        carg_parse_match, scenario_setup, scenario_cargs, carg.mk0, carg_parse_perform,
        carg_parse_unmatched])).1,
    (at_most_one_error_per_token.2.2 scenario_setup null_slots ["prog", "--bad"] "--key"
      (by decide)
      (by simp [carg_parse_loop, carg_parse_init, carg_parse_step, carg_parse_dispatch,
        carg_parse_match, scenario_setup, scenario_cargs, carg.mk0, carg_parse_perform,
        carg_parse_unmatched])).2.1⟩

/-! ## The lone dash and the empty token -/

theorem carg_parse_unmatched_dash : carg_parse_unmatched "-" = Action.pos := by
  simp [carg_parse_unmatched]

theorem carg_parse_unmatched_empty : carg_parse_unmatched "" = Action.pos := by
  simp [carg_parse_unmatched]

/-- C19. Let the token `t` be the lone dash `-` or the empty string, read in the default
state and matching no declared descriptor by name or negation. Then the branch taken is the
positional one (not the flag cluster one, not the switch to positional-only, not the
invalid-argument one): the machine after `t` is the one the positional scanner gives, the
state stays the default one, and the only error site that `t` can add is an
`UnexpectedArgument` one. When the search of the positional scanner finds a descriptor,
this descriptor is a declared positional one, its slot (if any) receives `t` and the error
count is unchanged; in a table whose positional descriptors all have slots this is the
case as long as fewer tokens have been routed to the scanner than there are positional
descriptors, the descriptor being the next unused one. -/
theorem dash_and_empty_are_positional (parser : carg_parser_t) (slots : Slots)
    (pre : List String) (t : String)
    (hpre : pre ≠ [])
    (hstate : (carg_parse_loop parser slots pre).state = 0)
    (hno : NoMatch parser.cargs t)
    (ht : t = "-" ∨ t = "") :
    carg_parse_dispatch (carg_parse_loop parser slots pre).state
      (carg_parse_loop parser slots pre).key parser.cargs t = Action.pos ∧
    (carg_parse_loop parser slots (pre ++ [t])).m =
      carg_parse_pos (carg_parse_loop parser slots pre).m t ∧
    (carg_parse_loop parser slots (pre ++ [t])).state = 0 ∧
    (∃ evs : List Event,
      (carg_parse_loop parser slots (pre ++ [t])).m.trace =
        (carg_parse_loop parser slots pre).m.trace ++ evs ∧
      ∀ ev ∈ evs, Event.isError ev = true →
        Event.isErrorOf CARG_ERROR_UNEXPECTED_ARGUMENT ev = true) ∧
    (∀ (i : Nat) (ca : carg),
      carg_parse_pos_search (carg_parse_loop parser slots pre).m = Scan.found i ca →
      (entries parser.cargs)[i]? = some ca ∧ ca.type = CARG_POS ∧
      (carg_parse_loop parser slots (pre ++ [t])).m.parser.nerrors =
        (carg_parse_loop parser slots pre).m.parser.nerrors ∧
      ∀ a, ca.value = some a →
        (carg_parse_loop parser slots (pre ++ [t])).m.slots a = some t) ∧
    ((∀ p ∈ positionals parser.cargs, p.2.value ≠ none) →
      ∀ p, (positionals parser.cargs)[(routed parser slots pre).length]? = some p →
        carg_parse_pos_search (carg_parse_loop parser slots pre).m =
          Scan.found p.1 p.2) := by
  have hc := carg_parse_loop_cargs parser slots pre
  have hd : carg_parse_dispatch (carg_parse_loop parser slots pre).state
      (carg_parse_loop parser slots pre).key parser.cargs t = Action.pos := by
    rw [hstate, carg_parse_dispatch_nomatch _ _ t hno]
    rcases ht with rfl | rfl
    · exact carg_parse_unmatched_dash
    · exact carg_parse_unmatched_empty
  have hd2 : carg_parse_dispatch (carg_parse_loop parser slots pre).state
      (carg_parse_loop parser slots pre).key
      (carg_parse_loop parser slots pre).m.parser.cargs t = Action.pos := by
    rw [hc]; exact hd
  have hm : (carg_parse_loop parser slots (pre ++ [t])).m =
      carg_parse_pos (carg_parse_loop parser slots pre).m t := by
    rw [carg_parse_loop_snoc parser slots pre t hpre, carg_parse_step_pos _ t hd2]
  refine ⟨hd, hm, ?_, ?_, ?_, ?_⟩
  · rw [carg_parse_loop_snoc parser slots pre t hpre]
    unfold carg_parse_step
    rw [hd2]
    exact hstate
  · rw [hm]
    obtain ⟨evs, h1, _, h3⟩ := carg_parse_pos_events (carg_parse_loop parser slots pre).m t
    exact ⟨evs, h1, h3⟩
  · intro i ca hs
    have hcur := carg_parse_loop_cursorOK parser slots pre
    obtain ⟨hget, hty⟩ := carg_parse_pos_search_found _ hcur i ca hs
    rw [hc] at hget
    refine ⟨hget, hty, ?_, ?_⟩
    · rw [hm, carg_parse_pos_nerrors, hs]
      rfl
    · intro a ha
      rw [hm, carg_parse_pos_of_search, hs]
      simp [write_slots, ha]
  · intro hslots p hp
    have hl := posInvG_loop parser slots pre
    have hl2 : (carg_parse_loop parser slots pre).m.parser.last_pos =
        cursorG (carg_parse_loop parser slots pre).m.parser.cargs
          (routed parser slots pre).length := by
      rw [hc]; exact hl
    rw [carg_parse_pos_search_general _ _ hl2, hc]
    have := scanAt_of_slots parser.cargs hslots (routed parser slots pre).length
    unfold scanAt at this
    rw [this, hp]

theorem dash_and_empty_are_positional_witness :
    carg_parse_dispatch (carg_parse_loop scenario_setup null_slots ["prog"]).state
      (carg_parse_loop scenario_setup null_slots ["prog"]).key scenario_setup.cargs "-" =
        Action.pos ∧
    (carg_parse_loop scenario_setup null_slots (["prog"] ++ ["-"])).state = 0 :=
  ⟨(dash_and_empty_are_positional scenario_setup null_slots ["prog"] "-" (by decide) rfl
      (by decide) (Or.inl rfl)).1,
    (dash_and_empty_are_positional scenario_setup null_slots ["prog"] "-" (by decide) rfl
      (by decide) (Or.inl rfl)).2.2.1⟩

/-! ## An error never stops the scan -/

theorem carg_parse_dispatch_not_skip (L : Loop) (cargs : List carg) (t : String)
    (h : StateOK L) : carg_parse_dispatch L.state L.key cargs t ≠ Action.skip := by
  rcases h with h0 | h2 | ⟨h1, k, K, hk⟩
  · rw [h0]
    rcases carg_parse_dispatch_default L.key cargs t with ⟨_, hd⟩ | ⟨i, D, _, _, _, hd⟩ |
      ⟨i, D, _, _, _, hd⟩ | ⟨i, D, _, _, _, hd⟩
    · rw [hd]
      rcases carg_parse_unmatched_cases t with h3 | h3 | h3 | h3 <;> rw [h3] <;> simp
    · rw [hd]; simp
    · rw [hd]; simp
    · rw [hd]; simp
  · rw [h2]; simp [carg_parse_dispatch]
  · rw [h1, hk]; simp [carg_parse_dispatch]

theorem stateOK_step (L : Loop) (t : String) (h : StateOK L) :
    StateOK (carg_parse_step L t) := by
  unfold carg_parse_step
  rcases h with h0 | h2 | ⟨h1, k, K, hk⟩
  · rw [h0]
    rcases carg_parse_dispatch_default L.key L.m.parser.cargs t with ⟨_, hd⟩ |
      ⟨i, D, _, _, _, hd⟩ | ⟨i, D, _, _, _, hd⟩ | ⟨i, D, _, _, _, hd⟩
    · rw [hd]
      rcases carg_parse_unmatched_cases t with h3 | h3 | h3 | h3 <;> rw [h3]
      · exact Or.inr (Or.inl rfl)
      · exact Or.inl rfl
      · exact Or.inl rfl
      · exact Or.inl rfl
    · rw [hd]; exact Or.inl rfl
    · rw [hd]; exact Or.inr (Or.inr ⟨rfl, i, D, rfl⟩)
    · rw [hd]; exact Or.inl rfl
  · rw [h2]
    exact Or.inr (Or.inl rfl)
  · rw [h1, hk]
    exact Or.inl rfl

theorem stateOK_foldl (ts : List String) (L : Loop) (h : StateOK L) :
    StateOK (ts.foldl carg_parse_step L) := by
  induction ts generalizing L with
  | nil => exact h
  | cons t rest ih => exact ih _ (stateOK_step L t h)

theorem stateOK_carg_parse_loop (parser : carg_parser_t) (slots : Slots)
    (argv : List String) : StateOK (carg_parse_loop parser slots argv) :=
  stateOK_foldl _ _ (Or.inl rfl)

/-- An iteration that counts an error leaves `state` and `key` as they were, and was not
made while a keyword value was awaited. -/
theorem carg_parse_step_error_state (L : Loop) (t : String)
    (h : (carg_parse_step L t).m.parser.nerrors ≠ L.m.parser.nerrors) :
    (carg_parse_step L t).state = L.state ∧ (carg_parse_step L t).key = L.key ∧
      L.state ≠ 1 := by
  have hn := carg_parse_perform_nerrors { L with arg := some t } t
    (carg_parse_dispatch L.state L.key L.m.parser.cargs t)
  have h1 : L.state ≠ 1 := by
    intro h1
    apply h
    have hs : (carg_parse_step L t).state ≠ 1 ∨ (carg_parse_step L t).state = 1 := by omega
    unfold carg_parse_step at hs ⊢
    rw [h1] at hs ⊢
    cases hk : L.key with
    | none => simp [carg_parse_dispatch, carg_parse_perform]
    | some kk => simp [carg_parse_dispatch, carg_parse_perform]
  refine ⟨?_, ?_, h1⟩
  · unfold carg_parse_step at h hn ⊢
    cases ha : carg_parse_dispatch L.state L.key L.m.parser.cargs t with
    | set i ca => rfl
    | await i ca => rw [ha] at hn h; exact absurd hn h
    | clear i ca => rfl
    | positional_only => rw [ha] at hn h; exact absurd hn h
    | invalid_argument => rfl
    | flags => rfl
    | pos => rfl
    | value k key => rw [ha] at hn h; exact absurd hn h
    | skip => rfl
  · unfold carg_parse_step at h hn ⊢
    cases ha : carg_parse_dispatch L.state L.key L.m.parser.cargs t with
    | set i ca => rfl
    | await i ca => rw [ha] at hn h; exact absurd hn h
    | clear i ca => rfl
    | positional_only => rfl
    | invalid_argument => rfl
    | flags => rfl
    | pos => rfl
    | value k key => rfl
    | skip => rfl


/-- C8. The error counter is unconditional and complete. (1) The final error count (and
the slots) of a scan do not depend on the error handler, present or absent, nor on the
former fields of the parser object. (2) The final count is the number of error sites of the
scan; with a handler present it is the number of invocations of the handler, and without
one there is no invocation. (3) The counter never decreases along the token loop nor in
the final check. (4) An error never stops the scan: after every prefix of the arguments the
dispatcher is in one of the three states of the `switch` (0, 1 or 2) and the next token,
whatever it is, takes one of its branches (it is never skipped); and a token `t` on which
an error is counted leaves `state` and `key` as they were (default or positional only), so
that every following token is dispatched exactly as if it came right after `pre`. -/
theorem error_counter_unconditional :
    (∀ (cargs : List carg) (eh1 eh2 : Option Nat) (n1 n2 : Nat) (lp1 lp2 : Option Nat)
        (slots : Slots) (argv : List String),
      (carg_parse ⟨cargs, eh1, n1, lp1⟩ slots argv).parser.nerrors =
        (carg_parse ⟨cargs, eh2, n2, lp2⟩ slots argv).parser.nerrors ∧
      (carg_parse ⟨cargs, eh1, n1, lp1⟩ slots argv).slots =
        (carg_parse ⟨cargs, eh2, n2, lp2⟩ slots argv).slots) ∧
    (∀ (parser : carg_parser_t) (slots : Slots) (argv : List String),
      (carg_parse parser slots argv).parser.nerrors =
        ((carg_parse parser slots argv).trace.filter Event.isError).length ∧
      (∀ f, parser.error_handler = some f →
        (carg_parse parser slots argv).parser.nerrors =
          ((carg_parse parser slots argv).trace.filter Event.isInvocation).length) ∧
      (parser.error_handler = none →
        (carg_parse parser slots argv).trace.filter Event.isInvocation = [])) ∧
    (∀ (parser : carg_parser_t) (slots : Slots) (pre post : List String),
      (carg_parse_loop parser slots pre).m.parser.nerrors ≤
        (carg_parse_loop parser slots (pre ++ post)).m.parser.nerrors ∧
      (carg_parse_loop parser slots pre).m.parser.nerrors ≤
        (carg_parse parser slots pre).parser.nerrors) ∧
    (∀ (parser : carg_parser_t) (slots : Slots) (pre : List String) (t : String),
      ((carg_parse_loop parser slots pre).state = 0 ∨
        (carg_parse_loop parser slots pre).state = 1 ∨
        (carg_parse_loop parser slots pre).state = 2) ∧
      carg_parse_dispatch (carg_parse_loop parser slots pre).state
        (carg_parse_loop parser slots pre).key parser.cargs t ≠ Action.skip ∧
      (pre ≠ [] →
        (carg_parse_loop parser slots (pre ++ [t])).m.parser.nerrors ≠
          (carg_parse_loop parser slots pre).m.parser.nerrors →
        ((carg_parse_loop parser slots pre).state = 0 ∨
          (carg_parse_loop parser slots pre).state = 2) ∧
        (carg_parse_loop parser slots (pre ++ [t])).state =
          (carg_parse_loop parser slots pre).state ∧
        (carg_parse_loop parser slots (pre ++ [t])).key =
          (carg_parse_loop parser slots pre).key ∧
        ∀ u : String,
          carg_parse_dispatch (carg_parse_loop parser slots (pre ++ [t])).state
            (carg_parse_loop parser slots (pre ++ [t])).key parser.cargs u =
          carg_parse_dispatch (carg_parse_loop parser slots pre).state
            (carg_parse_loop parser slots pre).key parser.cargs u)) := by
  refine ⟨?_, ?_, ?_, ?_⟩
  · intro cargs eh1 eh2 n1 n2 lp1 lp2 slots argv
    have h := sim_carg_parse cargs eh1 eh2 n1 n2 lp1 lp2 slots argv
    exact ⟨h.2.1, h.2.2.2⟩
  · intro parser slots argv
    obtain ⟨h1, h2⟩ := carg_parse_error_sites parser slots argv
    refine ⟨h1, ?_, ?_⟩
    · intro f hf
      rw [h1, filter_isInvocation f]
      intro ev hev fn e p1 p2 heq
      rw [← hf]
      exact h2 ev hev fn e p1 p2 heq
    · intro hn
      apply filter_isInvocation_none
      intro ev hev fn e p1 p2 heq
      rw [← hn]
      exact h2 ev hev fn e p1 p2 heq
  · intro parser slots pre post
    refine ⟨?_, ?_⟩
    · cases pre with
      | nil =>
        simp only [carg_parse_loop, List.drop_nil, List.foldl_nil, carg_parse_init]
        exact Nat.zero_le _
      | cons a rest =>
        rw [carg_parse_loop_append parser slots (a :: rest) post (by simp)]
        obtain ⟨_, _, evs, _, hn, _, _⟩ :=
          extends_foldl_step post (carg_parse_loop parser slots (a :: rest))
        rw [hn]
        exact Nat.le_add_right _ _
    · unfold carg_parse carg_parse_finish
      split
      · rw [report_nerrors]; exact Nat.le_succ _
      · exact Nat.le_refl _
  · intro parser slots pre t
    have hok := stateOK_carg_parse_loop parser slots pre
    refine ⟨?_, carg_parse_dispatch_not_skip _ parser.cargs t hok, ?_⟩
    · rcases hok with h | h | ⟨h, _⟩
      · exact Or.inl h
      · exact Or.inr (Or.inr h)
      · exact Or.inr (Or.inl h)
    · intro hpre herr
      rw [carg_parse_loop_snoc parser slots pre t hpre] at herr ⊢
      obtain ⟨h1, h2, h3⟩ := carg_parse_step_error_state _ t herr
      refine ⟨?_, h1, h2, ?_⟩
      · rcases hok with h | h | ⟨h, _⟩
        · exact Or.inl h
        · exact Or.inr h
        · exact absurd h h3
      · intro u
        rw [h1, h2]

theorem error_counter_unconditional_witness :
    (["prog"] : List String) ≠ [] ∧
    (carg_parse_loop scenario_setup null_slots (["prog"] ++ ["--bad"])).m.parser.nerrors ≠
      (carg_parse_loop scenario_setup null_slots ["prog"]).m.parser.nerrors ∧
    (carg_parse_loop scenario_setup null_slots (["prog"] ++ ["--bad"])).state =
      (carg_parse_loop scenario_setup null_slots ["prog"]).state ∧
    carg_parse_dispatch (carg_parse_loop scenario_setup null_slots (["prog"] ++ ["--bad"])).state
      (carg_parse_loop scenario_setup null_slots (["prog"] ++ ["--bad"])).key
      scenario_setup.cargs "--foo" =
    carg_parse_dispatch (carg_parse_loop scenario_setup null_slots ["prog"]).state
      (carg_parse_loop scenario_setup null_slots ["prog"]).key scenario_setup.cargs "--foo" := by
  have hpre : (["prog"] : List String) ≠ [] := by decide
  have herr :
      (carg_parse_loop scenario_setup null_slots (["prog"] ++ ["--bad"])).m.parser.nerrors ≠
        (carg_parse_loop scenario_setup null_slots ["prog"]).m.parser.nerrors := by
    simp [carg_parse_loop, carg_parse_init, carg_parse_step, carg_parse_dispatch,
      carg_parse_match, scenario_setup, scenario_cargs, carg.mk0, carg_parse_perform,
      carg_parse_unmatched, Machine.report]
  have h := (error_counter_unconditional.2.2.2 scenario_setup null_slots ["prog"] "--bad").2.2
    hpre herr
  exact ⟨hpre, herr, h.2.1, h.2.2.2 "--foo"⟩

/-! ## Provenance of the slot values -/

theorem mem_write_block {a : Nat} {w : Option String} {p : Option Nat} {v : Option String}
    {h : Option Nat} {i : Nat}
    (hmem : Event.write a w ∈ writeEvents p v ++ callEvents h i) : p = some a ∧ w = v := by
  rcases List.mem_append.mp hmem with h1 | h1
  · cases p with
    | none => simp [writeEvents] at h1
    | some a2 =>
      simp only [writeEvents, List.mem_singleton, Event.write.injEq] at h1
      exact ⟨by rw [h1.1], h1.2⟩
  · cases h with
    | none => simp [callEvents] at h1
    | some f => simp [callEvents] at h1

theorem mem_write_flagEvents {cargs : List carg} {t : String} {cs : List Char} {a : Nat}
    {w : Option String} (hmem : Event.write a w ∈ cs.flatMap (flagEvents cargs t)) :
    ∃ c ∈ cs, ∃ D, flagEntry cargs c = some D ∧ D.value = some a ∧ w = some t := by
  rw [List.mem_flatMap] at hmem
  obtain ⟨c, hc, hev⟩ := hmem
  unfold flagEvents at hev
  cases hfe : flagEntry cargs c with
  | none => rw [hfe] at hev; simp at hev
  | some D =>
    rw [hfe] at hev
    obtain ⟨h1, h2⟩ := mem_write_block hev
    exact ⟨c, hc, D, hfe, h1, h2⟩

theorem carg_parse_unmatched_flags_inv (t : String)
    (h : carg_parse_unmatched t = Action.flags) :
    ∃ c1 rest, t.toList = '-' :: c1 :: rest ∧ c1 ≠ '-' := by
  unfold carg_parse_unmatched at h
  split at h
  · rename_i c0 c1 rest heq
    split at h
    · rename_i h0
      split at h
      · split at h <;> cases h
      · rename_i h1
        exact ⟨c1, rest, by rw [heq, h0], h1⟩
    · cases h
  · cases h

theorem matchedAt_mono {parser : carg_parser_t} {slots : Slots} {pre : List String}
    {i : Nat} {t : String} {E : carg} {v : Option String} (more : List String)
    (h : MatchedAt parser slots pre i t E v) :
    MatchedAt parser slots (pre ++ more) i t E v := by
  obtain ⟨h1, h2, h3, h4⟩ := h
  have hlt : i < pre.length := by
    by_contra hge
    rw [List.getElem?_eq_none (Nat.le_of_not_lt hge)] at h2
    cases h2
  refine ⟨h1, ?_, h3, ?_⟩
  · rw [List.getElem?_append_left hlt]
    exact h2
  · rw [List.take_append_of_le_length (Nat.le_of_lt hlt)]
    exact h4

theorem matchedAt_last {parser : carg_parser_t} {slots : Slots} {pre : List String}
    {t : String} {E : carg} {v : Option String} (hpre : pre ≠ [])
    (hE : E ∈ entries parser.cargs) (h : MatchedNow parser slots pre t E v) :
    MatchedAt parser slots (pre ++ [t]) pre.length t E v := by
  refine ⟨?_, ?_, hE, ?_⟩
  · cases pre with
    | nil => exact absurd rfl hpre
    | cons x xs => simp
  · simp
  · rw [List.take_left]
    exact h


/-- The stores made by one iteration of the token loop are those of the matches of its
token. -/
theorem matchInv_snoc (parser : carg_parser_t) (slots : Slots) (pre : List String)
    (t : String) (hpre : pre ≠ []) (h : MatchInv parser slots pre) :
    MatchInv parser slots (pre ++ [t]) := by
  obtain ⟨hw, hst⟩ := h
  have hc := carg_parse_loop_cargs parser slots pre
  have hcur := carg_parse_loop_cursorOK parser slots pre
  have hold : ∀ a v, Event.write a v ∈ (carg_parse_loop parser slots pre).m.trace →
      ∃ i t2 E, MatchedAt parser slots (pre ++ [t]) i t2 E v ∧ E.value = some a := by
    intro a v hm
    obtain ⟨i, t2, E, hM, hv⟩ := hw a v hm
    exact ⟨i, t2, E, matchedAt_mono [t] hM, hv⟩
  have hblock : ∀ (D : carg) (v : Option String) (hd : Option Nat) (i : Nat),
      D ∈ entries parser.cargs → MatchedNow parser slots pre t D v →
      ∀ a w, Event.write a w ∈ (carg_parse_loop parser slots pre).m.trace ++
          (writeEvents D.value v ++ callEvents hd i) →
        ∃ i t2 E, MatchedAt parser slots (pre ++ [t]) i t2 E w ∧ E.value = some a := by
    intro D v hd i hD hp a w hm
    rcases List.mem_append.mp hm with h1 | h1
    · exact hold a w h1
    · obtain ⟨h2, h3⟩ := mem_write_block h1
      rw [h3]
      exact ⟨pre.length, t, D, matchedAt_last hpre hD hp, h2⟩
  unfold MatchInv
  rw [carg_parse_loop_snoc parser slots pre t hpre]
  unfold carg_parse_step
  rw [hc]
  rcases carg_parse_dispatch_state_cases (carg_parse_loop parser slots pre).state
      (carg_parse_loop parser slots pre).key parser.cargs t with
    h0 | ⟨hne, ⟨k, K, hv⟩ | hs | ⟨h2, hp⟩⟩
  · rw [h0]
    rcases carg_parse_dispatch_default (carg_parse_loop parser slots pre).key parser.cargs t
      with ⟨hno, hd⟩ | ⟨i, D, hf, hn, hty, hd⟩ | ⟨i, D, hf, hn, hty, hd⟩ |
        ⟨i, D, hf, hn, hneg, hd⟩
    · rw [hd]
      rcases carg_parse_unmatched_cases t with h3 | h3 | h3 | h3
      · rw [h3]
        exact ⟨hold, fun h => by simp [carg_parse_perform] at h⟩
      · rw [h3]
        refine ⟨?_, fun h => by simp [carg_parse_perform] at h⟩
        intro a w hm
        simp only [carg_parse_perform, report_trace, List.mem_append, List.mem_singleton] at hm
        rcases hm with h4 | h4
        · exact hold a w h4
        · cases h4
      · rw [h3]
        refine ⟨?_, fun h => by simp [carg_parse_perform] at h⟩
        obtain ⟨c1, rest, htok, hc1⟩ := carg_parse_unmatched_flags_inv t h3
        intro a w hm
        simp only [carg_parse_perform, carg_parse_flags, htok, List.drop_succ_cons,
          List.drop_zero] at hm
        rw [(carg_parse_flags_loop_spec t (c1 :: rest) 1
          (carg_parse_loop parser slots pre).m).2.2.1, hc] at hm
        rcases List.mem_append.mp hm with h4 | h4
        · rcases List.mem_append.mp h4 with h5 | h5
          · exact hold a w h5
          · obtain ⟨c, hcmem, D, hD, hval, hwv⟩ := mem_write_flagEvents h5
            obtain ⟨hDmem, hDf⟩ := flagEntry_some hD
            rw [hwv]
            refine ⟨pre.length, t, D, matchedAt_last hpre hDmem ?_, hval⟩
            exact Or.inr (Or.inr (Or.inr (Or.inl
              ⟨h0, hno, hDf.1, ⟨c1, rest, htok, hc1, c, hcmem, hD⟩, rfl⟩)))
        · split at h4
          · simp at h4
          · simp at h4
      · rw [h3]
        refine ⟨?_, fun h => by simp [carg_parse_perform] at h⟩
        intro a w hm
        simp only [carg_parse_perform] at hm
        rw [carg_parse_pos_of_search] at hm
        cases hsr : carg_parse_pos_search (carg_parse_loop parser slots pre).m with
        | found q P =>
          rw [hsr] at hm
          simp only [invoke_trace, write_trace, set_last_pos_trace, List.append_assoc] at hm
          obtain ⟨hget, hPt⟩ := carg_parse_pos_search_found _ hcur q P hsr
          rw [hc] at hget
          exact hblock P (some t) P.handler q (List.getElem?_mem hget)
            (Or.inr (Or.inr (Or.inr (Or.inr
              ⟨Or.inr ⟨h0, hno, h3⟩, hPt, ⟨q, hsr⟩, rfl⟩)))) a w hm
        | sentinel q =>
          rw [hsr] at hm
          simp only [set_last_pos_trace, report_trace, List.mem_append,
            List.mem_singleton] at hm
          rcases hm with h4 | h4
          · exact hold a w h4
          · cases h4
    · rw [hd]
      refine ⟨?_, fun h => by simp [carg_parse_perform] at h⟩
      intro a w hm
      simp only [carg_parse_perform, invoke_trace, write_trace, List.append_assoc] at hm
      exact hblock D (some t) D.handler i (List.getElem?_mem hf.1)
        (Or.inl ⟨h0, ⟨i, hf⟩, hn, hty, rfl⟩) a w hm
    · rw [hd]
      refine ⟨hold, fun _ => ⟨i, D, rfl, pre, t, i, rfl, hpre, hty, hn.2, h0, hf⟩⟩
    · rw [hd]
      refine ⟨?_, fun h => by simp [carg_parse_perform] at h⟩
      intro a w hm
      simp only [carg_parse_perform, invoke_trace, write_trace, List.append_assoc] at hm
      exact hblock D none D.neg_handler i (List.getElem?_mem hf.1)
        (Or.inr (Or.inl ⟨h0, ⟨i, hf⟩, hn, hneg, rfl⟩)) a w hm
  · rw [hv]
    refine ⟨?_, fun h => by simp [carg_parse_perform] at h⟩
    intro a w hm
    simp only [carg_parse_perform, invoke_trace, write_trace, List.append_assoc] at hm
    have hval : (carg_parse_loop parser slots pre).state = 1 ∧ KeyFrom parser slots pre K := by
      match hLs : (carg_parse_loop parser slots pre).state, hne with
      | 1, _ =>
        obtain ⟨j2, K2, hkey, hfrom⟩ := hst hLs
        refine ⟨rfl, ?_⟩
        rw [hLs] at hv
        simp only [carg_parse_dispatch, hkey, Action.value.injEq] at hv
        rw [← hv.2]
        exact hfrom
      | 0, hne0 => exact absurd rfl hne0
      | 2, _ =>
        rw [hLs] at hv
        simp [carg_parse_dispatch] at hv
      | n + 3, _ =>
        rw [hLs] at hv
        simp [carg_parse_dispatch] at hv
    obtain ⟨hs1, hfrom⟩ := hval
    have hKmem : K ∈ entries parser.cargs := by
      obtain ⟨_, _, j, _, _, _, _, _, hf⟩ := hfrom
      exact List.getElem?_mem hf.1
    exact hblock K (some t) K.handler k hKmem
      (Or.inr (Or.inr (Or.inl ⟨hs1, hfrom, rfl⟩))) a w hm
  · rw [hs]
    refine ⟨hold, ?_⟩
    intro h1
    simp only [carg_parse_perform] at h1
    obtain ⟨j2, K2, hkey, _⟩ := hst h1
    rw [h1] at hs
    simp [carg_parse_dispatch, hkey] at hs
  · rw [hp]
    refine ⟨?_, fun h => by simp [carg_parse_perform, h2] at h⟩
    intro a w hm
    simp only [carg_parse_perform] at hm
    rw [carg_parse_pos_of_search] at hm
    cases hsr : carg_parse_pos_search (carg_parse_loop parser slots pre).m with
    | found q P =>
      rw [hsr] at hm
      simp only [invoke_trace, write_trace, set_last_pos_trace, List.append_assoc] at hm
      obtain ⟨hget, hPt⟩ := carg_parse_pos_search_found _ hcur q P hsr
      rw [hc] at hget
      exact hblock P (some t) P.handler q (List.getElem?_mem hget)
        (Or.inr (Or.inr (Or.inr (Or.inr ⟨Or.inl h2, hPt, ⟨q, hsr⟩, rfl⟩)))) a w hm
    | sentinel q =>
      rw [hsr] at hm
      simp only [set_last_pos_trace, report_trace, List.mem_append,
        List.mem_singleton] at hm
      rcases hm with h4 | h4
      · exact hold a w h4
      · cases h4


theorem matchInv_carg_parse_loop (parser : carg_parser_t) (slots : Slots)
    (argv : List String) : MatchInv parser slots argv := by
  induction argv using List.reverseRecOn with
  | nil =>
    refine ⟨?_, ?_⟩
    · intro a v hm
      simp [carg_parse_loop, carg_parse_init] at hm
    · intro h
      simp [carg_parse_loop, carg_parse_init] at h
  | append_singleton pre t ih =>
    by_cases hpre : pre = []
    · rw [hpre]
      refine ⟨?_, ?_⟩
      · intro a v hm
        simp [carg_parse_loop, carg_parse_init] at hm
      · intro h
        simp [carg_parse_loop, carg_parse_init] at h
    · exact matchInv_snoc parser slots pre t hpre ih

/-- Every store of a scan is the store of a match of some token after token zero. -/
theorem matched_carg_parse (parser : carg_parser_t) (slots : Slots) (argv : List String)
    (a : Nat) (v : Option String)
    (hm : Event.write a v ∈ (carg_parse parser slots argv).trace) :
    ∃ i t E, MatchedAt parser slots argv i t E v ∧ E.value = some a := by
  obtain ⟨hw, _⟩ := matchInv_carg_parse_loop parser slots argv
  unfold carg_parse carg_parse_finish at hm
  split at hm
  · simp only [report_trace, List.mem_append, List.mem_singleton] at hm
    rcases hm with h1 | h1
    · exact hw a v h1
    · cases h1
  · exact hw a v hm

theorem lastWrite_mem (b : Nat) (tr : List Event) (v : Option String)
    (h : lastWrite b tr = some v) : Event.write b v ∈ tr := by
  induction tr with
  | nil => simp [lastWrite] at h
  | cons ev rest ih =>
    cases ev with
    | write a w =>
      simp only [lastWrite] at h
      cases hr : lastWrite b rest with
      | some w2 =>
        rw [hr] at h
        simp only [Option.some.injEq] at h
        rw [h] at hr
        exact List.mem_cons_of_mem _ (ih hr)
      | none =>
        rw [hr] at h
        simp only at h
        split at h
        · rename_i hba
          simp only [Option.some.injEq] at h
          rw [hba, h]
          exact List.mem_cons_self _ _
        · cases h
    | call f i =>
      simp only [lastWrite] at h
      exact List.mem_cons_of_mem _ (ih h)
    | error e s i =>
      simp only [lastWrite] at h
      exact List.mem_cons_of_mem _ (ih h)

/-- A slot holds, after a scan, its initial value or the value stored by the match of some
token with a declared descriptor that has this slot. -/
theorem carg_parse_slot_matched (parser : carg_parser_t) (slots : Slots)
    (argv : List String) (b : Nat) :
    (carg_parse parser slots argv).slots b = slots b ∨
    ∃ i t E, MatchedAt parser slots argv i t E ((carg_parse parser slots argv).slots b) ∧
      E.value = some b := by
  have ht : (carg_parse parser slots argv).slots =
      applyWrites (carg_parse parser slots argv).trace slots := tracks_carg_parse parser slots argv
  rw [ht, applyWrites_lastWrite]
  cases hl : lastWrite b (carg_parse parser slots argv).trace with
  | none => exact Or.inl rfl
  | some v =>
    exact Or.inr (matched_carg_parse parser slots argv b v (lastWrite_mem b _ v hl))

theorem matchedNow_value {parser : carg_parser_t} {slots : Slots} {pre : List String}
    {t : String} {E : carg} {v : Option String} (h : MatchedNow parser slots pre t E v) :
    v = some t ∨ (v = none ∧ E.type = CARG_UNARY ∧ E.neg_name = some t) := by
  rcases h with ⟨_, _, _, _, h⟩ | ⟨_, _, _, hneg, h⟩ | ⟨_, _, h⟩ | ⟨_, _, _, _, h⟩ |
    ⟨_, _, _, h⟩
  · exact Or.inl h
  · exact Or.inr ⟨h, hneg.1, hneg.2⟩
  · exact Or.inl h
  · exact Or.inl h
  · exact Or.inl h

theorem matchedNow_keyword {parser : carg_parser_t} {slots : Slots} {pre : List String}
    {t : String} {E : carg} {v : Option String} (h : MatchedNow parser slots pre t E v)
    (hty : E.type = CARG_KEYWORD) : KeyFrom parser slots pre E ∧ v = some t := by
  rcases h with ⟨_, _, _, h, _⟩ | ⟨_, _, _, hneg, _⟩ | ⟨_, h1, h2⟩ | ⟨_, _, h, _⟩ |
    ⟨_, h, _⟩
  · rw [hty] at h; cases h
  · have h1 := hneg.1
    rw [hty] at h1; cases h1
  · exact ⟨h1, h2⟩
  · rw [hty] at h; cases h
  · rw [hty] at h; cases h

theorem keyFrom_index {parser : carg_parser_t} {slots : Slots} {argv : List String}
    {i : Nat} {t : String} {E : carg} (hi : argv[i]? = some t)
    (h : KeyFrom parser slots (argv.take i) E) :
    ∃ k, 2 ≤ i ∧ argv[i - 1]? = some k ∧ E.name = some k := by
  obtain ⟨init, k, j, heq, hinit, _, hname, _, _⟩ := h
  have hlt : i < argv.length := by
    by_contra hge
    rw [List.getElem?_eq_none (Nat.le_of_not_lt hge)] at hi
    cases hi
  have hlen : (argv.take i).length = i := by
    rw [List.length_take]; omega
  have hilen : i = init.length + 1 := by
    rw [heq] at hlen
    simp at hlen
    omega
  have hpos : 0 < init.length := List.length_pos.mpr hinit
  refine ⟨k, by omega, ?_, hname⟩
  have hget : (argv.take i)[i - 1]? = some k := by
    rw [heq, hilen]
    simp
  rw [List.getElem?_take] at hget
  split at hget
  · exact hget
  · cases hget


/-- C20, the claim as stated fails when a keyword descriptor shares its slot with a
positional descriptor: in the table [keyword `--key` with slot 0, positional with slot 0,
end] and `prog x`, no token is the name `--key`, no token matches the keyword descriptor,
and yet the slot of the keyword descriptor, absent before the scan, holds `x` after it. -/
theorem keyword_slot_shared_counterexample :
    (entries keyshare_cargs)[0]? =
      some (carg.mk0 CARG_KEYWORD (some 0) (some "--key") (Char.ofNat 0) none none none) ∧
    (∀ E ∈ entries keyshare_cargs, E.type = CARG_KEYWORD → ∀ t ∈ ["prog", "x"],
      E.name ≠ some t) ∧
    null_slots 0 = none ∧
    (carg_parse keyshare_setup null_slots ["prog", "x"]).slots 0 = some "x" := by
  refine ⟨by decide, by decide, rfl, ?_⟩
  simp [carg_parse, carg_parse_loop, carg_parse_init, carg_parse_step, carg_parse_dispatch,
    carg_parse_match, keyshare_setup, keyshare_cargs, carg.mk0, carg_parse_perform,
    carg_parse_unmatched, carg_parse_pos, carg_parse_pos_loop, carg_parse_pos_start,
    carg_parse_finish, write_slots]

/-- C20, amended: the claim holds once its last two parts are stated for a slot and all the
descriptors that have it. For every table, argv, initial slots and slot address `b`:
(1) the value of `b` after `carg_parse` is its initial value, or the value stored by the
match of a token `argv[i]`, `i ≥ 1`, with a declared descriptor whose slot is `b` (first
match by name or negation in the default state, value read right after a keyword name,
flag reached in a cluster, positional descriptor selected by the positional scanner);
(2) hence it is the initial value, absent, or some `argv[i]` with `1 ≤ i < argc`;
(3) it is absent only if it was so initially or `b` is the slot of a unary descriptor whose
negation is a token `argv[i]`, `i ≥ 1`; (4) when every declared descriptor with slot `b`
is a keyword descriptor, it is the initial value or a token `argv[i]` that immediately
follows the name `argv[i - 1]`, `i ≥ 2`, of a keyword descriptor with slot `b`; (5) when no
token matches any declared descriptor with slot `b`, it is the initial value; (6) in
particular the slot of a declared descriptor that no token matches, and that no other
declared descriptor has as slot, is unchanged. -/
theorem slot_value_provenance (parser : carg_parser_t) (slots : Slots) (argv : List String)
    (b : Nat) :
    ((carg_parse parser slots argv).slots b = slots b ∨
      ∃ i t E, MatchedAt parser slots argv i t E ((carg_parse parser slots argv).slots b) ∧
        E.value = some b) ∧
    ((carg_parse parser slots argv).slots b = slots b ∨
      (carg_parse parser slots argv).slots b = none ∨
      ∃ i, 1 ≤ i ∧ i < argv.length ∧ argv[i]? = (carg_parse parser slots argv).slots b) ∧
    ((carg_parse parser slots argv).slots b = none →
      slots b = none ∨
      ∃ E ∈ entries parser.cargs, E.type = CARG_UNARY ∧ E.value = some b ∧
        ∃ i t, 1 ≤ i ∧ argv[i]? = some t ∧ E.neg_name = some t) ∧
    ((∀ E ∈ entries parser.cargs, E.value = some b → E.type = CARG_KEYWORD) →
      (carg_parse parser slots argv).slots b = slots b ∨
      ∃ K ∈ entries parser.cargs, K.type = CARG_KEYWORD ∧ K.value = some b ∧
        ∃ i k t, 2 ≤ i ∧ argv[i - 1]? = some k ∧ argv[i]? = some t ∧ K.name = some k ∧
          (carg_parse parser slots argv).slots b = some t) ∧
    ((∀ E ∈ entries parser.cargs, E.value = some b →
        ∀ i t v, ¬ MatchedAt parser slots argv i t E v) →
      (carg_parse parser slots argv).slots b = slots b) ∧
    (∀ D ∈ entries parser.cargs, D.value = some b →
      (∀ E ∈ entries parser.cargs, E.value = some b → E = D) →
      (∀ i t v, ¬ MatchedAt parser slots argv i t D v) →
      (carg_parse parser slots argv).slots b = slots b) := by
  have hcore := carg_parse_slot_matched parser slots argv b
  refine ⟨hcore, ?_, ?_, ?_, ?_, ?_⟩
  · rcases hcore with h | ⟨i, t, E, ⟨h1, h2, _, h4⟩, _⟩
    · exact Or.inl h
    · rcases matchedNow_value h4 with h | ⟨h, _⟩
      · refine Or.inr (Or.inr ⟨i, h1, ?_, by rw [h2, h]⟩)
        by_contra hge
        rw [List.getElem?_eq_none (Nat.le_of_not_lt hge)] at h2
        cases h2
      · exact Or.inr (Or.inl h)
  · intro hnone
    rcases hcore with h | ⟨i, t, E, ⟨h1, h2, hE, h4⟩, hv⟩
    · rw [hnone] at h
      exact Or.inl h.symm
    · rcases matchedNow_value h4 with h | ⟨_, hty, hneg⟩
      · rw [hnone] at h
        cases h
      · exact Or.inr ⟨E, hE, hty, hv, i, t, h1, h2, hneg⟩
  · intro hkw
    rcases hcore with h | ⟨i, t, E, ⟨h1, h2, hE, h4⟩, hv⟩
    · exact Or.inl h
    · have hty := hkw E hE hv
      obtain ⟨hfrom, hval⟩ := matchedNow_keyword h4 hty
      obtain ⟨k, hi, hk, hname⟩ := keyFrom_index h2 hfrom
      exact Or.inr ⟨E, hE, hty, hv, i, k, t, hi, hk, h2, hname, hval⟩
  · intro hun
    rcases hcore with h | ⟨i, t, E, hM, hv⟩
    · exact h
    · exact absurd hM (hun E hM.2.2.1 hv i t _)
  · intro D hD hDv honly hun
    rcases hcore with h | ⟨i, t, E, hM, hv⟩
    · exact h
    · have hED := honly E hM.2.2.1 hv
      rw [hED] at hM
      exact absurd hM (hun i t _)


theorem slot_value_provenance_witness :
    (∀ E ∈ entries scenario_setup.cargs, E.value = some 2 →
      ∀ i t v, ¬ MatchedAt scenario_setup null_slots ["prog", "--foo"] i t E v) ∧
    (carg_parse scenario_setup null_slots ["prog", "--foo"]).slots 2 = null_slots 2 := by
  have hyp : ∀ E ∈ entries scenario_setup.cargs, E.value = some 2 →
      ∀ i t v, ¬ MatchedAt scenario_setup null_slots ["prog", "--foo"] i t E v := by
    intro E hE hval i t v hM
    have hty : E.type = CARG_POS := by
      simp [entries, scenario_setup, scenario_cargs, carg.mk0] at hE
      rcases hE with h | h | h | h <;> rw [h] at hval ⊢ <;> simp at hval ⊢
    obtain ⟨h1, h2, _, h4⟩ := hM
    have hi : i = 1 := by
      have hlt : i < 2 := by
        by_contra hge
        rw [List.getElem?_eq_none (by simpa using hge)] at h2
        cases h2
      omega
    rw [hi] at h2 h4
    have ht : t = "--foo" := by
      simp at h2
      exact h2.symm
    rw [ht] at h4
    have hs : (carg_parse_loop scenario_setup null_slots
        (List.take 1 ["prog", "--foo"])).state = 0 := rfl
    rcases h4 with ⟨_, _, _, h, _⟩ | ⟨_, _, _, h, _⟩ | ⟨h, _⟩ | ⟨_, _, h, _⟩ | ⟨h, _⟩
    · rw [hty] at h; cases h
    · have h5 := h.1
      rw [hty] at h5; cases h5
    · rw [hs] at h; cases h
    · rw [hty] at h; cases h
    · rcases h with h | ⟨_, h, _⟩
      · rw [hs] at h; cases h
      · exact absurd h (by decide)
  exact ⟨hyp,
    (slot_value_provenance scenario_setup null_slots ["prog", "--foo"] 2).2.2.2.2.1 hyp⟩

end Cargs
